import Mathlib

set_option maxHeartbeats 1000000

/-!
Shallow embedding of `networkx/algorithms/shortest_paths/weighted.py` and
verification of its specification claims.

Nodes are modelled as natural numbers (Python node identities are opaque
hashables; only equality is used).  Python dictionaries keyed by nodes are
modelled as functions `Nat → Option α` (`none` = key absent).  Edge weights are
integers; a weight callable is a function `Nat → Nat → Option Int`, where
`w u v` is the value of the Python call `weight(u, v, e)` on the edge data `e`
of the edge `u → v` (for a simple graph the data is determined by the
endpoints; `none` models the callable returning `None`, which hides the edge).
-/

namespace NX

/-- Python dictionaries keyed by nodes. -/
abbrev NMap (α : Type) := Nat → Option α

/-- `m[k] = v` dictionary assignment. -/
def updF {α : Type} (m : NMap α) (k : Nat) (v : α) : NMap α :=
  fun x => if x = k then some v else m x

/-- The directed-graph interface consumed by the algorithms: node list,
successor adjacency (`G._succ`, as an association list preserving dict
order), predecessor adjacency (`G._pred`), and the directedness flag.
For undirected graphs the two adjacency views coincide (`G._adj`). -/
structure Graph where
  nodes : List Nat
  succL : List (Nat × List Nat)
  predL : List (Nat × List Nat)
  directed : Bool
deriving DecidableEq

/-- `G_succ[v]` : the successor list of `v` (empty when absent). -/
def Graph.adj (g : Graph) (v : Nat) : List Nat :=
  (g.succL.lookup v).getD []

/-- The backward adjacency used by `bidirectional_dijkstra`:
`G._pred` for directed graphs, `G._adj` otherwise. -/
def Graph.bwdL (g : Graph) : List (Nat × List Nat) :=
  if g.directed then g.predL else g.succL

/-- Backward neighbour list of `v`. -/
def Graph.radj (g : Graph) (v : Nat) : List Nat :=
  (g.bwdL.lookup v).getD []

/-- The error taxonomy of the library (names abstract the networkx
exception classes). `fuelOut` is an artefact of the fuel-based embedding of
the unbounded loops; it is proved unreachable where a claim needs it. -/
inductive Err where
  | nodeNotFound
  | noPath
  | unbounded
  | contradictory
  | valueError
  | networkXError
  | unboundLocal
  | typeError
  | fuelOut
deriving DecidableEq, Repr

/-! ## Spec-level paths, reachability, cycles -/

/-- Weighted paths along successor edges, built by appending edges at the
end; `PathW g w s v c` holds when there is a path from `s` to `v` whose
(non-hidden) edge weights sum to `c`. -/
inductive PathW (g : Graph) (w : Nat → Nat → Option Int) (s : Nat) : Nat → Int → Prop
  | refl : PathW g w s s 0
  | tail {y v : Nat} {c cu : Int} :
      PathW g w s y c → v ∈ g.adj y → w y v = some cu → PathW g w s v (c + cu)

/-- Unweighted reachability along successor edges. -/
inductive Reach (g : Graph) (s : Nat) : Nat → Prop
  | refl : Reach g s s
  | tail {y v : Nat} : Reach g s y → v ∈ g.adj y → Reach g s v

/-- Weighted paths for a total weight function (the Bellman–Ford family
does not support hidden edges). -/
inductive PathT (g : Graph) (w : Nat → Nat → Int) (s : Nat) : Nat → Int → Prop
  | refl : PathT g w s s 0
  | tail {y v : Nat} {c : Int} :
      PathT g w s y c → v ∈ g.adj y → PathT g w s v (c + w y v)

/-- A negative-weight cycle reachable from `s`: a reachable node `v`, an
edge `v → u` and a path `u → v` closing a cycle of negative total weight. -/
def HasNegCycleFrom (g : Graph) (w : Nat → Nat → Int) (s : Nat) : Prop :=
  ∃ v u c, Reach g s v ∧ u ∈ g.adj v ∧ PathT g w u v c ∧ w v u + c < 0

/-- Non-negativity of the weight callable on all edges of the graph
(stated decidably, over the adjacency structure). -/
def NonnegW (g : Graph) (w : Nat → Nat → Option Int) : Prop :=
  ∀ p ∈ g.succL, ∀ u ∈ p.2, 0 ≤ ((w p.1 u).getD 0)

/-! ## The Dijkstra multi-source core (`_dijkstra_multisource`) -/

/-- The keyword arguments of `_dijkstra_multisource`.  `usePaths` /
`usePred` model whether the caller supplied `paths` / `pred` dictionaries. -/
structure DijkArgs where
  w : Nat → Nat → Option Int
  nodeWeight : Option (Nat → Int)
  cutoff : Option Int
  target : Option Nat
  usePaths : Bool
  usePred : Bool

/-- The mutable state of the core: final distances `dist`, tentative
distances `seen`, the optional `paths` and `pred` dictionaries, the heap
contents `fringe` (triples `(distance, counter, node)`) and the insertion
counter `c`. -/
structure DState where
  dist : NMap Int
  seen : NMap Int
  paths : NMap (List Nat)
  pred : NMap (List Nat)
  fringe : List (Int × Nat × Nat)
  ctr : Nat

/-- `cost = weight(v, u, e) if node_weight is None else weight(v, u, e) +
node_weight[u]` (line 824).  A hidden edge (`None` weight) yields `none`;
the Python `None + node_weight[u]` type error in the hidden-edge-with-
node-weight corner is not modelled (no claim touches it). -/
def dijkstraCost (A : DijkArgs) (v u : Nat) : Option Int :=
  match A.nodeWeight with
  | none => A.w v u
  | some f => (A.w v u).map (fun c => c + f u)

/-- `if cutoff is not None: if vu_dist > cutoff: continue` (lines 828-830). -/
def cutoffOK (A : DijkArgs) (d : Int) : Bool :=
  match A.cutoff with
  | none => true
  | some co => decide (d ≤ co)

/-- One relaxation of the edge `v → u` by the core (lines 824-846): the
body of the `for u, e in G_succ[v].items()` loop. -/
def dijkstraRelaxEdge (A : DijkArgs) (v u : Nat) (st : DState) : Except Err DState :=
  match dijkstraCost A v u with
  | none => .ok st
  | some cost =>
    let vu : Int := (st.dist v).getD 0 + cost
    if cutoffOK A vu = false then .ok st
    else
      match st.dist u with
      | some du =>
        if vu < du then .error .contradictory
        else if A.usePred = true ∧ vu = du then
          .ok { st with pred := updF st.pred u ((st.pred u).getD [] ++ [v]) }
        else .ok st
      | none =>
        if st.seen u = none ∨ vu < (st.seen u).getD 0 then
          .ok { st with
                seen := updF st.seen u vu
                fringe := st.fringe ++ [(vu, st.ctr, u)]
                ctr := st.ctr + 1
                paths := if A.usePaths then updF st.paths u ((st.paths v).getD [] ++ [u]) else st.paths
                pred := if A.usePred then updF st.pred u [v] else st.pred }
        else if vu = (st.seen u).getD 0 then
          if A.usePred then
            .ok { st with pred := updF st.pred u ((st.pred u).getD [] ++ [v]) }
          else .ok st
        else .ok st

/-- Relaxation of all out-edges of `v`, in adjacency order. -/
def dijkstraRelaxList (A : DijkArgs) (v : Nat) : List Nat → DState → Except Err DState
  | [], st => .ok st
  | u :: rest, st =>
    match dijkstraRelaxEdge A v u st with
    | .error e => .error e
    | .ok st' => dijkstraRelaxList A v rest st'

/-- `a` is lexicographically no larger than `b` on `(distance, counter)`.
The counter makes heap entries totally ordered without comparing nodes. -/
def entryLE (a b : Int × Nat × Nat) : Bool :=
  decide (a.1 < b.1) || (decide (a.1 = b.1) && decide (a.2.1 ≤ b.2.1))

/-- The minimum entry of `x :: xs` in the `entryLE` order. -/
def minEntry : (Int × Nat × Nat) → List (Int × Nat × Nat) → (Int × Nat × Nat)
  | m, [] => m
  | m, x :: xs => minEntry (if entryLE m x then m else x) xs

/-- `heappop`: remove and return the least entry of the heap.  (A binary
heap pops exactly the lexicographically least triple; the heap layout
itself is irrelevant to behaviour, so the fringe is kept as a list.) -/
def popMin (l : List (Int × Nat × Nat)) : Option ((Int × Nat × Nat) × List (Int × Nat × Nat)) :=
  match l with
  | [] => none
  | x :: xs =>
    let m := minEntry x xs
    some (m, (x :: xs).erase m)

/-- The main loop of `_dijkstra_multisource` (lines 816-846), structurally
recursive on a fuel argument; `fuelOut` is proved unreachable for the fuel
chosen below. -/
def dijkstraLoop (g : Graph) (A : DijkArgs) : Nat → DState → Except Err DState
  | 0, _ => .error .fuelOut
  | fuel + 1, st =>
    match popMin st.fringe with
    | none => .ok st
    | some ((d, _i, v), rest) =>
      if (st.dist v).isSome then
        dijkstraLoop g A fuel { st with fringe := rest }
      else
        let st1 : DState := { st with dist := updF st.dist v d, fringe := rest }
        if A.target = some v then .ok st1
        else
          match dijkstraRelaxList A v (g.adj v) st1 with
          | .error e => .error e
          | .ok st2 => dijkstraLoop g A fuel st2

/-- Seeding loop (lines 808-815): for each source, validate membership,
seed `seen[source] = 0` and push `(0, c, source)` — or
`(node_weight[source], c, source)` when a node-weight map is supplied. -/
def dijkstraInitLoop (g : Graph) (nw : Option (Nat → Int)) :
    List Nat → DState → Except Err DState
  | [], st => .ok st
  | s :: rest, st =>
    if s ∈ g.nodes then
      dijkstraInitLoop g nw rest
        { st with
          seen := updF st.seen s 0
          fringe := st.fringe ++ [((match nw with | none => 0 | some f => f s), st.ctr, s)]
          ctr := st.ctr + 1 }
    else .error .nodeNotFound

/-- The state at entry of `_dijkstra_multisource`, before seeding:
`dist = {}`, `seen = {}`, caller-supplied `paths` and `pred`, empty heap,
counter `0`. -/
def dijkstraStart (paths0 pred0 : NMap (List Nat)) : DState :=
  { dist := fun _ => none
    seen := fun _ => none
    paths := paths0
    pred := pred0
    fringe := []
    ctr := 0 }

/-- Fuel that provably dominates the iteration count of the main loop. -/
def dijkstraFuel (g : Graph) (sources : List Nat) : Nat :=
  1 + sources.length + ((g.succL.map (fun p => 1 + p.2.length)).sum)

/-- `_dijkstra_multisource` : seed from `sources`, then run the heap loop.
Returns the final state; the Python function returns `dist`, with `paths`
and `pred` visible to the caller through the argument dictionaries. -/
def dijkstra_multisource (g : Graph) (A : DijkArgs) (sources : List Nat)
    (paths0 pred0 : NMap (List Nat)) : Except Err DState :=
  match dijkstraInitLoop g A.nodeWeight sources (dijkstraStart paths0 pred0) with
  | .error e => .error e
  | .ok st => dijkstraLoop g A (dijkstraFuel g sources) st

/-- The distance dictionary returned by `_dijkstra_multisource` with no
`pred`, no `paths`, no cutoff and no target. -/
def dijkstraDistOf (g : Graph) (w : Nat → Nat → Option Int) (sources : List Nat) :
    Except Err (NMap Int) :=
  (dijkstra_multisource g ⟨w, none, none, none, false, false⟩ sources
    (fun _ => none) (fun _ => none)).map (fun st => st.dist)

/-! ## Dijkstra façade wrappers -/

/-- The heterogeneous return value of `multi_source_dijkstra` (a pair of
dictionaries when no target is given, a `(length, path)` pair otherwise). -/
inductive MSResult where
  | all (dist : NMap Int) (paths : NMap (List Nat))
  | one (length : Int) (path : List Nat)
deriving Inhabited

/-- `paths = {source: [source] for source in sources}` (line 721). -/
def sourcesPaths (sources : List Nat) : NMap (List Nat) :=
  fun v => if v ∈ sources then some [v] else none

/-- `multi_source_dijkstra` (lines 618-731). -/
def multi_source_dijkstra (g : Graph) (w : Nat → Nat → Option Int) (sources : List Nat)
    (tgt : Option Nat) (cutoff : Option Int) (nw : Option (Nat → Int)) :
    Except Err MSResult :=
  if sources = [] then .error .valueError
  else
    match tgt with
    | some t =>
      if t ∈ sources then .ok (.one 0 [t])
      else
        match dijkstra_multisource g ⟨w, nw, cutoff, some t, true, false⟩ sources
            (sourcesPaths sources) (fun _ => none) with
        | .error e => .error e
        | .ok st =>
          match st.dist t, st.paths t with
          | some dt, some pt => .ok (.one dt pt)
          | _, _ => .error .noPath
    | none =>
      match dijkstra_multisource g ⟨w, nw, cutoff, none, true, false⟩ sources
          (sourcesPaths sources) (fun _ => none) with
      | .error e => .error e
      | .ok st => .ok (.all st.dist st.paths)

/-- `single_source_dijkstra` (lines 370-466): forwards to the multi-source
variant with a singleton source set. -/
def single_source_dijkstra (g : Graph) (w : Nat → Nat → Option Int) (source : Nat)
    (tgt : Option Nat) (cutoff : Option Int) (nw : Option (Nat → Int)) :
    Except Err MSResult :=
  multi_source_dijkstra g w [source] tgt cutoff nw

/-- `multi_source_dijkstra_path_length` (lines 541-615). -/
def multi_source_dijkstra_path_length (g : Graph) (w : Nat → Nat → Option Int)
    (sources : List Nat) (cutoff : Option Int) (nw : Option (Nat → Int)) :
    Except Err (NMap Int) :=
  if sources = [] then .error .valueError
  else
    (dijkstra_multisource g ⟨w, nw, cutoff, none, false, false⟩ sources
      (fun _ => none) (fun _ => none)).map (fun st => st.dist)

/-- `single_source_dijkstra_path_length` (lines 300-367).  Note line 367 of
the source forwards `node_weight=None` to the multi-source call, ignoring
the caller's `node_weight` argument. -/
def single_source_dijkstra_path_length (g : Graph) (w : Nat → Nat → Option Int)
    (source : Nat) (cutoff : Option Int) (_nw : Option (Nat → Int)) :
    Except Err (NMap Int) :=
  multi_source_dijkstra_path_length g w [source] cutoff none

/-! ## The Bellman–Ford / SPFA core (`_bellman_ford`) -/

/-- State of the SPFA relaxation loop.  `predKeys` tracks the key list of
the `pred` dictionary in insertion order (a Python dict remembers its
keys); it is needed for the path-materialization step that iterates over
`pred`.  The Bellman–Ford family takes a total weight function (it never
checks for a `None` weight). -/
structure BFState where
  dist : NMap Int
  predM : NMap (List Nat)
  predKeys : List Nat
  predEdge : NMap (Option Nat)
  recentUpdate : NMap (Option Nat × Option Nat)
  cnt : NMap Nat
  q : List Nat
  inQ : List Nat

/-- Add a key to an insertion-ordered key list. -/
def addKey (ks : List Nat) (v : Nat) : List Nat :=
  if v ∈ ks then ks else ks ++ [v]

/-- One relaxation of the edge `u → v` by `_bellman_ford` (lines
1298-1332): `dist_v = dist_u + w(u,v)`; on strict improvement run the
optional Pfeifer heuristic (raising on a repeated endpoint in
`recent_update[u]`), enqueue `v` if absent (raising when its enqueue
count reaches `n`), and set `dist`/`pred`/`pred_edge`; on equality append
`u` to `pred[v]`. -/
def bfRelaxEdge (n : Nat) (heuristic : Bool) (w : Nat → Nat → Int)
    (u : Nat) (distU : Int) (v : Nat) (st : BFState) : Except Err BFState :=
  let dv : Int := distU + w u v
  let improves : Bool := match st.dist v with | none => true | some dc => decide (dv < dc)
  if improves then
    let ru := (st.recentUpdate u).getD (none, none)
    if heuristic = true ∧ (some v = ru.1 ∨ some v = ru.2) then .error .unbounded
    else
      let recent' : NMap (Option Nat × Option Nat) :=
        if heuristic then
          updF st.recentUpdate v (if st.predEdge v = some (some u) then ru else (some u, some v))
        else st.recentUpdate
      if v ∈ st.inQ then
        .ok { st with
              recentUpdate := recent'
              dist := updF st.dist v dv
              predM := updF st.predM v [u]
              predKeys := addKey st.predKeys v
              predEdge := updF st.predEdge v (some u) }
      else
        let cv : Nat := (st.cnt v).getD 0 + 1
        if cv = n then .error .unbounded
        else
          .ok { st with
                recentUpdate := recent'
                q := st.q ++ [v]
                inQ := v :: st.inQ
                cnt := updF st.cnt v cv
                dist := updF st.dist v dv
                predM := updF st.predM v [u]
                predKeys := addKey st.predKeys v
                predEdge := updF st.predEdge v (some u) }
  else if st.dist v = some dv then
    .ok { st with
          predM := updF st.predM v ((st.predM v).getD [] ++ [u])
          predKeys := addKey st.predKeys v }
  else .ok st

/-- Relax all out-edges of `u`; `dist_u` is read once before the loop. -/
def bfRelaxList (n : Nat) (heuristic : Bool) (w : Nat → Nat → Int)
    (u : Nat) (distU : Int) : List Nat → BFState → Except Err BFState
  | [], st => .ok st
  | v :: rest, st =>
    match bfRelaxEdge n heuristic w u distU v st with
    | .error e => .error e
    | .ok st' => bfRelaxList n heuristic w u distU rest st'

/-- The SPFA queue loop (lines 1291-1332): pop `u` from the deque, drop it
from `in_q`, and relax its out-edges unless one of its predecessors is
still queued. -/
def bfLoop (g : Graph) (w : Nat → Nat → Int) (n : Nat) (heuristic : Bool) :
    Nat → BFState → Except Err BFState
  | 0, _ => .error .fuelOut
  | fuel + 1, st =>
    match st.q with
    | [] => .ok st
    | u :: qrest =>
      let st1 : BFState := { st with q := qrest, inQ := st.inQ.erase u }
      if ((st1.predM u).getD []).all (fun p => decide (p ∉ st1.inQ)) then
        match bfRelaxList n heuristic w u ((st1.dist u).getD 0) (g.adj u) st1 with
        | .error e => .error e
        | .ok st2 => bfLoop g w n heuristic fuel st2
      else bfLoop g w n heuristic fuel st1

/-- Modelled from the spec: the external path-reconstruction helper
`_build_paths_from_predecessors` (imported from `generic.py`, not part of
this file): given a predecessor map it yields the shortest paths from the
sources to `dst`; Bellman–Ford materializes the first one, obtained here
by walking the first predecessor of each node back to a source (a node
whose predecessor list is empty). -/
def build_path_from_pred (pred : NMap (List Nat)) : Nat → Nat → Option (List Nat)
  | 0, _ => none
  | fuel + 1, dst =>
    match pred dst with
    | none => none
    | some [] => some [dst]
    | some (p :: _) => (build_path_from_pred pred fuel p).map (fun l => l ++ [dst])

/-- Path materialization (lines 1334-1339): for each destination, store
the first reconstructed path; a missing path signals `NetworkXNoPath`. -/
def bfBuildPaths (pred : NMap (List Nat)) (fuel : Nat) :
    List Nat → NMap (List Nat) → Except Err (NMap (List Nat))
  | [], acc => .ok acc
  | dst :: rest, acc =>
    match build_path_from_pred pred fuel dst with
    | none => .error .noPath
    | some p => bfBuildPaths pred fuel rest (updF acc dst p)

/-- Fuel that dominates the SPFA iteration count (each node is enqueued
fewer than `n` times before the count check raises). -/
def bfFuel (g : Graph) (sources : List Nat) : Nat :=
  (g.nodes.length + 1) * (g.nodes.length + 1) + sources.length + 1

/-- `_bellman_ford` (lines 1210-1341): validate the sources, default the
`pred` and `dist` dictionaries, run the SPFA loop, then materialize paths
when requested.  Returns the final state together with the `paths`
dictionary. -/
def bellman_ford_core (g : Graph) (sources : List Nat) (w : Nat → Nat → Int)
    (pred0 : Option (NMap (List Nat) × List Nat)) (usePaths : Bool)
    (dist0 : Option (NMap Int)) (tgt : Option Nat) (heuristic : Bool) :
    Except Err (BFState × NMap (List Nat)) :=
  if sources.all (fun s => decide (s ∈ g.nodes)) then
    let pr : NMap (List Nat) × List Nat :=
      match pred0 with
      | some p => p
      | none => (fun v => if v ∈ sources then some [] else none, sources.dedup)
    let st0 : BFState :=
      { dist := match dist0 with
                | some d => d
                | none => fun v => if v ∈ sources then some 0 else none
        predM := pr.1
        predKeys := pr.2
        predEdge := fun v => if v ∈ sources then some none else none
        recentUpdate := fun v => if v ∈ sources then some (none, none) else none
        cnt := fun _ => none
        q := sources
        inQ := sources }
    match bfLoop g w g.nodes.length heuristic (bfFuel g sources) st0 with
    | .error e => .error e
    | .ok st =>
      if usePaths then
        let dsts : List Nat := match tgt with | some t => [t] | none => st.predKeys
        match bfBuildPaths st.predM (g.nodes.length + 1) dsts (fun _ => none) with
        | .error e => .error e
        | .ok paths => .ok (st, paths)
      else .ok (st, fun _ => none)
  else .error .nodeNotFound

/-- `any(weight(u, v, d) < 0 for u, v, d in nx.selfloop_edges(G, data=True))`
— the self-loop precheck shared by `bellman_ford_predecessor_and_distance`
(line 1193) and `goldberg_radzik` (line 1786).  It scans every self-loop of
the graph, reachable from the source or not. -/
def selfloopNeg (g : Graph) (w : Nat → Nat → Int) : Bool :=
  g.nodes.any (fun u => decide (u ∈ g.adj u) && decide (w u u < 0))

/-- `bellman_ford_predecessor_and_distance` (lines 1100-1207). -/
def bellman_ford_predecessor_and_distance (g : Graph) (w : Nat → Nat → Int)
    (source : Nat) (tgt : Option Nat) (heuristic : Bool) :
    Except Err (NMap (List Nat) × NMap Int) :=
  if source ∉ g.nodes then .error .nodeNotFound
  else if selfloopNeg g w then .error .unbounded
  else
    let dist0 : NMap Int := fun v => if v = source then some 0 else none
    let pred0 : NMap (List Nat) := fun v => if v = source then some [] else none
    if g.nodes.length = 1 then .ok (pred0, dist0)
    else
      match bellman_ford_core g [source] w (some (pred0, [source])) false (some dist0)
          tgt heuristic with
      | .error e => .error e
      | .ok (st, _) => .ok (st.predM, st.dist)

/-- `single_source_bellman_ford` (lines 1532-1622).  The `source == target`
early return (line 1609) happens before any graph access. -/
def single_source_bellman_ford (g : Graph) (w : Nat → Nat → Int) (source : Nat)
    (tgt : Option Nat) : Except Err MSResult :=
  if tgt = some source then .ok (.one 0 [source])
  else
    match bellman_ford_core g [source] w none true none tgt true with
    | .error e => .error e
    | .ok (st, paths) =>
      match tgt with
      | none => .ok (.all st.dist paths)
      | some t =>
        match st.dist t, paths t with
        | some dt, some pt => .ok (.one dt pt)
        | _, _ => .error .noPath

/-! ## The Goldberg–Radzik core -/

/-- Distances with `+∞` (`none` is infinity, matching the `inf` entries of
the Python `d` dictionary). -/
def oleInf (a b : Option Int) : Bool :=
  match a, b with
  | none, none => true
  | none, some _ => false
  | some _, none => true
  | some x, some y => decide (x ≤ y)

/-- Strict order with `+∞`. -/
def oltInf (a b : Option Int) : Bool :=
  match a, b with
  | none, _ => false
  | some _, none => true
  | some x, some y => decide (x < y)

/-- `a + c` with `+∞` absorbing. -/
def oaddInf (a : Option Int) (c : Int) : Option Int :=
  a.map (fun x => x + c)

/-- Set a (possibly infinite) distance. -/
def setO (m : NMap Int) (k : Nat) (v : Option Int) : NMap Int :=
  fun x => if x = k then v else m x

/-- Mutable state shared by the Goldberg–Radzik phases. -/
structure GRState where
  d : NMap Int
  predG : NMap (Option Nat)
  predKeys : List Nat

/-- State of a `topo_sort` call: the algorithm state, the accumulated scan
list, and the DFS visit markers `neg_count`. -/
structure GRTopo where
  gr : GRState
  toScan : List Nat
  negCount : NMap Nat

/-- The non-recursive DFS inside `topo_sort` (lines 1827-1854): stack
frames hold a node and its remaining successor iterator; edges of
non-positive reduced cost are followed, `neg_count` counts the strictly
negative ones on the DFS path, and a back edge increasing `neg_count`
witnesses a negative cycle. -/
def grDFS (g : Graph) (w : Nat → Nat → Int) :
    Nat → List (Nat × List Nat) → List Nat → GRTopo → Except Err GRTopo
  | 0, _, _, _ => .error .fuelOut
  | fuel + 1, stack, inStack, T =>
    match stack with
    | [] => .ok T
    | (u, it) :: stackRest =>
      match it with
      | [] =>
        grDFS g w fuel stackRest (inStack.erase u) { T with toScan := T.toScan ++ [u] }
      | v :: itRest =>
        let t : Option Int := oaddInf (T.gr.d u) (w u v)
        if oleInf t (T.gr.d v) then
          let isNeg : Nat := if oltInf t (T.gr.d v) then 1 else 0
          let T1 : GRTopo :=
            { T with gr := { T.gr with
                             d := setO T.gr.d v t
                             predG := updF T.gr.predG v (some u)
                             predKeys := addKey T.gr.predKeys v } }
          if (T.negCount v).isSome = false then
            grDFS g w fuel ((v, g.adj v) :: (u, itRest) :: stackRest) (v :: inStack)
              { T1 with negCount := updF T1.negCount v ((T.negCount u).getD 0 + isNeg) }
          else if v ∈ inStack ∧ (T.negCount u).getD 0 + isNeg > (T.negCount v).getD 0 then
            .error .unbounded
          else
            grDFS g w fuel ((u, itRest) :: stackRest) inStack T1
        else
          grDFS g w fuel ((u, itRest) :: stackRest) inStack T

/-- The outer loop of `topo_sort` (lines 1816-1854): start a DFS from each
unvisited relabeled node that has an out-edge of negative reduced cost. -/
def grTopoOuter (g : Graph) (w : Nat → Nat → Int) (fuel : Nat) :
    List Nat → GRTopo → Except Err GRTopo
  | [], T => .ok T
  | u :: rest, T =>
    if (T.negCount u).isSome then grTopoOuter g w fuel rest T
    else if (g.adj u).all (fun v => oleInf (T.gr.d v) (oaddInf (T.gr.d u) (w u v))) then
      grTopoOuter g w fuel rest T
    else
      match grDFS g w fuel [(u, g.adj u)] [u] { T with negCount := updF T.negCount u 0 } with
      | .error e => .error e
      | .ok T' => grTopoOuter g w fuel rest T'

/-- `topo_sort(relabeled)` (lines 1802-1856): DFS scan, then reverse the
accumulated list. -/
def grTopoSort (g : Graph) (w : Nat → Nat → Int) (fuel : Nat)
    (relabeled : List Nat) (st : GRState) : Except Err (GRState × List Nat) :=
  match grTopoOuter g w fuel relabeled { gr := st, toScan := [], negCount := fun _ => none } with
  | .error e => .error e
  | .ok T => .ok (T.gr, T.toScan.reverse)

/-- Strict relaxation of the out-edges of `u` (inside `relax`, lines
1863-1870); `d_u` is read once at loop entry. -/
def grRelaxEdges (w : Nat → Nat → Int) (u : Nat) (du : Option Int) :
    List Nat → GRState → List Nat → GRState × List Nat
  | [], st, rel => (st, rel)
  | v :: rest, st, rel =>
    let t : Option Int := oaddInf du (w u v)
    if oltInf t (st.d v) then
      grRelaxEdges w u du rest
        { st with d := setO st.d v t, predG := updF st.predG v (some u),
                  predKeys := addKey st.predKeys v }
        (if v ∈ rel then rel else rel ++ [v])
    else grRelaxEdges w u du rest st rel

/-- `relax(to_scan)` (lines 1858-1871): scan in topological order,
collecting the relabeled set. -/
def grRelax (g : Graph) (w : Nat → Nat → Int) :
    List Nat → GRState → List Nat → GRState × List Nat
  | [], st, rel => (st, rel)
  | u :: rest, st, rel =>
    let p := grRelaxEdges w u (st.d u) (g.adj u) st rel
    grRelax g w rest p.1 p.2

/-- The alternation `while relabeled: to_scan = topo_sort(relabeled);
relabeled = relax(to_scan)` (lines 1877-1879). -/
def grLoop (g : Graph) (w : Nat → Nat → Int) :
    Nat → List Nat → GRState → Except Err GRState
  | 0, _, _ => .error .fuelOut
  | fuel + 1, relabeled, st =>
    match relabeled with
    | [] => .ok st
    | _ :: _ =>
      match grTopoSort g w fuel relabeled st with
      | .error e => .error e
      | .ok (st', toScan) =>
        let p := grRelax g w toScan st' []
        grLoop g w fuel p.2 p.1

/-- Fuel bound for the Goldberg–Radzik loops (generous; no claim relies on
its sufficiency). -/
def grFuel (g : Graph) : Nat :=
  (g.nodes.length + (g.succL.map (fun p => p.2.length)).sum + 2) *
    (g.nodes.length + (g.succL.map (fun p => p.2.length)).sum + 2)

/-- `goldberg_radzik` (lines 1707-1882). -/
def goldberg_radzik (g : Graph) (w : Nat → Nat → Int) (source : Nat) :
    Except Err (NMap (Option Nat) × NMap Int) :=
  if source ∉ g.nodes then .error .nodeNotFound
  else if selfloopNeg g w then .error .unbounded
  else if g.nodes.length = 1 then
    .ok (fun v => if v = source then some none else none,
         fun v => if v = source then some 0 else none)
  else
    let st0 : GRState :=
      { d := fun v => if v = source then some 0 else none
        predG := fun v => if v = source then some none else none
        predKeys := [source] }
    match grLoop g w (grFuel g) [source] st0 with
    | .error e => .error e
    | .ok st => .ok (st.predG, fun v => if v ∈ st.predKeys then st.d v else none)

/-! ## Attribute-level graphs, the weight resolver, and the negative-cycle probe -/

/-- A graph at the attribute level: edges carry attribute dictionaries, as
consumed by the weight resolver `_weight_function`.  (Parallel edges are
not modelled; the callers in scope never create them.) -/
structure AttrGraph where
  nodes : List Nat
  edges : List (Nat × Nat × List (String × Int))
  directed : Bool
deriving DecidableEq

/-- `data.get(weight, 1)` — the attribute lookup performed by the callable
returned by `_weight_function` for a string key (line 78). -/
def attrGet (key : String) (d : List (String × Int)) : Int :=
  ((d.find? (fun p => p.1 == key)).map (fun p => p.2)).getD 1

/-- The attribute dictionary of the edge joining `u` to `v` (for an
undirected graph either orientation stores the edge). -/
def AttrGraph.edgeData (G : AttrGraph) (u v : Nat) : Option (List (String × Int)) :=
  match G.edges.find? (fun e => e.1 == u && e.2.1 == v) with
  | some e => some e.2.2
  | none =>
    if G.directed then none
    else (G.edges.find? (fun e => e.1 == v && e.2.1 == u)).map (fun e => e.2.2)

/-- The resolved weight callable `_weight_function(G, key)` applied to the
edge `u → v` (the default `1` branch is only reached off the edge set). -/
def AttrGraph.weightOf (G : AttrGraph) (key : String) (u v : Nat) : Int :=
  match G.edgeData u v with
  | some d => attrGet key d
  | none => 1

/-- Successor list of `v` (`G._succ[v]` / `G._adj[v]` at attribute level). -/
def AttrGraph.succOf (G : AttrGraph) (v : Nat) : List Nat :=
  ((G.edges.filter (fun e => e.1 == v)).map (fun e => e.2.1)) ++
    (if G.directed then []
     else (G.edges.filter (fun e => e.2.1 == v && !(e.1 == v))).map (fun e => e.1))

/-- Predecessor list of `v` (`G._pred[v]` for directed graphs). -/
def AttrGraph.predOf (G : AttrGraph) (v : Nat) : List Nat :=
  if G.directed then (G.edges.filter (fun e => e.2.1 == v)).map (fun e => e.1)
  else G.succOf v

/-- The adjacency-level view of an attribute graph. -/
def AttrGraph.toGraph (G : AttrGraph) : Graph :=
  { nodes := G.nodes
    succL := G.nodes.map (fun v => (v, G.succOf v))
    predL := G.nodes.map (fun v => (v, G.predOf v))
    directed := G.directed }

/-- `G.add_edges_from` for one edge: endpoints absent from the node set
are added (source first), then the edge is appended.  (Updating an
already-present edge is not modelled; the probe only adds fresh edges.) -/
def AttrGraph.addEdge (G : AttrGraph) (e : Nat × Nat × List (String × Int)) : AttrGraph :=
  { nodes := addKey (addKey G.nodes e.1) e.2.1
    edges := G.edges ++ [e]
    directed := G.directed }

/-- `G.add_edges_from(l)`. -/
def AttrGraph.add_edges_from (G : AttrGraph) (l : List (Nat × Nat × List (String × Int))) :
    AttrGraph :=
  l.foldl AttrGraph.addEdge G

/-- `G.remove_node(v)`: drop the node and its incident edges; raises
`NetworkXError` when the node is absent. -/
def AttrGraph.remove_node (G : AttrGraph) (v : Nat) : Except Err AttrGraph :=
  if v ∈ G.nodes then
    .ok { nodes := G.nodes.filter (fun x => decide (x ≠ v))
          edges := G.edges.filter (fun e => decide (e.1 ≠ v) && decide (e.2.1 ≠ v))
          directed := G.directed }
  else .error .networkXError

/-- Modelled from the spec: `generate_unique_node` (external, from
`networkx.utils`, not in `src/`) returns a fresh node guaranteed not to
collide with existing nodes (spec §4.7); over `Nat` nodes, one past the
maximum. -/
def generate_unique_node (G : AttrGraph) : Nat :=
  G.nodes.foldr max 0 + 1

/-- The mutated graph on which the negative-cycle probe runs: the original
graph plus one edge, carrying an empty attribute dictionary, from the
fresh sentinel to every existing node (line 1935). -/
def negCycleProbeGraph (G : AttrGraph) : AttrGraph :=
  G.add_edges_from (G.nodes.map (fun n => (generate_unique_node G, n, [])))

/-- `negative_edge_cycle` (lines 1885-1943).  The Python call on line 1938
passes the caller's weight specifier positionally into the `target`
parameter of `bellman_ford_predecessor_and_distance`, so the run uses the
default `"weight"` key and the target (never consulted, since no paths are
requested) is omitted here.  The `finally` block removes the sentinel on
every exit; an exception raised by the removal replaces the result. -/
def negative_edge_cycle (G : AttrGraph) (_wkey : String) (heuristic : Bool) :
    Except Err Bool × AttrGraph :=
  let newnode := generate_unique_node G
  let G' := negCycleProbeGraph G
  let r := bellman_ford_predecessor_and_distance G'.toGraph (G'.weightOf "weight")
    newnode none heuristic
  let res : Except Err Bool :=
    match r with
    | .error .unbounded => .ok true
    | .error e => .error e
    | .ok _ => .ok false
  match G'.remove_node newnode with
  | .error e => (.error e, G')
  | .ok G'' => (res, G'')

/-! ## Bidirectional Dijkstra -/

/-- One search frontier of `bidirectional_dijkstra`: its own `dists`,
`paths`, `seen` and heap. -/
structure BDSide where
  dist : NMap Int
  seen : NMap Int
  paths : NMap (List Nat)
  fringe : List (Int × Nat × Nat)

/-- The full bidirectional state; the insertion counter is shared, and
`finaldist`/`finalpath` track the best meeting path discovered so far
(`finaldist` starts unbound — line 2044 is commented out in the source). -/
structure BDState where
  fwd : BDSide
  bwd : BDSide
  ctr : Nat
  finaldist : Option Int
  finalpath : List Nat

/-- Select a frontier (`false` = forward, `true` = backward). -/
def BDState.side (st : BDState) (dir : Bool) : BDSide :=
  if dir then st.bwd else st.fwd

/-- Replace a frontier. -/
def BDState.setSide (st : BDState) (dir : Bool) (s : BDSide) : BDState :=
  if dir then { st with bwd := s } else { st with fwd := s }

/-- One relaxation step of `bidirectional_dijkstra` (lines 2063-2084) for
the neighbour `u` of the just-finalized `v` in direction `dir`; backward
edges call the weight function with swapped endpoints (line 2067).  A
`None` weight is a type error here (the bidirectional code has no hidden-
edge check). -/
def bdRelaxEdge (w : Nat → Nat → Option Int) (dir : Bool)
    (v u : Nat) (st : BDState) : Except Err BDState :=
  match (if dir then w u v else w v u) with
  | none => .error .typeError
  | some c =>
    let cur := st.side dir
    let vw : Int := (cur.dist v).getD 0 + c
    match cur.dist u with
    | some du => if vw < du then .error .contradictory else .ok st
    | none =>
      if cur.seen u = none ∨ vw < (cur.seen u).getD 0 then
        let cur' : BDSide :=
          { cur with
            seen := updF cur.seen u vw
            fringe := cur.fringe ++ [(vw, st.ctr, u)]
            paths := updF cur.paths u ((cur.paths v).getD [] ++ [u]) }
        let st1 : BDState := { st.setSide dir cur' with ctr := st.ctr + 1 }
        if (st1.fwd.seen u).isSome ∧ (st1.bwd.seen u).isSome then
          let total : Int := (st1.fwd.seen u).getD 0 + (st1.bwd.seen u).getD 0
          let fp : List Nat :=
            (st1.fwd.paths u).getD [] ++ (((st1.bwd.paths u).getD []).reverse).drop 1
          if st1.finalpath = [] then
            .ok { st1 with finaldist := some total, finalpath := fp }
          else
            match st1.finaldist with
            | none => .error .unboundLocal
            | some fd =>
              if fd > total then .ok { st1 with finaldist := some total, finalpath := fp }
              else .ok st1
        else .ok st1
      else .ok st

/-- Relax all neighbours of `v` in direction `dir`. -/
def bdRelaxList (w : Nat → Nat → Option Int) (dir : Bool) (v : Nat) :
    List Nat → BDState → Except Err BDState
  | [], st => .ok st
  | u :: rest, st =>
    match bdRelaxEdge w dir v u st with
    | .error e => .error e
    | .ok st' => bdRelaxList w dir v rest st'

/-- The main loop of `bidirectional_dijkstra` (lines 2047-2085): while both
fringes are non-empty, flip the direction, pop the closest unfinalized
node, return the incumbent on meeting the other frontier, else relax. -/
def bdLoop (g : Graph) (w : Nat → Nat → Option Int) :
    Nat → Bool → BDState → Except Err (Int × List Nat)
  | 0, _, _ => .error .fuelOut
  | fuel + 1, dir0, st =>
    if st.fwd.fringe = [] ∨ st.bwd.fringe = [] then .error .noPath
    else
      let dir := !dir0
      match popMin (st.side dir).fringe with
      | none => .error .noPath
      | some ((d, _i, v), rest) =>
        if ((st.side dir).dist v).isSome then
          bdLoop g w fuel dir (st.setSide dir { st.side dir with fringe := rest })
        else
          let st1 : BDState :=
            st.setSide dir { st.side dir with dist := updF (st.side dir).dist v d, fringe := rest }
          if ((st1.side (!dir)).dist v).isSome then
            match st1.finaldist with
            | some fd => .ok (fd, st1.finalpath)
            | none => .error .unboundLocal
          else
            match bdRelaxList w dir v (if dir then g.radj v else g.adj v) st1 with
            | .error e => .error e
            | .ok st2 => bdLoop g w fuel dir st2

/-- Fuel dominating the bidirectional iteration count. -/
def bdFuel (g : Graph) : Nat :=
  3 + ((g.succL.map (fun p => 1 + p.2.length)).sum) +
    ((g.bwdL.map (fun p => 1 + p.2.length)).sum)

/-- `bidirectional_dijkstra` (lines 1946-2085). -/
def bidirectional_dijkstra (g : Graph) (w : Nat → Nat → Option Int)
    (source target : Nat) : Except Err (Int × List Nat) :=
  if source ∉ g.nodes ∨ target ∉ g.nodes then .error .nodeNotFound
  else if source = target then .ok (0, [source])
  else
    let st0 : BDState :=
      { fwd := { dist := fun _ => none
                 seen := fun v => if v = source then some 0 else none
                 paths := fun v => if v = source then some [source] else none
                 fringe := [(0, 0, source)] }
        bwd := { dist := fun _ => none
                 seen := fun v => if v = target then some 0 else none
                 paths := fun v => if v = target then some [target] else none
                 fringe := [(0, 1, target)] }
        ctr := 2
        finaldist := none
        finalpath := [] }
    bdLoop g w (bdFuel g) true st0

/-! ## Auxiliary definitions for the statements and concrete instances -/

/-- The heap key a source is seeded with: `0`, or `node_weight[s]` when a
node-weight map is supplied (lines 812-815). -/
def initKey (nw : Option (Nat → Int)) (s : Nat) : Int :=
  match nw with | none => 0 | some f => f s

/-- The heap contents produced by the seeding loop, starting from counter
value `c`. -/
def seedFringe (nw : Option (Nat → Int)) : Nat → List Nat → List (Int × Nat × Nat)
  | _, [] => []
  | c, s :: rest => (initKey nw s, c, s) :: seedFringe nw (c + 1) rest

/-- Well-formedness of an attribute graph: edge endpoints are nodes (true
of every networkx graph by construction). -/
def WFAttr (G : AttrGraph) : Prop :=
  ∀ e ∈ G.edges, e.1 ∈ G.nodes ∧ e.2.1 ∈ G.nodes

/-- Concrete instance: two nodes, one negative self-loop on node `1`,
which is unreachable from node `0`. -/
def gSelfLoop : Graph :=
  { nodes := [0, 1], succL := [(0, []), (1, [1])], predL := [(0, []), (1, [1])], directed := true }

/-- Weight function for `gSelfLoop`: the self-loop weighs `-1`. -/
def wSelfLoop : Nat → Nat → Int :=
  fun u v => if u = 1 ∧ v = 1 then -1 else 1

/-- Concrete one-node graph for the node-weight seeding instance. -/
def gNW : Graph :=
  { nodes := [0], succL := [(0, [])], predL := [(0, [])], directed := true }

/-- Concrete attribute graph (one node, no edges) for the sentinel-weight
instance. -/
def GC6 : AttrGraph := { nodes := [0], edges := [], directed := true }

/-- Concrete attribute graph (directed triangle, no negative cycle) for
the probe-restoration instance. -/
def GW7 : AttrGraph :=
  { nodes := [0, 1, 2]
    edges := [(0, 1, [("weight", 2)]), (1, 2, [("weight", 3)]), (2, 0, [])]
    directed := true }

/-! ## Invariants of the Dijkstra core -/

/-- Total weight of the chain starting at `a` and continuing through the
listed nodes, `none` when some step is not a (non-hidden) edge. -/
def chainW (g : Graph) (w : Nat → Nat → Option Int) : Nat → List Nat → Option Int
  | _, [] => some 0
  | a, b :: rest =>
    if b ∈ g.adj a then
      match w a b, chainW g w b rest with
      | some c, some d => some (c + d)
      | _, _ => none
    else none

/-- `p` is a path list from a node of `S` to `v` of total weight `c`, in
the format stored by the `paths` dictionaries (starting node included). -/
def ValidPath (g : Graph) (w : Nat → Nat → Option Int) (S : List Nat)
    (p : List Nat) (v : Nat) (c : Int) : Prop :=
  ∃ s ∈ S, ∃ q, p = s :: q ∧ chainW g w s q = some c ∧ q.getLastD s = v

/-- The frontier condition for the edge `v → u` out of a finalized node
`v` at distance `c`: the edge has been accounted for, either because `u`
is finalized or because `seen[u]` is at most `c + w(v,u)`. -/
def FrontierAt (_g : Graph) (w : Nat → Nat → Option Int) (st : DState)
    (v : Nat) (c : Int) (u : Nat) : Prop :=
  ∀ cu, w v u = some cu →
    st.dist u ≠ none ∨ ∃ su, st.seen u = some su ∧ su ≤ c + cu

/-- The core loop invariant of `_dijkstra_multisource` (everything except
the frontier condition): finalized distances are optimal and realizable,
`seen` values and heap entries are realizable path costs, every unsettled
seen node retains a heap entry at its `seen` value, finalized values are
below all heap entries, sources stay seen at a non-positive value, and
finalized nodes have `seen = dist`. -/
structure DCore (g : Graph) (w : Nat → Nat → Option Int) (S : List Nat)
    (st : DState) : Prop where
  distSound : ∀ v c, st.dist v = some c →
    (∃ s ∈ S, PathW g w s v c) ∧ (∀ s ∈ S, ∀ c', PathW g w s v c' → c ≤ c')
  seenSound : ∀ v c, st.seen v = some c → ∃ s ∈ S, PathW g w s v c
  fringeSound : ∀ e ∈ st.fringe, ∃ s ∈ S, PathW g w s e.2.2 e.1
  seenFringe : ∀ u su, st.dist u = none → st.seen u = some su →
    ∃ i, (su, i, u) ∈ st.fringe
  distFringe : ∀ v c, st.dist v = some c → ∀ e ∈ st.fringe, c ≤ e.1
  sourceSeen : ∀ s ∈ S, ∃ c, st.seen s = some c ∧ c ≤ 0
  distSeen : ∀ v c, st.dist v = some c → st.seen v = some c
  fringeSeen : ∀ e ∈ st.fringe, ∃ su, st.seen e.2.2 = some su ∧ su ≤ e.1

/-- The frontier part of the invariant: every out-edge of every finalized
node is accounted for. -/
def DFront (g : Graph) (w : Nat → Nat → Option Int) (st : DState) : Prop :=
  ∀ v c, st.dist v = some c → ∀ u ∈ g.adj v, FrontierAt g w st v c u

/-- Paths invariant (when the caller requested `paths`): every seen node
has a stored path of its `seen` cost. -/
def PInv (g : Graph) (w : Nat → Nat → Option Int) (S : List Nat) (st : DState) : Prop :=
  ∀ u su, st.seen u = some su → ∃ p, st.paths u = some p ∧ ValidPath g w S p u su

/-- Predecessor invariant (when the caller requested `pred`): once a
node's `seen` value is optimal, its predecessor list contains every
finalized co-optimal predecessor. -/
def PredInv (g : Graph) (w : Nat → Nat → Option Int) (S : List Nat) (st : DState) : Prop :=
  ∀ u su, st.seen u = some su →
    (∀ s ∈ S, ∀ c', PathW g w s u c' → su ≤ c') →
    ∀ v dv cu, st.dist v = some dv → u ∈ g.adj v → w v u = some cu → dv + cu = su →
      v ∈ (st.pred u).getD []

/-- Predecessor invariant relative to a finalized node `v` whose
out-edges towards the nodes of `l` have not yet been relaxed: every
finalized co-optimal predecessor of a node with an optimal `seen` value
is recorded, except possibly `v` itself for successors still in `l`. -/
def PredInvX (g : Graph) (w : Nat → Nat → Option Int) (S : List Nat) (st : DState)
    (v : Nat) (l : List Nat) : Prop :=
  ∀ u su, st.seen u = some su →
    (∀ s ∈ S, ∀ c', PathW g w s u c' → su ≤ c') →
    ∀ v' dv' cu', st.dist v' = some dv' → u ∈ g.adj v' → w v' u = some cu' →
      dv' + cu' = su →
      (v' = v ∧ u ∈ l) ∨ v' ∈ (st.pred u).getD []

/-- Termination potential of the main loop. -/
def phi (g : Graph) (st : DState) : Nat :=
  st.fringe.length +
    ((g.succL.filter (fun p => (st.dist p.1).isNone)).map (fun p => 1 + p.2.length)).sum

/-- The state produced by the seeding loop on valid sources with no
node-weight map (cf. `dijkstra_init_seeding`). -/
def dijkstraSeeded (S : List Nat) (paths0 pred0 : NMap (List Nat)) : DState :=
  { dist := fun _ => none
    seen := fun v => if v ∈ S then some 0 else none
    paths := paths0
    pred := pred0
    fringe := seedFringe none 0 S
    ctr := S.length }

/-- The Dijkstra core with both `paths` and `pred` dictionaries requested,
seeded as the library's callers seed them
(`paths = {s: [s]}`, `pred` caller-supplied). -/
def dijkstra_with_paths_pred (g : Graph) (w : Nat → Nat → Option Int) (S : List Nat)
    (pred0 : NMap (List Nat)) : Except Err DState :=
  dijkstra_multisource g ⟨w, none, none, none, true, true⟩ S (sourcesPaths S) pred0

/-- Concrete instance for the multi-source Dijkstra statements: the path
graph `0 → 1 → 2` with weights `2` and `3`. -/
def gC1 : Graph :=
  { nodes := [0, 1, 2], succL := [(0, [1]), (1, [2])], predL := [], directed := true }

/-- Weight function for `gC1`. -/
def wC1 : Nat → Nat → Option Int := fun u v =>
  if u = 0 ∧ v = 1 then some 2 else if u = 1 ∧ v = 2 then some 3 else none

/-- The reversed view of a graph: successors become the backward
adjacency used by the bidirectional search. -/
def gRev (g : Graph) : Graph :=
  { nodes := g.nodes, succL := g.bwdL, predL := g.succL, directed := g.directed }

/-- The reversed weight callable (line 2067: `weight(w, v, d)`). -/
def wRev (w : Nat → Nat → Option Int) : Nat → Nat → Option Int :=
  fun a b => w b a

/-- A frontier of the bidirectional search viewed as a Dijkstra core
state (no predecessor dictionary). -/
def bdToD (s : BDSide) (c : Nat) : DState :=
  { dist := s.dist, seen := s.seen, paths := s.paths, pred := fun _ => none
    fringe := s.fringe, ctr := c }

/-- Every edge of the graph has a weight, and it is non-negative
(stated decidably over the adjacency structure). -/
def NonnegTotalW (g : Graph) (w : Nat → Nat → Option Int) : Prop :=
  ∀ p ∈ g.succL, ∀ u ∈ p.2, w p.1 u ≠ none ∧ 0 ≤ (w p.1 u).getD 0

/-- The forward and backward adjacency structures describe the same edge
set (true of every networkx graph; stated decidably). -/
def RevOK (g : Graph) : Prop :=
  (∀ p ∈ g.succL, ∀ b ∈ p.2, p.1 ∈ g.radj b) ∧
    (∀ p ∈ g.bwdL, ∀ a ∈ p.2, p.1 ∈ g.adj a)

/-- The initial forward frontier of `bidirectional_dijkstra`. -/
def bdInitF (source : Nat) : BDSide :=
  { dist := fun _ => none
    seen := fun v => if v = source then some 0 else none
    paths := fun v => if v = source then some [source] else none
    fringe := [(0, 0, source)] }

/-- The initial backward frontier of `bidirectional_dijkstra`. -/
def bdInitB (target : Nat) : BDSide :=
  { dist := fun _ => none
    seen := fun v => if v = target then some 0 else none
    paths := fun v => if v = target then some [target] else none
    fringe := [(0, 1, target)] }

/-- The frontier produced by the relaxing branch of the bidirectional
search (lines 2072-2075): update `seen`, push, extend the path. -/
def bdPush (cur : BDSide) (ctr : Nat) (v u : Nat) (vw : Int) : BDSide :=
  { cur with
    seen := updF cur.seen u vw
    fringe := cur.fringe ++ [(vw, ctr, u)]
    paths := updF cur.paths u ((cur.paths v).getD [] ++ [u]) }

/-- The graph searched in direction `dir` (`false` = forward). -/
def bdGD (g : Graph) (dir : Bool) : Graph :=
  if dir then gRev g else g

/-- The weight callable used in direction `dir`. -/
def bdWD (w : Nat → Nat → Option Int) (dir : Bool) : Nat → Nat → Option Int :=
  if dir then wRev w else w

/-- The seed of the search in direction `dir`. -/
def bdSD (source target : Nat) (dir : Bool) : Nat :=
  if dir then target else source

/-- The meeting invariant of the bidirectional search: either no node is
seen from both sides and no meeting path has been recorded, or the
incumbent `finaldist` is the cost of the recorded source-to-target path
`finalpath` and is at most `seen[0][x] + seen[1][x]` for every node `x`
seen from both sides. -/
def MInv (g : Graph) (w : Nat → Nat → Option Int) (source target : Nat)
    (st : BDState) : Prop :=
  (st.finalpath = [] ∧ st.finaldist = none ∧
    ∀ x, st.fwd.seen x = none ∨ st.bwd.seen x = none) ∨
  (∃ fd, st.finaldist = some fd ∧
    ValidPath g w [source] st.finalpath target fd ∧
    ∀ x sf sb, st.fwd.seen x = some sf → st.bwd.seen x = some sb → fd ≤ sf + sb)

/-- The full loop invariant of `bidirectional_dijkstra`: Dijkstra core
invariants on both frontiers, the meeting invariant, no node finalized on
both sides, and each side either untouched or with its seed finalized. -/
structure BDInv (g : Graph) (w : Nat → Nat → Option Int) (source target : Nat)
    (st : BDState) : Prop where
  coreF : DCore g w [source] (bdToD st.fwd st.ctr)
  coreB : DCore (gRev g) (wRev w) [target] (bdToD st.bwd st.ctr)
  frontF : DFront g w (bdToD st.fwd st.ctr)
  frontB : DFront (gRev g) (wRev w) (bdToD st.bwd st.ctr)
  pathsF : PInv g w [source] (bdToD st.fwd st.ctr)
  pathsB : PInv (gRev g) (wRev w) [target] (bdToD st.bwd st.ctr)
  meet : MInv g w source target st
  noBoth : ∀ x, st.fwd.dist x = none ∨ st.bwd.dist x = none
  seedF : st.fwd = bdInitF source ∨ st.fwd.dist source ≠ none
  seedB : st.bwd = bdInitB target ∨ st.bwd.dist target ≠ none
  ord : st.bwd.dist target ≠ none → st.fwd.dist source ≠ none

/-- Termination potential of the bidirectional loop. -/
def phiBD (g : Graph) (st : BDState) : Nat :=
  phi g (bdToD st.fwd st.ctr) + phi (gRev g) (bdToD st.bwd st.ctr)

/-- The meeting bookkeeping of the bidirectional relaxation
(lines 2076-2084), applied after a push of `u`: when `u` is seen from
both sides, install or improve the incumbent meeting path. -/
def bdMeetUpd (u : Nat) (st1 : BDState) : Except Err BDState :=
  if (st1.fwd.seen u).isSome ∧ (st1.bwd.seen u).isSome then
    let total : Int := (st1.fwd.seen u).getD 0 + (st1.bwd.seen u).getD 0
    let fp : List Nat :=
      (st1.fwd.paths u).getD [] ++ (((st1.bwd.paths u).getD []).reverse).drop 1
    if st1.finalpath = [] then
      .ok { st1 with finaldist := some total, finalpath := fp }
    else
      match st1.finaldist with
      | none => .error .unboundLocal
      | some fd =>
        if fd > total then .ok { st1 with finaldist := some total, finalpath := fp }
        else .ok st1
  else .ok st1

/-- Concrete instance for the bidirectional statements: the path graph
`0 → 1 → 2` of `gC1` with its backward adjacency filled in. -/
def gC3 : Graph :=
  { nodes := [0, 1, 2], succL := [(0, [1]), (1, [2])],
    predL := [(1, [0]), (2, [1])], directed := true }

/-- Monotonicity invariant of the core loop: every finalized distance is
at most every key on the heap.  This is all that is needed to show the
contradictory-paths branch unreachable, and it survives cutoff-induced
skips (a skipped push only removes a heap entry that would otherwise have
to be bounded). -/
def DMono (st : DState) : Prop :=
  ∀ x dx, st.dist x = some dx → ∀ e ∈ st.fringe, dx ≤ e.1

/-- Concrete instance refuting the original C8: nodes `{0, 1, 2}` with
edges `0 → 1` (weight 3), `0 → 2` (weight 1) and `2 → 1` (weight 0). -/
def gC8 : Graph :=
  { nodes := [0, 1, 2], succL := [(0, [1, 2]), (2, [1])],
    predL := [(1, [0, 2]), (2, [0])], directed := true }

/-- Weight function for `gC8` — non-negative on every edge. -/
def wC8 : Nat → Nat → Option Int := fun u v =>
  if u = 0 ∧ v = 1 then some 3
  else if u = 0 ∧ v = 2 then some 1
  else if u = 2 ∧ v = 1 then some 0
  else none

/-- Node-weight map for `gC8` with a negative entry on node `1`. -/
def nwC8 : Nat → Int := fun n => if n = 1 then -3 else 0

/-! # Theorems -/

theorem lookup_mem {l : List (Nat × List Nat)} {v : Nat} {b : List Nat}
    (h : l.lookup v = some b) : (v, b) ∈ l := by
  induction l with
  | nil => simp [List.lookup] at h
  | cons p rest ih =>
    rw [List.lookup] at h
    by_cases hv : v = p.1
    · subst hv
      simp at h
      subst h
      exact List.mem_cons_self _ _
    · have hbeq : (v == p.1) = false := by simpa using hv
      rw [hbeq] at h
      exact List.mem_cons_of_mem _ (ih h)

theorem NonnegW.on_adj {g : Graph} {w : Nat → Nat → Option Int}
    (h : NonnegW g w) {v u : Nat} {c : Int} (hu : u ∈ g.adj v) (hw : w v u = some c) :
    0 ≤ c := by
  unfold Graph.adj at hu
  cases hl : g.succL.lookup v with
  | none => simp [hl] at hu
  | some l =>
    have hmem : (v, l) ∈ g.succL := lookup_mem hl
    have := h (v, l) hmem u (by simpa [hl] using hu)
    simpa [hw] using this

theorem DState.ext' {a b : DState} (h1 : a.dist = b.dist) (h2 : a.seen = b.seen)
    (h3 : a.paths = b.paths) (h4 : a.pred = b.pred) (h5 : a.fringe = b.fringe)
    (h6 : a.ctr = b.ctr) : a = b := by
  cases a; cases b
  cases h1; cases h2; cases h3; cases h4; cases h5; cases h6
  rfl

/-- Exact characterization of the seeding loop on valid sources. -/
theorem dijkstraInitLoop_ok (g : Graph) (nw : Option (Nat → Int)) :
    ∀ (sources : List Nat) (st : DState), (∀ s ∈ sources, s ∈ g.nodes) →
    dijkstraInitLoop g nw sources st = .ok
      { st with
        seen := fun v => if v ∈ sources then some 0 else st.seen v
        fringe := st.fringe ++ seedFringe nw st.ctr sources
        ctr := st.ctr + sources.length } := by
  intro sources
  induction sources with
  | nil =>
    intro st _
    have hseen : (fun v => if v ∈ ([] : List Nat) then some (0 : Int) else st.seen v) = st.seen := by
      funext v
      simp
    simp [dijkstraInitLoop, seedFringe, hseen]
  | cons s rest ih =>
    intro st h
    have hs : s ∈ g.nodes := h s (List.mem_cons_self _ _)
    simp only [dijkstraInitLoop, if_pos hs]
    rw [ih _ (fun x hx => h x (List.mem_cons_of_mem _ hx))]
    refine congrArg Except.ok (DState.ext' rfl ?_ rfl rfl ?_ ?_)
    · funext v
      by_cases hvr : v ∈ rest
      · simp [hvr, updF]
      · by_cases hvs : v = s
        · simp [hvr, hvs, updF]
        · simp [hvr, hvs, updF]
    · show (st.fringe ++ [(initKey nw s, st.ctr, s)]) ++ seedFringe nw (st.ctr + 1) rest =
          st.fringe ++ seedFringe nw st.ctr (s :: rest)
      rw [List.append_assoc]
      rfl
    · show st.ctr + 1 + rest.length = st.ctr + (rest.length + 1)
      omega

/-- C5 — `single_source_dijkstra_path_length` forwards `node_weight=None`
to the multi-source call (line 367), so its result does not depend on the
`node_weight` argument.  The equation holds definitionally. -/
theorem single_source_dijkstra_path_length_ignores_node_weight
    (g : Graph) (w : Nat → Nat → Option Int) (source : Nat) (cutoff : Option Int)
    (nw : Option (Nat → Int)) :
    single_source_dijkstra_path_length g w source cutoff nw =
      single_source_dijkstra_path_length g w source cutoff none := rfl

/-- C10 — `multi_source_dijkstra` returns `(0, [target])` whenever the
target is a member of the sources (line 718), and
`single_source_bellman_ford` returns `(0, [source])` whenever
`source == target` (line 1609), in both cases before any graph-membership
validation, so no `NodeNotFound` is raised even for nodes outside `G`. -/
theorem early_return_skips_validation
    (g : Graph) (w : Nat → Nat → Option Int) (wb : Nat → Nat → Int)
    (sources : List Nat) (t : Nat) (cutoff : Option Int) (nw : Option (Nat → Int))
    (hne : sources ≠ []) (ht : t ∈ sources) :
    multi_source_dijkstra g w sources (some t) cutoff nw = .ok (.one 0 [t]) ∧
      single_source_bellman_ford g wb t (some t) = .ok (.one 0 [t]) := by
  constructor
  · unfold multi_source_dijkstra
    simp [hne, ht]
  · unfold single_source_bellman_ford
    simp

theorem early_return_skips_validation_witness :
    (([5] : List Nat) ≠ [] ∧ (5 : Nat) ∈ [5]) ∧
      (multi_source_dijkstra ⟨[], [], [], true⟩ (fun _ _ => some 1) [5] (some 5) none none =
          .ok (.one 0 [5]) ∧
        single_source_bellman_ford ⟨[], [], [], true⟩ (fun _ _ => 1) 5 (some 5) =
          .ok (.one 0 [5])) :=
  ⟨⟨by decide, by decide⟩,
    early_return_skips_validation ⟨[], [], [], true⟩ (fun _ _ => some 1) (fun _ _ => 1)
      [5] 5 none none (by decide) (by decide)⟩

/-- C4 counterexample — with a node-weight map present, the seeding loop
(line 811) sets `seen[source] = 0`, not `node_weight[source]`: on the
one-node graph with `node_weight = (fun _ => 5)`, the heap entry carries
key `5` but `seen[0]` is `0`, refuting the claim that `seen[s]` is seeded
with `node_weight[s]`. -/
theorem dijkstra_init_seen_not_node_weight :
    ((dijkstraInitLoop gNW (some (fun _ => 5)) [0]
        (dijkstraStart (fun _ => none) (fun _ => none))).toOption.map
      (fun st => (st.seen 0, st.fringe))) = some (some 0, [(5, 0, 0)]) ∧
    ¬ ((dijkstraInitLoop gNW (some (fun _ => 5)) [0]
        (dijkstraStart (fun _ => none) (fun _ => none))).toOption.map
      (fun st => st.seen 0)) = some (some 5) :=
  ⟨rfl, by decide⟩

/-- C4 (amended) — each source `s` is pushed with heap key
`node_weight[s]` when a node-weight map is supplied (`0` otherwise), but
`seen[s]` is seeded with `0` regardless of `node_weight`. -/
theorem dijkstra_init_seeding (g : Graph) (nw : Option (Nat → Int))
    (sources : List Nat) (paths0 pred0 : NMap (List Nat))
    (h : ∀ s ∈ sources, s ∈ g.nodes) :
    dijkstraInitLoop g nw sources (dijkstraStart paths0 pred0) = .ok
      { dijkstraStart paths0 pred0 with
        seen := fun v => if v ∈ sources then some 0 else none
        fringe := seedFringe nw 0 sources
        ctr := sources.length } := by
  rw [dijkstraInitLoop_ok g nw sources _ h]
  exact congrArg Except.ok (DState.ext' rfl rfl rfl rfl rfl (Nat.zero_add _))

theorem dijkstra_init_seeding_witness :
    (∀ s ∈ [0], s ∈ gNW.nodes) ∧
      dijkstraInitLoop gNW (some (fun _ => 5)) [0]
          (dijkstraStart (fun _ => none) (fun _ => none)) = .ok
        { dijkstraStart (fun _ => none) (fun _ => none) with
          seen := fun v => if v ∈ [0] then some 0 else none
          fringe := seedFringe (some (fun _ => 5)) 0 [0]
          ctr := [0].length } :=
  ⟨by decide,
    dijkstra_init_seeding gNW (some (fun _ => 5)) [0] (fun _ => none) (fun _ => none)
      (by decide)⟩

/-- C2 — on the graph with nodes `{0, 1}`, a negative self-loop on the
unreachable node `1` and source `0`, both
`bellman_ford_predecessor_and_distance` and `goldberg_radzik` raise
`Unbounded` (their self-loop precheck scans the whole graph, lines 1193
and 1786), although no negative-weight cycle is reachable from the source
— contradicting their own docstrings, which promise that negative cycles
in components not containing the source are not detected. -/
theorem bf_gr_raise_on_unreachable_selfloop :
    bellman_ford_predecessor_and_distance gSelfLoop wSelfLoop 0 none false =
        .error .unbounded ∧
      goldberg_radzik gSelfLoop wSelfLoop 0 = .error .unbounded ∧
      ¬ HasNegCycleFrom gSelfLoop wSelfLoop 0 := by
  refine ⟨rfl, rfl, ?_⟩
  rintro ⟨v, u, c, hreach, hadj, -, -⟩
  have hv0 : v = 0 := by
    clear hadj
    induction hreach with
    | refl => rfl
    | tail hr hmem ih =>
      subst ih
      simp [Graph.adj, gSelfLoop, List.lookup] at hmem
  subst hv0
  simp [Graph.adj, gSelfLoop, List.lookup] at hadj

theorem AttrGraph.extData {a b : AttrGraph} (h1 : a.nodes = b.nodes)
    (h2 : a.edges = b.edges) (h3 : a.directed = b.directed) : a = b := by
  cases a; cases b
  cases h1; cases h2; cases h3
  rfl

theorem foldr_max_le {l : List Nat} {x : Nat} (hx : x ∈ l) : x ≤ l.foldr max 0 := by
  induction l with
  | nil => cases hx
  | cons a t ih =>
    rcases List.mem_cons.mp hx with rfl | h
    · exact le_max_left _ _
    · exact le_trans (ih h) (le_max_right _ _)

theorem generate_unique_node_fresh (G : AttrGraph) : generate_unique_node G ∉ G.nodes := by
  intro h
  have := foldr_max_le h
  unfold generate_unique_node at h
  have := foldr_max_le h
  omega

theorem addKey_of_mem {ks : List Nat} {v : Nat} (h : v ∈ ks) : addKey ks v = ks := by
  simp [addKey, h]

theorem addKey_of_not_mem {ks : List Nat} {v : Nat} (h : v ∉ ks) : addKey ks v = ks ++ [v] := by
  simp [addKey, h]

theorem add_edges_from_edges :
    ∀ (l : List (Nat × Nat × List (String × Int))) (G : AttrGraph),
      (G.add_edges_from l).edges = G.edges ++ l := by
  intro l
  induction l with
  | nil =>
    intro G
    simp [AttrGraph.add_edges_from]
  | cons e t ih =>
    intro G
    show (AttrGraph.add_edges_from (G.addEdge e) t).edges = _
    rw [ih]
    simp [AttrGraph.addEdge]

theorem add_edges_from_directed :
    ∀ (l : List (Nat × Nat × List (String × Int))) (G : AttrGraph),
      (G.add_edges_from l).directed = G.directed := by
  intro l
  induction l with
  | nil => intro G; rfl
  | cons e t ih =>
    intro G
    show (AttrGraph.add_edges_from (G.addEdge e) t).directed = _
    rw [ih]
    rfl

theorem add_edges_from_nodes_noop :
    ∀ (l : List (Nat × Nat × List (String × Int))) (G : AttrGraph),
      (∀ e ∈ l, e.1 ∈ G.nodes ∧ e.2.1 ∈ G.nodes) → (G.add_edges_from l).nodes = G.nodes := by
  intro l
  induction l with
  | nil => intro G _; rfl
  | cons e t ih =>
    intro G h
    have he := h e (List.mem_cons_self _ _)
    have hG : G.addEdge e = { G with edges := G.edges ++ [e] } := by
      unfold AttrGraph.addEdge
      rw [addKey_of_mem he.1, addKey_of_mem he.2]
    show (AttrGraph.add_edges_from (G.addEdge e) t).nodes = _
    rw [hG]
    exact ih _ (fun x hx => h x (List.mem_cons_of_mem _ hx))

theorem probe_nodes_of_ne {G : AttrGraph} (hne : G.nodes ≠ []) :
    (negCycleProbeGraph G).nodes = G.nodes ++ [generate_unique_node G] := by
  obtain ⟨n0, rest, hn⟩ := List.exists_cons_of_ne_nil hne
  have hfresh := generate_unique_node_fresh G
  have hn0 : n0 ∈ G.nodes := by rw [hn]; exact List.mem_cons_self _ _
  have hstep :
      G.addEdge (generate_unique_node G, n0, []) =
        { G with nodes := G.nodes ++ [generate_unique_node G],
                 edges := G.edges ++ [(generate_unique_node G, n0, [])] } := by
    unfold AttrGraph.addEdge
    rw [addKey_of_not_mem hfresh, addKey_of_mem (List.mem_append_left _ hn0)]
  have hmem' : ∀ e ∈ rest.map (fun m => (generate_unique_node G, m, ([] : List (String × Int)))),
      e.1 ∈ G.nodes ++ [generate_unique_node G] ∧
        e.2.1 ∈ G.nodes ++ [generate_unique_node G] := by
    intro e he
    simp only [List.mem_map] at he
    obtain ⟨m, hm, rfl⟩ := he
    refine ⟨List.mem_append_right _ (List.mem_cons_self _ _), List.mem_append_left _ ?_⟩
    rw [hn]
    exact List.mem_cons_of_mem _ hm
  unfold negCycleProbeGraph
  conv_lhs => rw [hn, List.map_cons]
  show (AttrGraph.add_edges_from (G.addEdge (generate_unique_node G, n0, []))
      (rest.map (fun m => (generate_unique_node G, m, [])))).nodes = _
  rw [hstep]
  exact add_edges_from_nodes_noop _ _ hmem'

theorem probe_nodes_of_nil {G : AttrGraph} (hn : G.nodes = []) :
    negCycleProbeGraph G = G := by
  unfold negCycleProbeGraph
  rw [hn]
  rfl

theorem find?_sentinel_edges {nn n : Nat} :
    ∀ (ns : List Nat), n ∈ ns →
      ((ns.map (fun m => (nn, m, ([] : List (String × Int))))).find?
        (fun e => e.1 == nn && e.2.1 == n)) = some (nn, n, []) := by
  intro ns hn
  induction ns with
  | nil => cases hn
  | cons a t ih =>
    rcases List.mem_cons.mp hn with rfl | h
    · simp [List.find?]
    · by_cases ha : a = n
      · subst ha
        simp [List.find?]
      · rw [List.map_cons, List.find?]
        have : ((nn, a, ([] : List (String × Int))).1 == nn &&
            (nn, a, ([] : List (String × Int))).2.1 == n) = false := by
          simp [ha]
        rw [this]
        exact ih h

/-- C6 counterexample — on the one-node graph the probe's sentinel edge
has no weight attribute and therefore contributes cost `1`, not `0`,
under the weight function in use (`data.get("weight", 1)`). -/
theorem negcycle_sentinel_weight_not_zero :
    (negCycleProbeGraph GC6).weightOf "weight" (generate_unique_node GC6) 0 = 1 ∧
      ¬ (negCycleProbeGraph GC6).weightOf "weight" (generate_unique_node GC6) 0 = 0 := by
  constructor <;> decide

/-- C6 (amended) — `negative_edge_cycle` adds a fresh sentinel node, not
colliding with any existing node, together with edges carrying an *empty*
attribute dictionary from the sentinel to every existing node, before
running Bellman–Ford from the sentinel; under the weight specifier the run
uses (the default `"weight"` key — the caller's weight argument is passed
into the `target` position, line 1938), each sentinel edge contributes
cost `1` (the attribute-missing default), not `0`, to the relaxation. -/
theorem negcycle_sentinel_edges (G : AttrGraph) (hWF : WFAttr G) :
    generate_unique_node G ∉ G.nodes ∧
      ∀ n ∈ G.nodes,
        (negCycleProbeGraph G).edgeData (generate_unique_node G) n = some [] ∧
          (negCycleProbeGraph G).weightOf "weight" (generate_unique_node G) n = 1 := by
  refine ⟨generate_unique_node_fresh G, ?_⟩
  intro n hn
  have hedges : (negCycleProbeGraph G).edges =
      G.edges ++ G.nodes.map (fun m => (generate_unique_node G, m, [])) :=
    add_edges_from_edges _ _
  have hfind : ((negCycleProbeGraph G).edges.find?
      (fun e => e.1 == generate_unique_node G && e.2.1 == n)) = some (generate_unique_node G, n, []) := by
    rw [hedges, List.find?_append]
    have hnone : (G.edges.find?
        (fun e => e.1 == generate_unique_node G && e.2.1 == n)) = none := by
      rw [List.find?_eq_none]
      intro e he
      have h1 := (hWF e he).1
      have : e.1 ≠ generate_unique_node G := by
        intro hcon
        exact generate_unique_node_fresh G (hcon ▸ h1)
      simp [this]
    rw [hnone]
    simpa using find?_sentinel_edges G.nodes hn
  have hdata : (negCycleProbeGraph G).edgeData (generate_unique_node G) n = some [] := by
    unfold AttrGraph.edgeData
    rw [hfind]
  refine ⟨hdata, ?_⟩
  unfold AttrGraph.weightOf
  rw [hdata]
  rfl

theorem negcycle_sentinel_edges_witness :
    WFAttr GW7 ∧
      (generate_unique_node GW7 ∉ GW7.nodes ∧
        ∀ n ∈ GW7.nodes,
          (negCycleProbeGraph GW7).edgeData (generate_unique_node GW7) n = some [] ∧
            (negCycleProbeGraph GW7).weightOf "weight" (generate_unique_node GW7) n = 1) :=
  ⟨by unfold WFAttr; decide, negcycle_sentinel_edges GW7 (by unfold WFAttr; decide)⟩

/-- C7 — the negative-cycle probe restores the graph on every exit path:
after `negative_edge_cycle` the node list and edge list are exactly those
of the input graph, whether the probe reports `True`, `False`, or
propagates an exception (the sentinel is removed in the `finally` block;
on the empty graph the sentinel was never added and the failing removal
leaves the graph unchanged). -/
theorem negative_edge_cycle_restores (G : AttrGraph) (wkey : String) (heu : Bool)
    (hWF : WFAttr G) : (negative_edge_cycle G wkey heu).2 = G := by
  unfold negative_edge_cycle
  by_cases hn : G.nodes = []
  · have hprobe := probe_nodes_of_nil hn
    rw [hprobe]
    have hrm : G.remove_node (generate_unique_node G) = .error .networkXError := by
      unfold AttrGraph.remove_node
      rw [if_neg (generate_unique_node_fresh G)]
    simp only [hrm]
  · have hfresh := generate_unique_node_fresh G
    have hnodes := probe_nodes_of_ne hn
    have hedges : (negCycleProbeGraph G).edges =
        G.edges ++ G.nodes.map (fun m => (generate_unique_node G, m, [])) :=
      add_edges_from_edges _ _
    have hdir : (negCycleProbeGraph G).directed = G.directed :=
      add_edges_from_directed _ _
    have hmem : generate_unique_node G ∈ (negCycleProbeGraph G).nodes := by
      rw [hnodes]
      exact List.mem_append_right _ (List.mem_cons_self _ _)
    have hrm : (negCycleProbeGraph G).remove_node (generate_unique_node G) = .ok G := by
      unfold AttrGraph.remove_node
      rw [if_pos hmem]
      refine congrArg Except.ok (AttrGraph.extData ?_ ?_ hdir)
      · rw [hnodes, List.filter_append]
        have h1 : G.nodes.filter (fun x => decide (x ≠ generate_unique_node G)) = G.nodes := by
          rw [List.filter_eq_self]
          intro x hx
          simp only [decide_eq_true_eq]
          intro hcon
          exact hfresh (hcon ▸ hx)
        have h2 : ([generate_unique_node G].filter
            (fun x => decide (x ≠ generate_unique_node G))) = [] := by
          simp
        rw [h1, h2, List.append_nil]
      · rw [hedges, List.filter_append]
        have h1 : G.edges.filter
            (fun e => decide (e.1 ≠ generate_unique_node G) &&
              decide (e.2.1 ≠ generate_unique_node G)) = G.edges := by
          rw [List.filter_eq_self]
          intro e he
          have h1 := (hWF e he).1
          have h2 := (hWF e he).2
          have hne1 : e.1 ≠ generate_unique_node G := fun hcon => hfresh (hcon ▸ h1)
          have hne2 : e.2.1 ≠ generate_unique_node G := fun hcon => hfresh (hcon ▸ h2)
          simp [hne1, hne2]
        have h2 : ((G.nodes.map (fun m => (generate_unique_node G, m, ([] : List (String × Int))))).filter
            (fun e => decide (e.1 ≠ generate_unique_node G) &&
              decide (e.2.1 ≠ generate_unique_node G))) = [] := by
          rw [List.filter_eq_nil_iff]
          intro e he
          simp only [List.mem_map] at he
          obtain ⟨m, hm, rfl⟩ := he
          simp
        rw [h1, h2, List.append_nil]
    simp only [hrm]

theorem negative_edge_cycle_restores_witness :
    WFAttr GW7 ∧ (negative_edge_cycle GW7 "weight" true).2 = GW7 :=
  ⟨by unfold WFAttr; decide, negative_edge_cycle_restores GW7 "weight" true (by unfold WFAttr; decide)⟩

theorem entryLE_fst_le {a b : Int × Nat × Nat} (h : entryLE a b = true) : a.1 ≤ b.1 := by
  simp only [entryLE, Bool.or_eq_true, Bool.and_eq_true, decide_eq_true_eq] at h
  rcases h with h | ⟨h, -⟩
  · exact le_of_lt h
  · exact le_of_eq h

theorem entryLE_fst_ge {a b : Int × Nat × Nat} (h : entryLE a b = false) : b.1 ≤ a.1 := by
  simp only [entryLE, Bool.or_eq_false_iff, Bool.and_eq_false_iff, decide_eq_false_iff_not] at h
  exact le_of_not_lt h.1

theorem minEntry_mem : ∀ (xs : List (Int × Nat × Nat)) (m), minEntry m xs ∈ m :: xs := by
  intro xs
  induction xs with
  | nil =>
    intro m
    simp [minEntry]
  | cons x t ih =>
    intro m
    show minEntry (if entryLE m x then m else x) t ∈ m :: x :: t
    rcases List.mem_cons.mp (ih (if entryLE m x then m else x)) with h | h
    · rw [h]
      split
      · exact List.mem_cons_self _ _
      · exact List.mem_cons_of_mem _ (List.mem_cons_self _ _)
    · exact List.mem_cons_of_mem _ (List.mem_cons_of_mem _ h)

theorem minEntry_le : ∀ (xs : List (Int × Nat × Nat)) (m) (y), y ∈ m :: xs →
    (minEntry m xs).1 ≤ y.1 := by
  intro xs
  induction xs with
  | nil =>
    intro m y hy
    rcases List.mem_cons.mp hy with rfl | hy
    · exact le_refl _
    · cases hy
  | cons x t ih =>
    intro m y hy
    have hm' : (if entryLE m x then m else x).1 ≤ m.1 ∧ (if entryLE m x then m else x).1 ≤ x.1 := by
      by_cases h : entryLE m x = true
      · rw [if_pos h]
        exact ⟨le_refl _, entryLE_fst_le h⟩
      · rw [if_neg h]
        exact ⟨entryLE_fst_ge (Bool.of_not_eq_true h ▸ rfl), le_refl _⟩
    have hhead : (minEntry (if entryLE m x then m else x) t).1 ≤ (if entryLE m x then m else x).1 :=
      ih _ _ (List.mem_cons_self _ _)
    rcases List.mem_cons.mp hy with rfl | hy
    · exact le_trans hhead hm'.1
    · rcases List.mem_cons.mp hy with rfl | hy
      · exact le_trans hhead hm'.2
      · exact ih _ _ (List.mem_cons_of_mem _ hy)

theorem popMin_spec {l : List (Int × Nat × Nat)} {e : Int × Nat × Nat}
    {rest : List (Int × Nat × Nat)} (h : popMin l = some (e, rest)) :
    e ∈ l ∧ rest = l.erase e ∧ ∀ y ∈ l, e.1 ≤ y.1 := by
  cases l with
  | nil => simp [popMin] at h
  | cons x xs =>
    simp only [popMin, Option.some.injEq, Prod.mk.injEq] at h
    obtain ⟨he, hr⟩ := h
    subst he
    refine ⟨minEntry_mem xs x, hr.symm, ?_⟩
    intro y hy
    exact minEntry_le xs x y hy

theorem popMin_nil : popMin [] = none := rfl

theorem popMin_ne_nil {l : List (Int × Nat × Nat)} (h : l ≠ []) :
    ∃ e rest, popMin l = some (e, rest) := by
  cases l with
  | nil => exact absurd rfl h
  | cons x xs => exact ⟨_, _, rfl⟩

/-! ### Path lemmas -/

theorem PathW.head {g : Graph} {w : Nat → Nat → Option Int} {s b t : Nat} {c1 d : Int}
    (hadj : b ∈ g.adj s) (hw : w s b = some c1) (hp : PathW g w b t d) :
    PathW g w s t (c1 + d) := by
  induction hp with
  | refl =>
    have h0 : PathW g w s s 0 := PathW.refl
    have := PathW.tail h0 hadj hw
    simpa using this
  | tail hp hadj2 hw2 ih =>
    have := PathW.tail ih hadj2 hw2
    rename_i y v c cu
    have harr : c1 + c + cu = c1 + (c + cu) := by ring
    rw [harr] at this
    exact this

theorem chainW_pathW {g : Graph} {w : Nat → Nat → Option Int} :
    ∀ (q : List Nat) (s : Nat) (c : Int), chainW g w s q = some c →
      PathW g w s (q.getLastD s) c := by
  intro q
  induction q with
  | nil =>
    intro s c hc
    simp only [chainW, Option.some.injEq] at hc
    subst hc
    exact PathW.refl
  | cons b rest ih =>
    intro s c hc
    simp only [chainW] at hc
    split at hc
    · rename_i hb
      cases hwsb : w s b with
      | none => rw [hwsb] at hc; simp at hc
      | some c1 =>
        rw [hwsb] at hc
        cases hcr : chainW g w b rest with
        | none => rw [hcr] at hc; simp at hc
        | some d =>
          rw [hcr] at hc
          simp only [Option.some.injEq] at hc
          subst hc
          have := PathW.head hb hwsb (ih b d hcr)
          rw [List.getLastD_cons]
          exact this
    · cases hc

theorem validPath_pathW {g : Graph} {w : Nat → Nat → Option Int} {S : List Nat}
    {p : List Nat} {v : Nat} {c : Int} (h : ValidPath g w S p v c) :
    ∃ s ∈ S, PathW g w s v c := by
  obtain ⟨s, hs, q, -, hchain, hlast⟩ := h
  exact ⟨s, hs, hlast ▸ chainW_pathW q s c hchain⟩

theorem chainW_append_edge {g : Graph} {w : Nat → Nat → Option Int} :
    ∀ (q : List Nat) (s : Nat) (c : Int), chainW g w s q = some c →
      ∀ {v u : Nat} {cu : Int}, q.getLastD s = v → u ∈ g.adj v → w v u = some cu →
        chainW g w s (q ++ [u]) = some (c + cu) ∧ (q ++ [u]).getLastD s = u := by
  intro q
  induction q with
  | nil =>
    intro s c hc v u cu hlast hadj hw
    simp only [chainW, Option.some.injEq] at hc
    subst hc
    simp only [List.getLastD] at hlast
    subst hlast
    constructor
    · simp only [List.nil_append, chainW, if_pos hadj, hw]
      have : cu + 0 = 0 + cu := by ring
      rw [this]
    · simp
  | cons b rest ih =>
    intro s c hc v u cu hlast hadj hw
    simp only [chainW] at hc
    split at hc
    · rename_i hb
      cases hwsb : w s b with
      | none => rw [hwsb] at hc; simp at hc
      | some c1 =>
        rw [hwsb] at hc
        cases hcr : chainW g w b rest with
        | none => rw [hcr] at hc; simp at hc
        | some d =>
          rw [hcr] at hc
          simp only [Option.some.injEq] at hc
          subst hc
          simp only [List.getLastD_cons] at hlast
          obtain ⟨hch, hlast'⟩ := ih b d hcr hlast hadj hw
          constructor
          · show chainW g w s (b :: (rest ++ [u])) = _
            simp only [chainW, if_pos hb, hwsb, hch]
            have : c1 + (d + cu) = c1 + d + cu := by ring
            rw [this]
          · exact List.getLastD_concat _ _ _
    · cases hc

theorem validPath_append {g : Graph} {w : Nat → Nat → Option Int} {S : List Nat}
    {p : List Nat} {v u : Nat} {c cu : Int} (h : ValidPath g w S p v c)
    (hadj : u ∈ g.adj v) (hw : w v u = some cu) :
    ValidPath g w S (p ++ [u]) u (c + cu) := by
  obtain ⟨s, hs, q, rfl, hchain, hlast⟩ := h
  obtain ⟨hch, hl⟩ := chainW_append_edge q s c hchain hlast hadj hw
  exact ⟨s, hs, q ++ [u], by simp, hch, hl⟩

/-! ### The relaxation step of the Dijkstra core -/

theorem updF_same {α : Type} (m : NMap α) (k : Nat) (v : α) : updF m k v k = some v := by
  simp [updF]

theorem updF_ne {α : Type} {x k : Nat} (h : x ≠ k) (m : NMap α) (v : α) :
    updF m k v x = m x := by
  simp [updF, h]

theorem FrontierAt.mono {g : Graph} {w : Nat → Nat → Option Int} {st st' : DState}
    {v u : Nat} {c : Int}
    (hd : ∀ x, st.dist x ≠ none → st'.dist x ≠ none)
    (hs : ∀ x sx, st.seen x = some sx → ∃ sx', st'.seen x = some sx' ∧ sx' ≤ sx)
    (h : FrontierAt g w st v c u) : FrontierAt g w st' v c u := by
  intro cu hcu
  rcases h cu hcu with h1 | ⟨su, hsu, hle⟩
  · exact Or.inl (hd u h1)
  · obtain ⟨sx', hx', hle'⟩ := hs u su hsu
    exact Or.inr ⟨sx', hx', le_trans hle' hle⟩

theorem DCore.of_eq {g : Graph} {w : Nat → Nat → Option Int} {S : List Nat}
    {st st' : DState} (h : DCore g w S st)
    (hd : st'.dist = st.dist) (hs : st'.seen = st.seen) (hf : st'.fringe = st.fringe) :
    DCore g w S st' := by
  constructor
  · rw [hd]; exact h.distSound
  · rw [hs]; exact h.seenSound
  · rw [hf]; exact h.fringeSound
  · rw [hd, hs, hf]; exact h.seenFringe
  · rw [hd, hf]; exact h.distFringe
  · rw [hs]; exact h.sourceSeen
  · rw [hd, hs]; exact h.distSeen
  · rw [hf, hs]; exact h.fringeSeen

theorem relaxEdge_step {g : Graph} {A : DijkArgs} {S : List Nat} {st : DState}
    {v u : Nat} {dv : Int} {l : List Nat}
    (hnw : A.nodeWeight = none) (hco : A.cutoff = none)
    (hnn : NonnegW g A.w)
    (hadj : u ∈ g.adj v)
    (hv : st.dist v = some dv)
    (hmax : ∀ v' c', st.dist v' = some c' → c' ≤ dv)
    (hCore : DCore g A.w S st)
    (hfrO : ∀ v' c', st.dist v' = some c' → v' ≠ v → ∀ u' ∈ g.adj v',
      FrontierAt g A.w st v' c' u')
    (hPI : A.usePaths = true → PInv g A.w S st)
    (hQI : A.usePred = true → PredInvX g A.w S st v (u :: l)) :
    ∃ st', dijkstraRelaxEdge A v u st = .ok st' ∧
      st'.dist = st.dist ∧
      st'.fringe.length ≤ st.fringe.length + 1 ∧
      DCore g A.w S st' ∧
      (∀ v' c', st'.dist v' = some c' → v' ≠ v → ∀ u' ∈ g.adj v',
        FrontierAt g A.w st' v' c' u') ∧
      FrontierAt g A.w st' v dv u ∧
      (∀ u', FrontierAt g A.w st v dv u' → FrontierAt g A.w st' v dv u') ∧
      (A.usePaths = true → PInv g A.w S st') ∧
      (A.usePred = true → PredInvX g A.w S st' v l) := by
  have hcost : dijkstraCost A v u = A.w v u := by
    unfold dijkstraCost
    rw [hnw]
  cases hwv : A.w v u with
  | none =>
    refine ⟨st, ?_, rfl, Nat.le_succ _, hCore, hfrO, ?_, fun _ h => h, hPI, ?_⟩
    · unfold dijkstraRelaxEdge
      rw [hcost, hwv]
    · intro cu hcu
      rw [hwv] at hcu
      cases hcu
    · intro hupr x sx hsx hopt v' dv' cu' hv' hadj' hw' heqq
      rcases hQI hupr x sx hsx hopt v' dv' cu' hv' hadj' hw' heqq with ⟨hveq, hxul⟩ | hmem
      · rcases List.mem_cons.mp hxul with rfl | hxl
        · subst hveq
          rw [hwv] at hw'
          cases hw'
        · exact Or.inl ⟨hveq, hxl⟩
      · exact Or.inr hmem
  | some cu =>
    have hcu0 : 0 ≤ cu := hnn.on_adj hadj hwv
    have hcut : ∀ x : Int, cutoffOK A x = true := by
      intro x
      unfold cutoffOK
      rw [hco]
    have hgd : (st.dist v).getD 0 = dv := by rw [hv]; rfl
    -- the realizable path through `v` to `u`
    obtain ⟨s0, hs0, hp0⟩ := (hCore.distSound v dv hv).1
    have hpu : PathW g A.w s0 u (dv + cu) := PathW.tail hp0 hadj hwv
    cases hdu : st.dist u with
    | some du =>
      have hnotlt : ¬ (dv + cu < du) :=
        not_lt_of_ge ((hCore.distSound u du hdu).2 s0 hs0 _ hpu)
      have hfrNew : ∀ (st' : DState), st'.dist u = st.dist u → FrontierAt g A.w st' v dv u := by
        intro st' h'
        intro cu' _
        exact Or.inl (by rw [h', hdu]; exact Option.some_ne_none _)
      by_cases hpe : A.usePred = true ∧ dv + cu = du
      · -- co-optimal relaxation of a finalized node: append to pred[u]
        refine ⟨{ st with pred := updF st.pred u ((st.pred u).getD [] ++ [v]) }, ?_, rfl,
          Nat.le_succ _, ?_, hfrO, hfrNew _ rfl, fun _ h => h, hPI, ?_⟩
        · unfold dijkstraRelaxEdge
          rw [hcost, hwv]
          show (if cutoffOK A ((st.dist v).getD 0 + cu) = false then Except.ok st else _) = _
          rw [hcut, hgd, hdu, if_neg (by simp)]
          simp only [if_neg hnotlt, if_pos hpe]
        · exact DCore.of_eq hCore rfl rfl rfl
        · intro hupr
          intro x sx hsx hopt v' dv' cu' hv' hadj' hw' heqq
          dsimp only at hsx hv' ⊢
          by_cases hxu : x = u
          · subst hxu
            rw [updF_same]
            by_cases hv'v : v' = v
            · subst hv'v
              refine Or.inr ?_
              simp
            · rcases hQI hupr x sx hsx hopt v' dv' cu' hv' hadj' hw' heqq with ⟨hveq, h2⟩ | hmem
              · exact absurd hveq hv'v
              · refine Or.inr ?_
                simp only [Option.getD_some]
                exact List.mem_append_left _ hmem
          · rw [updF_ne hxu]
            rcases hQI hupr x sx hsx hopt v' dv' cu' hv' hadj' hw' heqq with ⟨hveq, hxul⟩ | hmem
            · rcases List.mem_cons.mp hxul with rfl | hxl
              · exact absurd rfl hxu
              · exact Or.inl ⟨hveq, hxl⟩
            · exact Or.inr hmem
      · -- already finalized, not co-optimal (or pred not requested): no-op
        refine ⟨st, ?_, rfl, Nat.le_succ _, hCore, hfrO, hfrNew _ rfl, fun _ h => h, hPI, ?_⟩
        · unfold dijkstraRelaxEdge
          rw [hcost, hwv]
          show (if cutoffOK A ((st.dist v).getD 0 + cu) = false then Except.ok st else _) = _
          rw [hcut, hgd, hdu, if_neg (by simp)]
          simp only [if_neg hnotlt, if_neg hpe]
        · intro hupr x sx hsx hopt v' dv' cu' hv' hadj' hw' heqq
          rcases hQI hupr x sx hsx hopt v' dv' cu' hv' hadj' hw' heqq with ⟨hveq, hxul⟩ | hmem
          · rcases List.mem_cons.mp hxul with rfl | hxl
            · subst hveq
              have hdd : dv' = dv := by
                rw [hv] at hv'
                exact (Option.some.inj hv').symm
              have hcc : cu' = cu := by
                rw [hwv] at hw'
                exact (Option.some.inj hw').symm
              have hsd := hCore.distSeen _ du hdu
              rw [hsx] at hsd
              have hsdu := Option.some.inj hsd
              exact absurd ⟨hupr, by omega⟩ hpe
            · exact Or.inl ⟨hveq, hxl⟩
          · exact Or.inr hmem
    | none =>
      by_cases himp : st.seen u = none ∨ dv + cu < (st.seen u).getD 0
      · -- strict improvement: update seen, push, set paths/pred
        refine ⟨{ st with
            seen := updF st.seen u (dv + cu)
            fringe := st.fringe ++ [(dv + cu, st.ctr, u)]
            ctr := st.ctr + 1
            paths := if A.usePaths = true then
              updF st.paths u ((st.paths v).getD [] ++ [u]) else st.paths
            pred := if A.usePred = true then updF st.pred u [v] else st.pred },
          ?_, rfl, ?_, ?_, ?_, ?_, ?_, ?_, ?_⟩
        · unfold dijkstraRelaxEdge
          rw [hcost, hwv]
          show (if cutoffOK A ((st.dist v).getD 0 + cu) = false then Except.ok st else _) = _
          rw [hcut, hgd, hdu, if_neg (by simp)]
          simp only [if_pos himp]
        · simp
        · -- DCore for the pushed state
          constructor
          · exact hCore.distSound
          · intro x c hx
            dsimp only at hx
            by_cases hxu : x = u
            · subst hxu
              rw [updF_same] at hx
              cases hx
              exact ⟨s0, hs0, hpu⟩
            · rw [updF_ne hxu] at hx
              exact hCore.seenSound x c hx
          · intro e he
            dsimp only at he
            rcases List.mem_append.mp he with he | he
            · exact hCore.fringeSound e he
            · rcases List.mem_singleton.mp he with rfl
              exact ⟨s0, hs0, hpu⟩
          · intro x sx hdx hsx
            dsimp only at hdx hsx ⊢
            by_cases hxu : x = u
            · subst hxu
              rw [updF_same] at hsx
              cases hsx
              exact ⟨st.ctr, List.mem_append_right _ (List.mem_singleton.mpr rfl)⟩
            · rw [updF_ne hxu] at hsx
              obtain ⟨i, hi⟩ := hCore.seenFringe x sx hdx hsx
              exact ⟨i, List.mem_append_left _ hi⟩
          · intro x c hx e he
            dsimp only at hx he
            rcases List.mem_append.mp he with he | he
            · exact hCore.distFringe x c hx e he
            · rcases List.mem_singleton.mp he with rfl
              exact le_trans (hmax x c hx) (le_add_of_nonneg_right hcu0)
          · intro s hsS
            dsimp only
            obtain ⟨c, hc, hc0⟩ := hCore.sourceSeen s hsS
            by_cases hsu : s = u
            · subst hsu
              refine ⟨dv + cu, by rw [updF_same], ?_⟩
              rcases himp with hn | hlt
              · rw [hn] at hc; cases hc
              · rw [hc] at hlt
                exact le_trans (le_of_lt hlt) hc0
            · exact ⟨c, by rw [updF_ne hsu]; exact hc, hc0⟩
          · intro x c hx
            dsimp only at hx ⊢
            have hxu : x ≠ u := by
              intro hcon
              rw [hcon, hdu] at hx
              cases hx
            rw [updF_ne hxu]
            exact hCore.distSeen x c hx
          · intro e he
            dsimp only at he ⊢
            rcases List.mem_append.mp he with he | he
            · obtain ⟨su, hsu, hle⟩ := hCore.fringeSeen e he
              by_cases hxu : e.2.2 = u
              · rw [hxu] at hsu ⊢
                refine ⟨dv + cu, by rw [updF_same], ?_⟩
                rcases himp with hn | hlt
                · rw [hn] at hsu; cases hsu
                · rw [hsu] at hlt
                  exact le_trans (le_of_lt hlt) hle
              · exact ⟨su, by rw [updF_ne hxu]; exact hsu, hle⟩
            · rcases List.mem_singleton.mp he with rfl
              exact ⟨dv + cu, by rw [updF_same], le_refl _⟩
        · -- frontier of other finalized nodes is preserved
          intro v' c' hv' hne u' hu'
          refine FrontierAt.mono ?_ ?_ (hfrO v' c' hv' hne u' hu')
          · intro x hx
            exact hx
          · intro x sx hsx
            dsimp only
            by_cases hxu : x = u
            · subst hxu
              refine ⟨dv + cu, by rw [updF_same], ?_⟩
              rcases himp with hn | hlt
              · rw [hn] at hsx; cases hsx
              · rw [hsx] at hlt
                exact le_of_lt hlt
            · exact ⟨sx, by rw [updF_ne hxu]; exact hsx, le_refl _⟩
        · -- the frontier condition for the edge just relaxed
          intro cu' hcu'
          rw [hwv] at hcu'
          cases hcu'
          exact Or.inr ⟨dv + cu, by dsimp only; rw [updF_same], le_refl _⟩
        · -- previously established frontier conditions for `v` persist
          intro u' hu'
          refine FrontierAt.mono ?_ ?_ hu'
          · intro x hx
            exact hx
          intro x sx hsx
          dsimp only
          by_cases hxu : x = u
          · subst hxu
            refine ⟨dv + cu, by rw [updF_same], ?_⟩
            rcases himp with hn | hlt
            · rw [hn] at hsx; cases hsx
            · rw [hsx] at hlt
              exact le_of_lt hlt
          · exact ⟨sx, by rw [updF_ne hxu]; exact hsx, le_refl _⟩
        · -- paths invariant
          intro hup
          have hPI' := hPI hup
          intro x sx hsx
          dsimp only at hsx ⊢
          have hsv : st.seen v = some dv := hCore.distSeen v dv hv
          obtain ⟨pv, hpv, hvalid⟩ := hPI' v dv hsv
          by_cases hxu : x = u
          · subst hxu
            rw [updF_same] at hsx
            cases hsx
            refine ⟨pv ++ [x], ?_, validPath_append hvalid hadj hwv⟩
            rw [if_pos hup, updF_same]
            rw [hpv]
            rfl
          · rw [updF_ne hxu] at hsx
            obtain ⟨p, hp, hval⟩ := hPI' x sx hsx
            refine ⟨p, ?_, hval⟩
            rw [if_pos hup, updF_ne hxu]
            exact hp
        · -- predecessor invariant
          intro hupr
          intro x sx hsx hopt v' dv' cu' hv' hadj' hw' heqq
          dsimp only at hsx hv' ⊢
          by_cases hxu : x = u
          · subst hxu
            rw [updF_same] at hsx
            cases hsx
            rw [if_pos hupr, updF_same]
            by_cases hv'v : v' = v
            · subst hv'v
              refine Or.inr ?_
              simp
            · exfalso
              have hfr' := hfrO v' dv' hv' hv'v x hadj'
              rcases hfr' cu' hw' with hne | ⟨su, hsu, hle⟩
              · exact hne hdu
              · rw [heqq] at hle
                rcases himp with hn | hlt
                · rw [hn] at hsu; cases hsu
                · rw [hsu] at hlt
                  exact absurd hle (not_le_of_lt hlt)
          · rw [updF_ne hxu] at hsx
            rw [if_pos hupr, updF_ne hxu]
            rcases hQI hupr x sx hsx hopt v' dv' cu' hv' hadj' hw' heqq with ⟨hveq, hxul⟩ | hmem
            · rcases List.mem_cons.mp hxul with rfl | hxl
              · exact absurd rfl hxu
              · exact Or.inl ⟨hveq, hxl⟩
            · exact Or.inr hmem
      · by_cases heq : dv + cu = (st.seen u).getD 0
        · -- co-optimal relaxation of an unsettled node
          have hseenu : st.seen u = some (dv + cu) := by
            rcases hsu : st.seen u with _ | su
            · exact absurd (Or.inl hsu) himp
            · rw [hsu] at heq
              rw [heq]
              rfl
          have hfrNew : ∀ (st' : DState), st'.seen u = st.seen u →
              FrontierAt g A.w st' v dv u := by
            intro st' h' cu' hcu'
            rw [hwv] at hcu'
            cases hcu'
            exact Or.inr ⟨dv + cu, by rw [h']; exact hseenu, le_refl _⟩
          have hPred' : A.usePred = true →
              PredInvX g A.w S
                { st with pred := updF st.pred u ((st.pred u).getD [] ++ [v]) } v l := by
            intro hupr
            intro x sx hsx hopt v' dv' cu' hv' hadj' hw' heqq
            dsimp only at hsx hv' ⊢
            by_cases hxu : x = u
            · subst hxu
              rw [updF_same]
              by_cases hv'v : v' = v
              · subst hv'v
                refine Or.inr ?_
                simp
              · rcases hQI hupr x sx hsx hopt v' dv' cu' hv' hadj' hw' heqq with ⟨hveq, h2⟩ | hmem
                · exact absurd hveq hv'v
                · refine Or.inr ?_
                  simp only [Option.getD_some]
                  exact List.mem_append_left _ hmem
            · rw [updF_ne hxu]
              rcases hQI hupr x sx hsx hopt v' dv' cu' hv' hadj' hw' heqq with ⟨hveq, hxul⟩ | hmem
              · rcases List.mem_cons.mp hxul with rfl | hxl
                · exact absurd rfl hxu
                · exact Or.inl ⟨hveq, hxl⟩
              · exact Or.inr hmem
          by_cases hupr : A.usePred = true
          · refine ⟨{ st with pred := updF st.pred u ((st.pred u).getD [] ++ [v]) }, ?_, rfl,
              Nat.le_succ _, DCore.of_eq hCore rfl rfl rfl, hfrO, hfrNew _ rfl,
              fun _ h => h, hPI, hPred'⟩
            unfold dijkstraRelaxEdge
            rw [hcost, hwv]
            show (if cutoffOK A ((st.dist v).getD 0 + cu) = false then Except.ok st else _) = _
            rw [hcut, hgd, hdu, if_neg (by simp)]
            simp only [if_neg himp, if_pos heq, if_pos hupr]
          · refine ⟨st, ?_, rfl, Nat.le_succ _, hCore, hfrO, hfrNew _ rfl, fun _ h => h, hPI,
              fun h2 => absurd h2 hupr⟩
            unfold dijkstraRelaxEdge
            rw [hcost, hwv]
            show (if cutoffOK A ((st.dist v).getD 0 + cu) = false then Except.ok st else _) = _
            rw [hcut, hgd, hdu, if_neg (by simp)]
            simp only [if_neg himp, if_pos heq, if_neg hupr]
        · -- non-improving relaxation: no-op
          have hseenu : ∃ su, st.seen u = some su ∧ su < dv + cu := by
            rcases hsu : st.seen u with _ | su
            · exact absurd (Or.inl hsu) himp
            · refine ⟨su, rfl, ?_⟩
              rw [hsu] at himp heq
              simp only [Option.getD_some] at heq
              have h2 : ¬ dv + cu < su := fun hc => himp (Or.inr hc)
              omega
          refine ⟨st, ?_, rfl, Nat.le_succ _, hCore, hfrO, ?_, fun _ h => h, hPI, ?_⟩
          · unfold dijkstraRelaxEdge
            rw [hcost, hwv]
            show (if cutoffOK A ((st.dist v).getD 0 + cu) = false then Except.ok st else _) = _
            rw [hcut, hgd, hdu, if_neg (by simp)]
            simp only [if_neg himp, if_neg heq]
          · intro cu' hcu'
            rw [hwv] at hcu'
            cases hcu'
            obtain ⟨su, hsu, hlt⟩ := hseenu
            exact Or.inr ⟨su, hsu, le_of_lt hlt⟩
          · intro hupr x sx hsx hopt v' dv' cu' hv' hadj' hw' heqq
            rcases hQI hupr x sx hsx hopt v' dv' cu' hv' hadj' hw' heqq with ⟨hveq, hxul⟩ | hmem
            · rcases List.mem_cons.mp hxul with rfl | hxl
              · subst hveq
                obtain ⟨su, hsu, hlt⟩ := hseenu
                rw [hsx] at hsu
                have hssu := Option.some.inj hsu
                have hdd : dv' = dv := by
                  rw [hv] at hv'
                  exact (Option.some.inj hv').symm
                have hcc : cu' = cu := by
                  rw [hwv] at hw'
                  exact (Option.some.inj hw').symm
                exfalso
                omega
              · exact Or.inl ⟨hveq, hxl⟩
            · exact Or.inr hmem

theorem relaxList_steps {g : Graph} {A : DijkArgs} {S : List Nat}
    (hnw : A.nodeWeight = none) (hco : A.cutoff = none) (hnn : NonnegW g A.w)
    {v : Nat} {dv : Int} :
    ∀ (l done : List Nat) (st : DState),
    g.adj v = done ++ l →
    st.dist v = some dv →
    (∀ v' c', st.dist v' = some c' → c' ≤ dv) →
    DCore g A.w S st →
    (∀ v' c', st.dist v' = some c' → v' ≠ v → ∀ u' ∈ g.adj v',
      FrontierAt g A.w st v' c' u') →
    (∀ u ∈ done, FrontierAt g A.w st v dv u) →
    (A.usePaths = true → PInv g A.w S st) →
    (A.usePred = true → PredInvX g A.w S st v l) →
    ∃ st', dijkstraRelaxList A v l st = .ok st' ∧
      st'.dist = st.dist ∧
      st'.fringe.length ≤ st.fringe.length + l.length ∧
      DCore g A.w S st' ∧
      (∀ v' c', st'.dist v' = some c' → v' ≠ v → ∀ u' ∈ g.adj v',
        FrontierAt g A.w st' v' c' u') ∧
      (∀ u ∈ g.adj v, FrontierAt g A.w st' v dv u) ∧
      (A.usePaths = true → PInv g A.w S st') ∧
      (A.usePred = true → PredInvX g A.w S st' v []) := by
  intro l
  induction l with
  | nil =>
    intro done st hsplit hv hmax hCore hfrO hdone hPI hQI
    refine ⟨st, rfl, rfl, Nat.le_add_right _ _, hCore, hfrO, ?_, hPI, hQI⟩
    intro u hu
    rw [hsplit, List.append_nil] at hu
    exact hdone u hu
  | cons u rest ih =>
    intro done st hsplit hv hmax hCore hfrO hdone hPI hQI
    have hadj : u ∈ g.adj v := by
      rw [hsplit]
      exact List.mem_append_right _ (List.mem_cons_self _ _)
    obtain ⟨st1, hok, hdist1, hlen1, hCore1, hfrO1, hfrU1, hpersist1, hPI1, hQI1⟩ :=
      relaxEdge_step (l := rest) hnw hco hnn hadj hv hmax hCore hfrO hPI hQI
    have hsplit1 : g.adj v = (done ++ [u]) ++ rest := by
      rw [hsplit]
      exact (List.append_assoc done [u] rest).symm
    have hv1 : st1.dist v = some dv := by rw [hdist1]; exact hv
    have hmax1 : ∀ v' c', st1.dist v' = some c' → c' ≤ dv := by
      intro v' c' h
      rw [hdist1] at h
      exact hmax v' c' h
    have hdone1 : ∀ u' ∈ done ++ [u], FrontierAt g A.w st1 v dv u' := by
      intro u' hu'
      rcases List.mem_append.mp hu' with h | h
      · exact hpersist1 u' (hdone u' h)
      · rcases List.mem_singleton.mp h with rfl
        exact hfrU1
    obtain ⟨st', hok', hdist', hlen', hCore', hfrO', hfrAll', hPI', hQI'⟩ :=
      ih (done ++ [u]) st1 hsplit1 hv1 hmax1 hCore1 hfrO1 hdone1 hPI1 hQI1
    refine ⟨st', ?_, hdist'.trans hdist1, ?_, hCore', hfrO', hfrAll', hPI', hQI'⟩
    · show (match dijkstraRelaxEdge A v u st with
        | Except.error e => (Except.error e : Except Err DState)
        | Except.ok st2 => dijkstraRelaxList A v rest st2) = Except.ok st'
      rw [hok]
      exact hok'
    · have := hlen1
      have := hlen'
      simp only [List.length_cons]
      omega

/-- Any source-to-`x` path either witnesses that `x` is settled at a cost
below the path cost, or costs at least the least key of the fringe. -/
theorem dijkstra_cover {g : Graph} {w : Nat → Nat → Option Int} {S : List Nat}
    {st : DState} {d : Int}
    (hnn : NonnegW g w) (hCore : DCore g w S st) (hFront : DFront g w st)
    (hmin : ∀ e ∈ st.fringe, d ≤ e.1) :
    ∀ {s x c'}, s ∈ S → PathW g w s x c' →
      (∃ cx, st.dist x = some cx ∧ cx ≤ c') ∨ d ≤ c' := by
  intro s x c' hs hp
  induction hp with
  | refl =>
    obtain ⟨c0, hc0, hle0⟩ := hCore.sourceSeen s hs
    cases hds : st.dist s with
    | some ds =>
      have hds' := hCore.distSeen s ds hds
      rw [hc0] at hds'
      have hdc := Option.some.inj hds'
      exact Or.inl ⟨ds, rfl, by omega⟩
    | none =>
      obtain ⟨i, hi⟩ := hCore.seenFringe s c0 hds hc0
      have hd : d ≤ c0 := hmin _ hi
      exact Or.inr (le_trans hd hle0)
  | tail hp' hadj hw ih =>
    rename_i y x2 c cu
    have hcu0 : (0 : Int) ≤ cu := hnn.on_adj hadj hw
    cases hdx : st.dist x2 with
    | some dx =>
      exact Or.inl ⟨dx, rfl, (hCore.distSound x2 dx hdx).2 s hs _ (PathW.tail hp' hadj hw)⟩
    | none =>
      rcases ih with ⟨cy, hcy, hley⟩ | hdc
      · rcases hFront y cy hcy x2 hadj cu hw with hne | ⟨sx, hsx, hlesx⟩
        · exact absurd hdx hne
        · obtain ⟨i, hi⟩ := hCore.seenFringe x2 sx hdx hsx
          have hd : d ≤ sx := hmin _ hi
          exact Or.inr (by omega)
      · exact Or.inr (by omega)

/-! ### The main loop of the Dijkstra core -/

theorem PredInvX_nil {g : Graph} {w : Nat → Nat → Option Int} {S : List Nat}
    {st : DState} {v : Nat} (h : PredInvX g w S st v []) : PredInv g w S st := by
  intro u su hsu hopt v' dv' cu' hv' hadj' hw' heq
  rcases h u su hsu hopt v' dv' cu' hv' hadj' hw' heq with ⟨h1, h2⟩ | hm
  · cases h2
  · exact hm

theorem PredInv_settle {g : Graph} {w : Nat → Nat → Option Int} {S : List Nat}
    {st : DState} {v : Nat} {d : Int} {rest : List (Int × Nat × Nat)}
    (h : PredInv g w S st) :
    PredInvX g w S { st with dist := updF st.dist v d, fringe := rest } v (g.adj v) := by
  intro u su hsu hopt v' dv' cu' hv' hadj' hw' heq
  dsimp only at hsu hv' ⊢
  by_cases hv'v : v' = v
  · subst hv'v
    exact Or.inl ⟨rfl, hadj'⟩
  · rw [updF_ne hv'v] at hv'
    exact Or.inr (h u su hsu hopt v' dv' cu' hv' hadj' hw' heq)

theorem sum_filter_mono {α : Type} (f : α → Nat) (P Q : α → Bool)
    (himp : ∀ a, Q a = true → P a = true) :
    ∀ L : List α, ((L.filter Q).map f).sum ≤ ((L.filter P).map f).sum := by
  intro L
  induction L with
  | nil => simp
  | cons a L ih =>
    simp only [List.filter_cons]
    by_cases hq : Q a = true
    · rw [if_pos hq, if_pos (himp a hq)]
      simp only [List.map_cons, List.sum_cons]
      omega
    · rw [if_neg hq]
      by_cases hp : P a = true
      · rw [if_pos hp]
        simp only [List.map_cons, List.sum_cons]
        omega
      · rw [if_neg hp]
        exact ih

theorem sum_filter_drop {α : Type} (f : α → Nat) (P Q : α → Bool)
    (himp : ∀ a, Q a = true → P a = true) {a0 : α} :
    ∀ L : List α, a0 ∈ L → P a0 = true → Q a0 = false →
    ((L.filter Q).map f).sum + f a0 ≤ ((L.filter P).map f).sum := by
  intro L
  induction L with
  | nil =>
    intro h
    cases h
  | cons a L ih =>
    intro hmem hP hQ
    rcases List.mem_cons.mp hmem with rfl | hmem'
    · simp only [List.filter_cons]
      rw [if_neg (by simp [hQ]), if_pos hP]
      simp only [List.map_cons, List.sum_cons]
      have := sum_filter_mono f P Q himp L
      omega
    · simp only [List.filter_cons]
      by_cases hq : Q a = true
      · rw [if_pos hq, if_pos (himp a hq)]
        simp only [List.map_cons, List.sum_cons]
        have := ih hmem' hP hQ
        omega
      · rw [if_neg hq]
        by_cases hp : P a = true
        · rw [if_pos hp]
          simp only [List.map_cons, List.sum_cons]
          have := ih hmem' hP hQ
          omega
        · rw [if_neg hp]
          exact ih hmem' hP hQ

/-- The main loop preserves the invariants, terminates within the fuel
bound, and ends either with an empty heap and a full frontier or by
hitting the target. -/
theorem dijkstraLoop_steps {g : Graph} {A : DijkArgs} {S : List Nat}
    (hnw : A.nodeWeight = none) (hco : A.cutoff = none) (hnn : NonnegW g A.w) :
    ∀ (fuel : Nat) (st : DState), phi g st < fuel →
    DCore g A.w S st → DFront g A.w st →
    (A.usePaths = true → PInv g A.w S st) →
    (A.usePred = true → PredInv g A.w S st) →
    ∃ st', dijkstraLoop g A fuel st = .ok st' ∧
      DCore g A.w S st' ∧
      (A.usePaths = true → PInv g A.w S st') ∧
      (A.usePred = true → A.target = none → PredInv g A.w S st') ∧
      ((st'.fringe = [] ∧ DFront g A.w st') ∨
        ∃ t, A.target = some t ∧ st'.dist t ≠ none) := by
  intro fuel
  induction fuel with
  | zero =>
    intro st hphi
    exact absurd hphi (Nat.not_lt_zero _)
  | succ n ih =>
    intro st hphi hCore hFront hPI hQI
    cases hpop : popMin st.fringe with
    | none =>
      have hfr : st.fringe = [] := by
        cases hf : st.fringe with
        | nil => rfl
        | cons x xs =>
          rw [hf] at hpop
          simp [popMin] at hpop
      refine ⟨st, ?_, hCore, hPI, fun h _ => hQI h, Or.inl ⟨hfr, hFront⟩⟩
      simp only [dijkstraLoop, hpop]
    | some pr =>
      obtain ⟨⟨d, i, v⟩, rest⟩ := pr
      obtain ⟨hmem, hrest, hminA⟩ := popMin_spec hpop
      have hflpos : 0 < st.fringe.length := List.length_pos_of_mem hmem
      have hrlen : rest.length = st.fringe.length - 1 := by
        rw [hrest]
        exact List.length_erase_of_mem hmem
      by_cases hdv : (st.dist v).isSome = true
      · -- the popped entry is stale: drop it and continue
        obtain ⟨dvv, hdvv⟩ := Option.isSome_iff_exists.mp hdv
        have hCore1 : DCore g A.w S { st with fringe := rest } := by
          constructor
          · exact hCore.distSound
          · exact hCore.seenSound
          · intro e he
            dsimp only at he
            exact hCore.fringeSound e (List.mem_of_mem_erase (hrest ▸ he))
          · intro u su hdu hsu
            obtain ⟨j, hj⟩ := hCore.seenFringe u su hdu hsu
            refine ⟨j, ?_⟩
            dsimp only
            rw [hrest]
            refine (List.mem_erase_of_ne ?_).mpr hj
            intro hc
            have huv : u = v := congrArg (fun e => e.2.2) hc
            rw [huv, hdvv] at hdu
            cases hdu
          · intro x c hx e he
            dsimp only at he
            exact hCore.distFringe x c hx e (List.mem_of_mem_erase (hrest ▸ he))
          · exact hCore.sourceSeen
          · exact hCore.distSeen
          · intro e he
            dsimp only at he
            exact hCore.fringeSeen e (List.mem_of_mem_erase (hrest ▸ he))
        have hphi1 : phi g { st with fringe := rest } < n := by
          have hn : phi g st ≤ n := Nat.lt_succ_iff.mp hphi
          unfold phi at hn ⊢
          dsimp only
          omega
        obtain ⟨st', hrun, hC', hP', hQ', hend'⟩ :=
          ih { st with fringe := rest } hphi1 hCore1 hFront hPI hQI
        refine ⟨st', ?_, hC', hP', hQ', hend'⟩
        simp only [dijkstraLoop, hpop]
        rw [if_pos hdv]
        exact hrun
      · -- a fresh node is settled at the popped key
        have hdvn : st.dist v = none := by
          cases hd0 : st.dist v with
          | none => rfl
          | some x =>
            rw [hd0] at hdv
            simp at hdv
        obtain ⟨sv, hsv, hsvle⟩ := hCore.fringeSeen _ hmem
        have hsv' : st.seen v = some sv := hsv
        have hsvle' : sv ≤ d := hsvle
        obtain ⟨i2, hi2⟩ := hCore.seenFringe v sv hdvn hsv'
        have hdle : d ≤ sv := hminA _ hi2
        have hsvd : sv = d := le_antisymm hsvle' hdle
        rw [hsvd] at hsv'
        have hreal : ∃ s ∈ S, PathW g A.w s v d := hCore.fringeSound _ hmem
        have hopt : ∀ s ∈ S, ∀ c', PathW g A.w s v c' → d ≤ c' := by
          intro s hs c' hp
          rcases dijkstra_cover hnn hCore hFront hminA hs hp with ⟨cx, hcx, h2⟩ | hd2
          · rw [hdvn] at hcx
            cases hcx
          · exact hd2
        have hCore1 : DCore g A.w S { st with dist := updF st.dist v d, fringe := rest } := by
          constructor
          · intro x c hx
            dsimp only at hx
            by_cases hxv : x = v
            · subst hxv
              rw [updF_same] at hx
              cases hx
              exact ⟨hreal, hopt⟩
            · rw [updF_ne hxv] at hx
              exact hCore.distSound x c hx
          · exact hCore.seenSound
          · intro e he
            dsimp only at he
            exact hCore.fringeSound e (List.mem_of_mem_erase (hrest ▸ he))
          · intro u su hdu hsu
            dsimp only at hdu hsu ⊢
            by_cases huv : u = v
            · subst huv
              rw [updF_same] at hdu
              cases hdu
            · rw [updF_ne huv] at hdu
              obtain ⟨j, hj⟩ := hCore.seenFringe u su hdu hsu
              refine ⟨j, ?_⟩
              rw [hrest]
              refine (List.mem_erase_of_ne ?_).mpr hj
              intro hc
              exact huv (congrArg (fun e => e.2.2) hc)
          · intro x c hx e he
            dsimp only at hx he
            have he' : e ∈ st.fringe := List.mem_of_mem_erase (hrest ▸ he)
            by_cases hxv : x = v
            · subst hxv
              rw [updF_same] at hx
              cases hx
              exact hminA e he'
            · rw [updF_ne hxv] at hx
              exact hCore.distFringe x c hx e he'
          · exact hCore.sourceSeen
          · intro x c hx
            dsimp only at hx ⊢
            by_cases hxv : x = v
            · subst hxv
              rw [updF_same] at hx
              cases hx
              exact hsv'
            · rw [updF_ne hxv] at hx
              exact hCore.distSeen x c hx
          · intro e he
            dsimp only at he
            exact hCore.fringeSeen e (List.mem_of_mem_erase (hrest ▸ he))
        have hmax1 : ∀ x c, updF st.dist v d x = some c → c ≤ d := by
          intro x c hx
          by_cases hxv : x = v
          · subst hxv
            rw [updF_same] at hx
            cases hx
            exact le_refl _
          · rw [updF_ne hxv] at hx
            exact hCore.distFringe x c hx (d, i, v) hmem
        have hfrO1 : ∀ v' c', updF st.dist v d v' = some c' → v' ≠ v →
            ∀ u' ∈ g.adj v', FrontierAt g A.w
              { st with dist := updF st.dist v d, fringe := rest } v' c' u' := by
          intro v' c' hv' hne u' hu'
          rw [updF_ne hne] at hv'
          refine FrontierAt.mono ?_ ?_ (hFront v' c' hv' u' hu')
          · intro x hx
            dsimp only
            by_cases hxv : x = v
            · subst hxv
              rw [updF_same]
              exact Option.some_ne_none _
            · rw [updF_ne hxv]
              exact hx
          · intro x sx hsx
            exact ⟨sx, hsx, le_refl _⟩
        by_cases htgt : A.target = some v
        · refine ⟨{ st with dist := updF st.dist v d, fringe := rest }, ?_, hCore1,
            fun hup => hPI hup, ?_, Or.inr ⟨v, htgt, ?_⟩⟩
          · simp only [dijkstraLoop, hpop]
            rw [if_neg hdv, if_pos htgt]
          · intro hupr htn
            rw [htn] at htgt
            cases htgt
          · dsimp only
            rw [updF_same]
            exact Option.some_ne_none _
        · obtain ⟨st2, hok2, hdist2, hlen2, hCore2, hfrO2, hfrAll2, hPI2, hQI2⟩ :=
            relaxList_steps hnw hco hnn (g.adj v) []
              { st with dist := updF st.dist v d, fringe := rest } rfl
              (updF_same st.dist v d)
              (fun v' c' h => hmax1 v' c' h)
              hCore1 hfrO1 (fun u hu => absurd hu (List.not_mem_nil u))
              (fun hup => hPI hup) (fun hupr => PredInv_settle (hQI hupr))
          have hFront2 : DFront g A.w st2 := by
            intro v' c' hv' u' hu'
            rw [hdist2] at hv'
            dsimp only at hv'
            by_cases hv'v : v' = v
            · subst hv'v
              rw [updF_same] at hv'
              cases hv'
              exact hfrAll2 u' hu'
            · rw [updF_ne hv'v] at hv'
              refine hfrO2 v' c' ?_ hv'v u' hu'
              rw [hdist2]
              dsimp only
              rw [updF_ne hv'v]
              exact hv'
          have himpPQ : ∀ p : Nat × List Nat, ((updF st.dist v d p.1).isNone) = true →
              ((st.dist p.1).isNone) = true := by
            intro p hp
            by_cases hpv : p.1 = v
            · rw [hpv, updF_same] at hp
              cases hp
            · rw [updF_ne hpv] at hp
              exact hp
          have hseq : (fun p : Nat × List Nat => (st2.dist p.1).isNone) =
              (fun p => (updF st.dist v d p.1).isNone) := by
            funext p
            rw [hdist2]
          have hphi2 : phi g st2 < n := by
            have hn : phi g st ≤ n := Nat.lt_succ_iff.mp hphi
            unfold phi at hn ⊢
            rw [hseq]
            cases hlk : g.succL.lookup v with
            | some l0 =>
              have hp0 : (v, l0) ∈ g.succL := lookup_mem hlk
              have hadjv : g.adj v = l0 := by
                unfold Graph.adj
                rw [hlk]
                rfl
              have hdrop := sum_filter_drop (fun p => 1 + p.2.length)
                (fun p => (st.dist p.1).isNone) (fun p => (updF st.dist v d p.1).isNone)
                himpPQ g.succL hp0
                (show (st.dist v).isNone = true by rw [hdvn]; rfl)
                (show (updF st.dist v d v).isNone = false by rw [updF_same]; rfl)
              have hl2 : st2.fringe.length ≤ rest.length + l0.length := by
                have h3 := hlen2
                dsimp only at h3
                rw [hadjv] at h3
                exact h3
              have hf0 : (fun p : Nat × List Nat => 1 + p.2.length) (v, l0) = 1 + l0.length := rfl
              rw [hf0] at hdrop
              omega
            | none =>
              have hadjv : g.adj v = [] := by
                unfold Graph.adj
                rw [hlk]
                rfl
              have hmono := sum_filter_mono (fun p => 1 + p.2.length)
                (fun p => (st.dist p.1).isNone) (fun p => (updF st.dist v d p.1).isNone)
                himpPQ g.succL
              have hl2 : st2.fringe.length ≤ rest.length := by
                have h3 := hlen2
                dsimp only at h3
                rw [hadjv] at h3
                simpa using h3
              omega
          obtain ⟨st', hrun, hC', hP', hQ', hend'⟩ :=
            ih st2 hphi2 hCore2 hFront2 hPI2 (fun hupr => PredInvX_nil (hQI2 hupr))
          refine ⟨st', ?_, hC', hP', hQ', hend'⟩
          simp only [dijkstraLoop, hpop]
          rw [if_neg hdv, if_neg htgt]
          rw [hok2]
          exact hrun

/-! ### Initial-state invariants and completeness -/

theorem seedFringe_length (nw : Option (Nat → Int)) :
    ∀ (S : List Nat) (c : Nat), (seedFringe nw c S).length = S.length := by
  intro S
  induction S with
  | nil => intro c; rfl
  | cons s rest ih =>
    intro c
    simp only [seedFringe, List.length_cons]
    rw [ih]

theorem seedFringe_mem :
    ∀ (S : List Nat) (c : Nat) (e : Int × Nat × Nat),
      e ∈ seedFringe none c S → e.1 = 0 ∧ e.2.2 ∈ S := by
  intro S
  induction S with
  | nil =>
    intro c e he
    cases he
  | cons s rest ih =>
    intro c e he
    rcases List.mem_cons.mp he with rfl | he'
    · exact ⟨rfl, List.mem_cons_self _ _⟩
    · obtain ⟨h1, h2⟩ := ih (c + 1) e he'
      exact ⟨h1, List.mem_cons_of_mem _ h2⟩

theorem seedFringe_node :
    ∀ (S : List Nat) (c : Nat) (s : Nat), s ∈ S →
      ∃ i, ((0 : Int), i, s) ∈ seedFringe none c S := by
  intro S
  induction S with
  | nil =>
    intro c s hs
    cases hs
  | cons x rest ih =>
    intro c s hs
    rcases List.mem_cons.mp hs with rfl | hs'
    · exact ⟨c, List.mem_cons_self _ _⟩
    · obtain ⟨i, hi⟩ := ih (c + 1) s hs'
      exact ⟨i, List.mem_cons_of_mem _ hi⟩

theorem sum_filter_le_sum {α : Type} (f : α → Nat) (P : α → Bool) :
    ∀ L : List α, ((L.filter P).map f).sum ≤ (L.map f).sum := by
  intro L
  induction L with
  | nil => simp
  | cons a L ih =>
    simp only [List.filter_cons, List.map_cons, List.sum_cons]
    by_cases hp : P a = true
    · rw [if_pos hp]
      simp only [List.map_cons, List.sum_cons]
      omega
    · rw [if_neg hp]
      omega

theorem seeded_DCore (g : Graph) (w : Nat → Nat → Option Int) (S : List Nat)
    (p q : NMap (List Nat)) : DCore g w S (dijkstraSeeded S p q) := by
  constructor
  · intro v c hx
    cases hx
  · intro v c hx
    dsimp only [dijkstraSeeded] at hx
    by_cases hv : v ∈ S
    · rw [if_pos hv] at hx
      cases hx
      exact ⟨v, hv, PathW.refl⟩
    · rw [if_neg hv] at hx
      cases hx
  · intro e he
    dsimp only [dijkstraSeeded] at he
    obtain ⟨h1, h2⟩ := seedFringe_mem S 0 e he
    refine ⟨e.2.2, h2, ?_⟩
    rw [h1]
    exact PathW.refl
  · intro u su hdu hsu
    dsimp only [dijkstraSeeded] at hsu ⊢
    by_cases hu : u ∈ S
    · rw [if_pos hu] at hsu
      cases hsu
      exact seedFringe_node S 0 u hu
    · rw [if_neg hu] at hsu
      cases hsu
  · intro x c hx
    cases hx
  · intro s hs
    dsimp only [dijkstraSeeded]
    exact ⟨0, if_pos hs, le_refl _⟩
  · intro v c hx
    cases hx
  · intro e he
    dsimp only [dijkstraSeeded] at he ⊢
    obtain ⟨h1, h2⟩ := seedFringe_mem S 0 e he
    refine ⟨0, if_pos h2, ?_⟩
    rw [h1]

theorem seeded_DFront (g : Graph) (w : Nat → Nat → Option Int) (S : List Nat)
    (p q : NMap (List Nat)) : DFront g w (dijkstraSeeded S p q) := by
  intro v c hx
  cases hx

theorem seeded_PredInv (g : Graph) (w : Nat → Nat → Option Int) (S : List Nat)
    (p q : NMap (List Nat)) : PredInv g w S (dijkstraSeeded S p q) := by
  intro u su hsu hopt v dv cu hv
  cases hv

theorem seeded_PInv (g : Graph) (w : Nat → Nat → Option Int) (S : List Nat)
    (q : NMap (List Nat)) : PInv g w S (dijkstraSeeded S (sourcesPaths S) q) := by
  intro u su hsu
  dsimp only [dijkstraSeeded] at hsu ⊢
  by_cases hu : u ∈ S
  · rw [if_pos hu] at hsu
    cases hsu
    refine ⟨[u], ?_, u, hu, [], rfl, rfl, rfl⟩
    unfold sourcesPaths
    rw [if_pos hu]
  · rw [if_neg hu] at hsu
    cases hsu

theorem phi_seeded_lt (g : Graph) (S : List Nat) (p q : NMap (List Nat)) :
    phi g (dijkstraSeeded S p q) < dijkstraFuel g S := by
  unfold phi dijkstraFuel
  dsimp only [dijkstraSeeded]
  have h1 : (seedFringe none 0 S).length = S.length := seedFringe_length none S 0
  have h2 := sum_filter_le_sum (fun pp : Nat × List Nat => 1 + pp.2.length)
    (fun pp => ((none : Option Int)).isNone) g.succL
  omega

theorem dijkstra_complete {g : Graph} {w : Nat → Nat → Option Int} {S : List Nat}
    {st : DState} (hCore : DCore g w S st) (hFront : DFront g w st)
    (hnil : st.fringe = []) :
    ∀ {s v c}, s ∈ S → PathW g w s v c → st.dist v ≠ none := by
  intro s v c hs hp
  induction hp with
  | refl =>
    obtain ⟨c0, hc0, h2⟩ := hCore.sourceSeen s hs
    intro hdn
    obtain ⟨i, hi⟩ := hCore.seenFringe s c0 hdn hc0
    rw [hnil] at hi
    cases hi
  | tail hp' hadj hw ih =>
    rename_i y x2 c2 cu
    intro hdn
    cases hdy : st.dist y with
    | none => exact ih hdy
    | some dy =>
      rcases hFront y dy hdy x2 hadj cu hw with hne | ⟨sx, hsx, h2⟩
      · exact hne hdn
      · obtain ⟨i, hi⟩ := hCore.seenFringe x2 sx hdn hsx
        rw [hnil] at hi
        cases hi

/-- C1 — for non-negative weights and sources that are nodes of the graph,
the distance map of `_dijkstra_multisource` (no cutoff, no target) assigns
to every key the minimum path cost from the sources, has a key for every
node reachable from the sources, and has no key for any unreachable
node. -/
theorem dijkstra_multisource_optimal (g : Graph) (w : Nat → Nat → Option Int)
    (S : List Nat) (hnn : NonnegW g w) (hne : S ≠ []) (hmem : ∀ s ∈ S, s ∈ g.nodes) :
    ∃ dist, dijkstraDistOf g w S = .ok dist ∧
      (∀ v c, dist v = some c →
        (∃ s ∈ S, PathW g w s v c) ∧ (∀ s ∈ S, ∀ c', PathW g w s v c' → c ≤ c')) ∧
      (∀ v, (∃ s ∈ S, ∃ c, PathW g w s v c) → dist v ≠ none) ∧
      (∀ v, dist v ≠ none → ∃ s ∈ S, ∃ c, PathW g w s v c) := by
  obtain ⟨st', hrun, hC', hP', hQ', hend⟩ :=
    dijkstraLoop_steps (g := g) (A := ⟨w, none, none, none, false, false⟩) (S := S)
      rfl rfl hnn (dijkstraFuel g S)
      (dijkstraSeeded S (fun _ => none) (fun _ => none))
      (phi_seeded_lt g S _ _) (seeded_DCore g w S _ _) (seeded_DFront g w S _ _)
      (fun h => Bool.noConfusion h) (fun h => Bool.noConfusion h)
  rcases hend with ⟨hnil', hFront'⟩ | ⟨t, htg, hx⟩
  · have hms : dijkstra_multisource g ⟨w, none, none, none, false, false⟩ S
        (fun _ => none) (fun _ => none) = .ok st' := by
      unfold dijkstra_multisource
      dsimp only
      rw [dijkstra_init_seeding g none S _ _ hmem]
      exact hrun
    refine ⟨st'.dist, ?_, ?_, ?_, ?_⟩
    · unfold dijkstraDistOf
      rw [hms]
      rfl
    · intro v c hvc
      exact hC'.distSound v c hvc
    · rintro v ⟨s, hs, c, hp⟩
      exact dijkstra_complete hC' hFront' hnil' hs hp
    · intro v hvn
      cases hd : st'.dist v with
      | none => exact absurd hd hvn
      | some c =>
        obtain ⟨s, hs, hp⟩ := (hC'.distSound v c hd).1
        exact ⟨s, hs, c, hp⟩
  · cases htg

theorem dijkstra_multisource_optimal_witness :
    NonnegW gC1 wC1 ∧ ([0] : List Nat) ≠ [] ∧ (∀ s ∈ [0], s ∈ gC1.nodes) ∧
      (∃ dist, dijkstraDistOf gC1 wC1 [0] = .ok dist ∧
        (∀ v c, dist v = some c →
          (∃ s ∈ [0], PathW gC1 wC1 s v c) ∧
            (∀ s ∈ [0], ∀ c', PathW gC1 wC1 s v c' → c ≤ c')) ∧
        (∀ v, (∃ s ∈ [0], ∃ c, PathW gC1 wC1 s v c) → dist v ≠ none) ∧
        (∀ v, dist v ≠ none → ∃ s ∈ [0], ∃ c, PathW gC1 wC1 s v c)) :=
  ⟨by unfold NonnegW; decide, by decide, by decide,
    dijkstra_multisource_optimal gC1 wC1 [0]
      (by unfold NonnegW; decide) (by decide) (by decide)⟩

/-- C9 — tie-breaking discipline of the Dijkstra core with `paths` and
`pred` requested: a relaxation that reaches `u` at a tentative distance
equal to its finalized `dist[u]` (first conjunct) or its current
`seen[u]` (second conjunct) returns the state with `v` appended to
`pred[u]` and everything else — in particular `paths` — unchanged; and at
termination every settled node's stored path is co-optimal while
`pred[u]` contains every settled co-optimal predecessor of `u`. -/
theorem dijkstra_tie_discipline :
    (∀ (A : DijkArgs) (st : DState) (v u : Nat) (du cost : Int),
      A.usePred = true →
      dijkstraCost A v u = some cost →
      cutoffOK A ((st.dist v).getD 0 + cost) = true →
      st.dist u = some du →
      (st.dist v).getD 0 + cost = du →
      dijkstraRelaxEdge A v u st =
        .ok { st with pred := updF st.pred u ((st.pred u).getD [] ++ [v]) }) ∧
    (∀ (A : DijkArgs) (st : DState) (v u : Nat) (su cost : Int),
      A.usePred = true →
      dijkstraCost A v u = some cost →
      cutoffOK A ((st.dist v).getD 0 + cost) = true →
      st.dist u = none →
      st.seen u = some su →
      (st.dist v).getD 0 + cost = su →
      dijkstraRelaxEdge A v u st =
        .ok { st with pred := updF st.pred u ((st.pred u).getD [] ++ [v]) }) ∧
    (∀ (g : Graph) (w : Nat → Nat → Option Int) (S : List Nat) (pred0 : NMap (List Nat)),
      NonnegW g w → (∀ s ∈ S, s ∈ g.nodes) →
      ∃ st', dijkstra_with_paths_pred g w S pred0 = .ok st' ∧
        (∀ u c, st'.dist u = some c →
          ∃ p, st'.paths u = some p ∧ ValidPath g w S p u c ∧
            ∀ s ∈ S, ∀ c', PathW g w s u c' → c ≤ c') ∧
        (∀ u c, st'.dist u = some c → ∀ v dv cu, st'.dist v = some dv →
          u ∈ g.adj v → w v u = some cu → dv + cu = c →
          v ∈ (st'.pred u).getD [])) := by
  refine ⟨?_, ?_, ?_⟩
  · intro A st v u du cost hupr hcost hcut hdu heq
    have hlt : ¬ ((st.dist v).getD 0 + cost < du) := by omega
    unfold dijkstraRelaxEdge
    rw [hcost]
    show (if cutoffOK A ((st.dist v).getD 0 + cost) = false then Except.ok st else _) = _
    rw [hcut, hdu, if_neg (by simp)]
    simp only [if_neg hlt, if_pos (And.intro hupr heq)]
  · intro A st v u su cost hupr hcost hcut hdu hsu heq
    have hcond : ¬ (st.seen u = none ∨
        (st.dist v).getD 0 + cost < (st.seen u).getD 0) := by
      rw [hsu]
      rintro (h | h)
      · cases h
      · simp only [Option.getD_some] at h
        omega
    have heq2 : (st.dist v).getD 0 + cost = (st.seen u).getD 0 := by
      rw [hsu]
      exact heq
    unfold dijkstraRelaxEdge
    rw [hcost]
    show (if cutoffOK A ((st.dist v).getD 0 + cost) = false then Except.ok st else _) = _
    rw [hcut, hdu, if_neg (by simp)]
    simp only [if_neg hcond, if_pos heq2, if_pos hupr]
  · intro g w S pred0 hnn hmem
    obtain ⟨st', hrun, hC', hP', hQ', hend⟩ :=
      dijkstraLoop_steps (g := g) (A := ⟨w, none, none, none, true, true⟩) (S := S)
        rfl rfl hnn (dijkstraFuel g S)
        (dijkstraSeeded S (sourcesPaths S) pred0)
        (phi_seeded_lt g S _ _) (seeded_DCore g w S _ _) (seeded_DFront g w S _ _)
        (fun _ => seeded_PInv g w S pred0) (fun _ => seeded_PredInv g w S _ _)
    rcases hend with ⟨hnil', hFront'⟩ | ⟨t, htg, hx⟩
    · have hms : dijkstra_with_paths_pred g w S pred0 = .ok st' := by
        unfold dijkstra_with_paths_pred dijkstra_multisource
        dsimp only
        rw [dijkstra_init_seeding g none S _ _ hmem]
        exact hrun
      have hPInv : PInv g w S st' := hP' rfl
      have hPred : PredInv g w S st' := hQ' rfl rfl
      refine ⟨st', hms, ?_, ?_⟩
      · intro u c hdu
        have hsu : st'.seen u = some c := hC'.distSeen u c hdu
        obtain ⟨p, hp, hval⟩ := hPInv u c hsu
        exact ⟨p, hp, hval, (hC'.distSound u c hdu).2⟩
      · intro u c hdu v dv cu hdv hadj hw heq
        have hsu : st'.seen u = some c := hC'.distSeen u c hdu
        exact hPred u c hsu (hC'.distSound u c hdu).2 v dv cu hdv hadj hw heq
    · cases htg

theorem dijkstra_tie_discipline_witness :
    NonnegW gC1 wC1 ∧ (∀ s ∈ [0], s ∈ gC1.nodes) ∧
      (∃ st', dijkstra_with_paths_pred gC1 wC1 [0] (fun _ => none) = .ok st' ∧
        (∀ u c, st'.dist u = some c →
          ∃ p, st'.paths u = some p ∧ ValidPath gC1 wC1 [0] p u c ∧
            ∀ s ∈ [0], ∀ c', PathW gC1 wC1 s u c' → c ≤ c') ∧
        (∀ u c, st'.dist u = some c → ∀ v dv cu, st'.dist v = some dv →
          u ∈ gC1.adj v → wC1 v u = some cu → dv + cu = c →
          v ∈ (st'.pred u).getD [])) :=
  ⟨by unfold NonnegW; decide, by decide,
    dijkstra_tie_discipline.2.2 gC1 wC1 [0] (fun _ => none)
      (by unfold NonnegW; decide) (by decide)⟩

/-! ### Reversal of paths and graphs -/

theorem RevOK.adj_iff {g : Graph} (h : RevOK g) (a b : Nat) :
    b ∈ g.adj a ↔ a ∈ g.radj b := by
  constructor
  · intro hb
    unfold Graph.adj at hb
    cases hlk : g.succL.lookup a with
    | none =>
      rw [hlk] at hb
      cases hb
    | some l =>
      rw [hlk] at hb
      exact h.1 (a, l) (lookup_mem hlk) b hb
  · intro ha
    unfold Graph.radj at ha
    cases hlk : g.bwdL.lookup b with
    | none =>
      rw [hlk] at ha
      cases ha
    | some l =>
      rw [hlk] at ha
      exact h.2 (b, l) (lookup_mem hlk) a ha

theorem gRev_adj (g : Graph) (v : Nat) : (gRev g).adj v = g.radj v := rfl

theorem NonnegTotalW.onAdjT {g : Graph} {w : Nat → Nat → Option Int}
    (h : NonnegTotalW g w) {v u : Nat} (hadj : u ∈ g.adj v) :
    ∃ c, w v u = some c ∧ 0 ≤ c := by
  unfold Graph.adj at hadj
  cases hlk : g.succL.lookup v with
  | none =>
    rw [hlk] at hadj
    cases hadj
  | some l =>
    rw [hlk] at hadj
    obtain ⟨h1, h2⟩ := h (v, l) (lookup_mem hlk) u hadj
    cases hw : w v u with
    | none => exact absurd hw h1
    | some c =>
      refine ⟨c, rfl, ?_⟩
      rw [hw] at h2
      exact h2

theorem NonnegTotalW.nonneg {g : Graph} {w : Nat → Nat → Option Int}
    (h : NonnegTotalW g w) : NonnegW g w := by
  intro p hp u hu
  exact (h p hp u hu).2

theorem NonnegTotalW.rev {g : Graph} {w : Nat → Nat → Option Int}
    (hrev : RevOK g) (h : NonnegTotalW g w) :
    ∀ {v u : Nat}, u ∈ (gRev g).adj v → ∃ c, wRev w v u = some c ∧ 0 ≤ c := by
  intro v u hu
  rw [gRev_adj] at hu
  have hv : v ∈ g.adj u := (hrev.adj_iff u v).mpr hu
  exact h.onAdjT hv

theorem NonnegW.revOfTotal {g : Graph} {w : Nat → Nat → Option Int}
    (hrev : RevOK g) (h : NonnegTotalW g w) : NonnegW (gRev g) (wRev w) := by
  intro p hp u hu
  have hadj : p.1 ∈ g.adj u := hrev.2 p hp u hu
  obtain ⟨c, hc, hc0⟩ := h.onAdjT hadj
  show 0 ≤ (w u p.1).getD 0
  rw [hc]
  exact hc0

theorem pathW_rev {g : Graph} {w : Nat → Nat → Option Int} (hrev : RevOK g) :
    ∀ {a b : Nat} {c : Int}, PathW g w a b c → PathW (gRev g) (wRev w) b a c := by
  intro a b c hp
  induction hp with
  | refl => exact PathW.refl
  | tail hp' hadj hw ih =>
    rename_i y x cc cu
    have hadj' : y ∈ (gRev g).adj x := by
      rw [gRev_adj]
      exact (hrev.adj_iff y x).mp hadj
    have hw' : wRev w x y = some cu := hw
    have h2 := PathW.head hadj' hw' ih
    have h3 : cu + cc = cc + cu := add_comm _ _
    rw [h3] at h2
    exact h2

theorem getLastD_append2 {α : Type} :
    ∀ (q1 q2 : List α) (s : α), (q1 ++ q2).getLastD s = q2.getLastD (q1.getLastD s) := by
  intro q1
  induction q1 with
  | nil =>
    intro q2 s
    rfl
  | cons a q1 ih =>
    intro q2 s
    rw [List.cons_append, List.getLastD_cons, List.getLastD_cons]
    exact ih q2 a

theorem chainW_append2 {g : Graph} {w : Nat → Nat → Option Int} :
    ∀ (q1 : List Nat) (s : Nat) (c1 : Int), chainW g w s q1 = some c1 →
      ∀ (q2 : List Nat) (c2 : Int), chainW g w (q1.getLastD s) q2 = some c2 →
      chainW g w s (q1 ++ q2) = some (c1 + c2) := by
  intro q1
  induction q1 with
  | nil =>
    intro s c1 hc1 q2 c2 hc2
    simp only [chainW, Option.some.injEq] at hc1
    subst hc1
    rw [List.nil_append]
    rw [show (0 : Int) + c2 = c2 by ring]
    exact hc2
  | cons b r ih =>
    intro s c1 hc1 q2 c2 hc2
    simp only [chainW] at hc1
    split at hc1
    · rename_i hb
      cases hwsb : w s b with
      | none => rw [hwsb] at hc1; simp at hc1
      | some cb =>
        rw [hwsb] at hc1
        cases hcr : chainW g w b r with
        | none => rw [hcr] at hc1; simp at hc1
        | some d =>
          rw [hcr] at hc1
          simp only [Option.some.injEq] at hc1
          subst hc1
          rw [List.getLastD_cons] at hc2
          have h3 := ih b d hcr q2 c2 hc2
          show chainW g w s (b :: (r ++ q2)) = _
          simp only [chainW, if_pos hb, hwsb, h3]
          rw [show cb + d + c2 = cb + (d + c2) by ring]
    · cases hc1

theorem drop_one_append {α : Type} (xs : List α) (t : α) (h : xs ≠ []) :
    (xs ++ [t]).drop 1 = xs.drop 1 ++ [t] := by
  cases xs with
  | nil => exact absurd rfl h
  | cons a l => rfl

/-- Reversing a chain of the reversed graph yields a chain of the
original graph (the head node moves to the end). -/
theorem revChain {g : Graph} {w : Nat → Nat → Option Int} (hrev : RevOK g) :
    ∀ (q : List Nat) (t : Nat) (c : Int), chainW (gRev g) (wRev w) t q = some c →
      chainW g w (q.getLastD t) ((t :: q).reverse.drop 1) = some c ∧
      ((t :: q).reverse.drop 1).getLastD (q.getLastD t) = t := by
  intro q
  induction q with
  | nil =>
    intro t c hc
    simp only [chainW, Option.some.injEq] at hc
    subst hc
    exact ⟨rfl, rfl⟩
  | cons b r ih =>
    intro t c hc
    simp only [chainW] at hc
    split at hc
    · rename_i hb
      cases hwtb : wRev w t b with
      | none => rw [hwtb] at hc; simp at hc
      | some cb =>
        rw [hwtb] at hc
        cases hcr : chainW (gRev g) (wRev w) b r with
        | none => rw [hcr] at hc; simp at hc
        | some d =>
          rw [hcr] at hc
          simp only [Option.some.injEq] at hc
          subst hc
          obtain ⟨hch, hlast⟩ := ih b d hcr
          have hbt : t ∈ g.adj b := by
            rw [gRev_adj] at hb
            exact (hrev.adj_iff b t).mpr hb
          have hwbt : w b t = some cb := hwtb
          have hrevlist : (t :: b :: r).reverse = (b :: r).reverse ++ [t] :=
            List.reverse_cons t (b :: r)
          have hne : (b :: r).reverse ≠ [] := by simp
          have hdrop : (t :: b :: r).reverse.drop 1 =
              (b :: r).reverse.drop 1 ++ [t] := by
            rw [hrevlist]
            exact drop_one_append _ t hne
          have hlastq : (b :: r).getLastD t = r.getLastD b := List.getLastD_cons _ _ _
          rw [hlastq, hdrop]
          obtain ⟨hch2, hl2⟩ :=
            chainW_append_edge ((b :: r).reverse.drop 1) (r.getLastD b) d hch hlast hbt hwbt
          constructor
          · rw [hch2]
            rw [show d + cb = cb + d by ring]
          · exact hl2
    · cases hc

/-- Gluing a forward path to `u` with a reversed backward path to `u`
(as `finalpath` is built on lines 2082-2084) yields a valid
source-to-target path of the combined cost. -/
theorem glue_valid {g : Graph} {w : Nat → Nat → Option Int} {S : List Nat}
    (hrev : RevOK g) {p : List Nat} {u : Nat} {c1 : Int}
    (hp : ValidPath g w S p u c1) {t : Nat} {q : List Nat} {c2 : Int}
    (hq : ValidPath (gRev g) (wRev w) [t] q u c2) :
    ValidPath g w S (p ++ q.reverse.drop 1) t (c1 + c2) := by
  obtain ⟨s, hs, q1, rfl, hch1, hl1⟩ := hp
  obtain ⟨t0, ht0, q2, rfl, hch2, hl2⟩ := hq
  have ht0t : t0 = t := List.mem_singleton.mp ht0
  subst ht0t
  obtain ⟨hchR, hlR⟩ := revChain hrev q2 t0 c2 hch2
  rw [hl2] at hchR hlR
  have hch1' : chainW g w (q1.getLastD s) ((t0 :: q2).reverse.drop 1) = some c2 := by
    rw [hl1]
    exact hchR
  have hchAll := chainW_append2 q1 s c1 hch1 _ c2 hch1'
  refine ⟨s, hs, q1 ++ (t0 :: q2).reverse.drop 1, by rw [List.cons_append], hchAll, ?_⟩
  rw [getLastD_append2, hl1, hlR]

/-- Three-way cover: any source path either witnesses settlement below
its cost, or a seen-but-unsettled endpoint below its cost, or costs at
least the least fringe key. -/
theorem dijkstra_cover3 {g : Graph} {w : Nat → Nat → Option Int} {S : List Nat}
    {st : DState} {d : Int}
    (hnn : NonnegW g w) (hCore : DCore g w S st) (hFront : DFront g w st)
    (hmin : ∀ e ∈ st.fringe, d ≤ e.1) :
    ∀ {s x c'}, s ∈ S → PathW g w s x c' →
      (∃ cx, st.dist x = some cx ∧ cx ≤ c') ∨
      (st.dist x = none ∧ ∃ sx, st.seen x = some sx ∧ sx ≤ c') ∨ d ≤ c' := by
  intro s x c' hs hp
  induction hp with
  | refl =>
    obtain ⟨c0, hc0, hle0⟩ := hCore.sourceSeen s hs
    cases hds : st.dist s with
    | some ds =>
      have hds' := hCore.distSeen s ds hds
      rw [hc0] at hds'
      have hdc := Option.some.inj hds'
      exact Or.inl ⟨ds, rfl, by omega⟩
    | none =>
      exact Or.inr (Or.inl ⟨rfl, c0, hc0, hle0⟩)
  | tail hp' hadj hw ih =>
    rename_i y x2 c cu
    have hcu0 : (0 : Int) ≤ cu := hnn.on_adj hadj hw
    cases hdx : st.dist x2 with
    | some dx =>
      exact Or.inl ⟨dx, rfl, (hCore.distSound x2 dx hdx).2 s hs _ (PathW.tail hp' hadj hw)⟩
    | none =>
      rcases ih with ⟨cy, hcy, hley⟩ | ⟨hyn, sy, hsy, hley⟩ | hdc
      · rcases hFront y cy hcy x2 hadj cu hw with hne | ⟨sx, hsx, hlesx⟩
        · exact absurd hdx hne
        · exact Or.inr (Or.inl ⟨rfl, sx, hsx, by omega⟩)
      · obtain ⟨i, hi⟩ := hCore.seenFringe y sy hyn hsy
        have hd : d ≤ sy := hmin _ hi
        exact Or.inr (Or.inr (by omega))
      · exact Or.inr (Or.inr (by omega))

/-- Split cover: any source path either witnesses settlement below its
cost, or passes through a seen-but-unsettled node `z` whose `seen` value
is below the path prefix cost, with the remaining suffix of non-negative
cost. -/
theorem dijkstra_coverB {g : Graph} {w : Nat → Nat → Option Int} {S : List Nat}
    {st : DState}
    (hnn : NonnegW g w) (hCore : DCore g w S st) (hFront : DFront g w st) :
    ∀ {s x c'}, s ∈ S → PathW g w s x c' →
      (∃ cx, st.dist x = some cx ∧ cx ≤ c') ∨
      (∃ z sz c1 c2, c' = c1 + c2 ∧ 0 ≤ c2 ∧ st.dist z = none ∧
        st.seen z = some sz ∧ sz ≤ c1 ∧ PathW g w z x c2) := by
  intro s x c' hs hp
  induction hp with
  | refl =>
    obtain ⟨c0, hc0, hle0⟩ := hCore.sourceSeen s hs
    cases hds : st.dist s with
    | some ds =>
      have hds' := hCore.distSeen s ds hds
      rw [hc0] at hds'
      have hdc := Option.some.inj hds'
      exact Or.inl ⟨ds, rfl, by omega⟩
    | none =>
      exact Or.inr ⟨s, c0, 0, 0, by ring, le_refl _, hds, hc0, hle0, PathW.refl⟩
  | tail hp' hadj hw ih =>
    rename_i y x2 c cu
    have hcu0 : (0 : Int) ≤ cu := hnn.on_adj hadj hw
    cases hdx : st.dist x2 with
    | some dx =>
      exact Or.inl ⟨dx, rfl, (hCore.distSound x2 dx hdx).2 s hs _ (PathW.tail hp' hadj hw)⟩
    | none =>
      rcases ih with ⟨cy, hcy, hley⟩ | ⟨z, sz, c1, c2, hsplit, hc2, hzn, hsz, hlez, hpz⟩
      · rcases hFront y cy hcy x2 hadj cu hw with hne | ⟨sx, hsx, hlesx⟩
        · exact absurd hdx hne
        · exact Or.inr ⟨x2, sx, c + cu, 0, by ring, le_refl _, hdx, hsx, by omega,
            PathW.refl⟩
      · exact Or.inr ⟨z, sz, c1, c2 + cu, by omega, by omega, hzn, hsz, hlez,
          PathW.tail hpz hadj hw⟩

/-- Case analysis of one bidirectional side relaxation: the edge has a
non-negative weight, and either the neighbour is finalized with no
contradiction, or unimproved (accounted for by `seen`), or pushed, in
which case all side invariants are preserved. -/
theorem bdSide_cases {gd : Graph} {wd : Nat → Nat → Option Int} {sd : Nat}
    {cur : BDSide} {ctr : Nat} {v u : Nat} {dv : Int}
    (hnnE : ∃ c0, wd v u = some c0 ∧ 0 ≤ c0)
    (hnn : NonnegW gd wd)
    (hadj : u ∈ gd.adj v)
    (hv : cur.dist v = some dv)
    (hmax : ∀ v' c', cur.dist v' = some c' → c' ≤ dv)
    (hCore : DCore gd wd [sd] (bdToD cur ctr))
    (hfrO : ∀ v' c', cur.dist v' = some c' → v' ≠ v → ∀ u' ∈ gd.adj v',
      FrontierAt gd wd (bdToD cur ctr) v' c' u')
    (hPI : PInv gd wd [sd] (bdToD cur ctr)) :
    ∃ c, wd v u = some c ∧ 0 ≤ c ∧
      ((∃ du, cur.dist u = some du ∧ ¬ (dv + c < du)) ∨
       (cur.dist u = none ∧
         ¬ (cur.seen u = none ∨ dv + c < (cur.seen u).getD 0) ∧
         ∃ su, cur.seen u = some su ∧ su ≤ dv + c) ∨
       (cur.dist u = none ∧
         (cur.seen u = none ∨ dv + c < (cur.seen u).getD 0) ∧
         DCore gd wd [sd] (bdToD (bdPush cur ctr v u (dv + c)) (ctr + 1)) ∧
         (∀ v' c', cur.dist v' = some c' → v' ≠ v → ∀ u' ∈ gd.adj v',
           FrontierAt gd wd (bdToD (bdPush cur ctr v u (dv + c)) (ctr + 1)) v' c' u') ∧
         FrontierAt gd wd (bdToD (bdPush cur ctr v u (dv + c)) (ctr + 1)) v dv u ∧
         (∀ u', FrontierAt gd wd (bdToD cur ctr) v dv u' →
           FrontierAt gd wd (bdToD (bdPush cur ctr v u (dv + c)) (ctr + 1)) v dv u') ∧
         PInv gd wd [sd] (bdToD (bdPush cur ctr v u (dv + c)) (ctr + 1)))) := by
  obtain ⟨c, hwc, hc0⟩ := hnnE
  refine ⟨c, hwc, hc0, ?_⟩
  obtain ⟨s0, hs0, hp0⟩ := (hCore.distSound v dv hv).1
  have hpu : PathW gd wd s0 u (dv + c) := PathW.tail hp0 hadj hwc
  cases hdu : cur.dist u with
  | some du =>
    exact Or.inl ⟨du, rfl, not_lt_of_ge ((hCore.distSound u du hdu).2 s0 hs0 _ hpu)⟩
  | none =>
    by_cases himp : cur.seen u = none ∨ dv + c < (cur.seen u).getD 0
    · refine Or.inr (Or.inr ⟨rfl, himp, ?_, ?_, ?_, ?_, ?_⟩)
      · -- DCore for the pushed side
        constructor
        · exact hCore.distSound
        · intro x cc hx
          dsimp only [bdToD, bdPush] at hx
          by_cases hxu : x = u
          · subst hxu
            rw [updF_same] at hx
            cases hx
            exact ⟨s0, hs0, hpu⟩
          · rw [updF_ne hxu] at hx
            exact hCore.seenSound x cc hx
        · intro e he
          dsimp only [bdToD, bdPush] at he
          rcases List.mem_append.mp he with he | he
          · exact hCore.fringeSound e he
          · rcases List.mem_singleton.mp he with rfl
            exact ⟨s0, hs0, hpu⟩
        · intro x sx hdx hsx
          dsimp only [bdToD, bdPush] at hdx hsx ⊢
          by_cases hxu : x = u
          · subst hxu
            rw [updF_same] at hsx
            cases hsx
            exact ⟨ctr, List.mem_append_right _ (List.mem_singleton.mpr rfl)⟩
          · rw [updF_ne hxu] at hsx
            obtain ⟨i, hi⟩ := hCore.seenFringe x sx hdx hsx
            exact ⟨i, List.mem_append_left _ hi⟩
        · intro x cc hx e he
          dsimp only [bdToD, bdPush] at hx he
          rcases List.mem_append.mp he with he | he
          · exact hCore.distFringe x cc hx e he
          · rcases List.mem_singleton.mp he with rfl
            exact le_trans (hmax x cc hx) (le_add_of_nonneg_right hc0)
        · intro s hsS
          dsimp only [bdToD, bdPush]
          obtain ⟨cc, hc, hcc0⟩ := hCore.sourceSeen s hsS
          dsimp only [bdToD] at hc
          by_cases hsu : s = u
          · subst hsu
            refine ⟨dv + c, by rw [updF_same], ?_⟩
            rcases himp with hn | hlt
            · rw [hn] at hc
              cases hc
            · rw [hc] at hlt
              exact le_trans (le_of_lt hlt) hcc0
          · exact ⟨cc, by rw [updF_ne hsu]; exact hc, hcc0⟩
        · intro x cc hx
          dsimp only [bdToD, bdPush] at hx ⊢
          have hxu : x ≠ u := by
            intro hcon
            rw [hcon, hdu] at hx
            cases hx
          rw [updF_ne hxu]
          exact hCore.distSeen x cc hx
        · intro e he
          dsimp only [bdToD, bdPush] at he ⊢
          rcases List.mem_append.mp he with he | he
          · obtain ⟨su, hsu, hle⟩ := hCore.fringeSeen e he
            dsimp only [bdToD] at hsu
            by_cases hxu : e.2.2 = u
            · rw [hxu] at hsu ⊢
              refine ⟨dv + c, by rw [updF_same], ?_⟩
              rcases himp with hn | hlt
              · rw [hn] at hsu
                cases hsu
              · rw [hsu] at hlt
                exact le_trans (le_of_lt hlt) hle
            · exact ⟨su, by rw [updF_ne hxu]; exact hsu, hle⟩
          · rcases List.mem_singleton.mp he with rfl
            exact ⟨dv + c, by rw [updF_same], le_refl _⟩
      · -- frontier of other finalized nodes is preserved
        intro v' c' hv' hne u' hu'
        refine FrontierAt.mono ?_ ?_ (hfrO v' c' hv' hne u' hu')
        · intro x hx
          exact hx
        · intro x sx hsx
          dsimp only [bdToD] at hsx
          dsimp only [bdToD, bdPush]
          by_cases hxu : x = u
          · subst hxu
            refine ⟨dv + c, by rw [updF_same], ?_⟩
            rcases himp with hn | hlt
            · rw [hn] at hsx
              cases hsx
            · rw [hsx] at hlt
              exact le_of_lt hlt
          · exact ⟨sx, by rw [updF_ne hxu]; exact hsx, le_refl _⟩
      · -- the frontier condition for the edge just relaxed
        intro cu' hcu'
        rw [hwc] at hcu'
        cases hcu'
        exact Or.inr ⟨dv + c, by dsimp only [bdToD, bdPush]; rw [updF_same], le_refl _⟩
      · -- previously established frontier conditions for `v` persist
        intro u' hu'
        refine FrontierAt.mono ?_ ?_ hu'
        · intro x hx
          exact hx
        intro x sx hsx
        dsimp only [bdToD] at hsx
        dsimp only [bdToD, bdPush]
        by_cases hxu : x = u
        · subst hxu
          refine ⟨dv + c, by rw [updF_same], ?_⟩
          rcases himp with hn | hlt
          · rw [hn] at hsx
            cases hsx
          · rw [hsx] at hlt
            exact le_of_lt hlt
        · exact ⟨sx, by rw [updF_ne hxu]; exact hsx, le_refl _⟩
      · -- paths invariant for the pushed side
        intro x sx hsx
        dsimp only [bdToD, bdPush] at hsx ⊢
        have hsv : cur.seen v = some dv := hCore.distSeen v dv hv
        obtain ⟨pv, hpv, hvalid⟩ := hPI v dv hsv
        by_cases hxu : x = u
        · subst hxu
          rw [updF_same] at hsx
          cases hsx
          refine ⟨pv ++ [x], ?_, validPath_append hvalid hadj hwc⟩
          rw [updF_same]
          have hpv' : cur.paths v = some pv := hpv
          rw [hpv']
          rfl
        · rw [updF_ne hxu] at hsx
          obtain ⟨p, hp, hval⟩ := hPI x sx hsx
          refine ⟨p, ?_, hval⟩
          rw [updF_ne hxu]
          exact hp
    · refine Or.inr (Or.inl ⟨rfl, himp, ?_⟩)
      rcases hsu : cur.seen u with _ | su
      · exact absurd (Or.inl hsu) himp
      · refine ⟨su, rfl, ?_⟩
        rw [hsu] at himp
        simp only [Option.getD_some] at himp
        have h2 : ¬ dv + c < su := fun hcl => himp (Or.inr hcl)
        omega

/-- The meeting bookkeeping preserves the meeting invariant (weakened to
exempt the just-pushed node), does not touch the frontiers, and never
raises. -/
theorem bdMeet_step {g : Graph} {w : Nat → Nat → Option Int} {source target : Nat}
    (hrev : RevOK g) (st1 : BDState) {u : Nat}
    (hPF : PInv g w [source] (bdToD st1.fwd st1.ctr))
    (hPB : PInv (gRev g) (wRev w) [target] (bdToD st1.bwd st1.ctr))
    (hM : (st1.finalpath = [] ∧ st1.finaldist = none ∧
            ∀ x, x ≠ u → (st1.fwd.seen x = none ∨ st1.bwd.seen x = none)) ∨
          (∃ fd, st1.finaldist = some fd ∧
            ValidPath g w [source] st1.finalpath target fd ∧
            ∀ x sf sb, x ≠ u → st1.fwd.seen x = some sf → st1.bwd.seen x = some sb →
              fd ≤ sf + sb)) :
    ∃ st2, bdMeetUpd u st1 = .ok st2 ∧
      st2.fwd = st1.fwd ∧ st2.bwd = st1.bwd ∧ st2.ctr = st1.ctr ∧
      MInv g w source target st2 := by
  simp only [bdMeetUpd]
  by_cases hboth : (st1.fwd.seen u).isSome = true ∧ (st1.bwd.seen u).isSome = true
  · rw [if_pos hboth]
    obtain ⟨h1, h2⟩ := hboth
    obtain ⟨sf, hsf⟩ := Option.isSome_iff_exists.mp h1
    obtain ⟨sb, hsb⟩ := Option.isSome_iff_exists.mp h2
    obtain ⟨pf, hpf, hvf⟩ := hPF u sf hsf
    obtain ⟨pb, hpb, hvb⟩ := hPB u sb hsb
    have hpf' : st1.fwd.paths u = some pf := hpf
    have hpb' : st1.bwd.paths u = some pb := hpb
    have hglue : ValidPath g w [source]
        ((st1.fwd.paths u).getD [] ++ (((st1.bwd.paths u).getD []).reverse).drop 1)
        target (sf + sb) := by
      rw [hpf', hpb']
      exact glue_valid hrev hvf hvb
    have htot : (st1.fwd.seen u).getD 0 + (st1.bwd.seen u).getD 0 = sf + sb := by
      rw [hsf, hsb]
      rfl
    rcases hM with ⟨hfp, hfd, hnone⟩ | ⟨fd, hfd, hvalid, hbound⟩
    · rw [if_pos hfp]
      refine ⟨_, rfl, rfl, rfl, rfl, Or.inr ⟨sf + sb, ?_, ?_, ?_⟩⟩
      · dsimp only
        rw [htot]
      · dsimp only
        exact hglue
      · intro x sf' sb' hsf' hsb'
        dsimp only at hsf' hsb'
        by_cases hxu : x = u
        · subst hxu
          rw [hsf] at hsf'
          rw [hsb] at hsb'
          have e1 := Option.some.inj hsf'
          have e2 := Option.some.inj hsb'
          omega
        · rcases hnone x hxu with h | h
          · rw [h] at hsf'
            cases hsf'
          · rw [h] at hsb'
            cases hsb'
    · have hfpne : st1.finalpath ≠ [] := by
        obtain ⟨s', hs', q, heq, h3, h4⟩ := hvalid
        rw [heq]
        exact List.cons_ne_nil _ _
      rw [if_neg hfpne]
      simp only [hfd]
      by_cases hgt : fd > (st1.fwd.seen u).getD 0 + (st1.bwd.seen u).getD 0
      · rw [if_pos hgt]
        rw [htot] at hgt
        refine ⟨_, rfl, rfl, rfl, rfl, Or.inr ⟨sf + sb, ?_, ?_, ?_⟩⟩
        · dsimp only
          rw [htot]
        · dsimp only
          exact hglue
        · intro x sf' sb' hsf' hsb'
          dsimp only at hsf' hsb'
          by_cases hxu : x = u
          · subst hxu
            rw [hsf] at hsf'
            rw [hsb] at hsb'
            have e1 := Option.some.inj hsf'
            have e2 := Option.some.inj hsb'
            omega
          · have hb := hbound x sf' sb' hxu hsf' hsb'
            omega
      · rw [if_neg hgt]
        rw [htot] at hgt
        refine ⟨st1, rfl, rfl, rfl, rfl, Or.inr ⟨fd, hfd, hvalid, ?_⟩⟩
        intro x sf' sb' hsf' hsb'
        by_cases hxu : x = u
        · subst hxu
          rw [hsf] at hsf'
          rw [hsb] at hsb'
          have e1 := Option.some.inj hsf'
          have e2 := Option.some.inj hsb'
          omega
        · exact hbound x sf' sb' hxu hsf' hsb'
  · rw [if_neg hboth]
    refine ⟨st1, rfl, rfl, rfl, rfl, ?_⟩
    rcases hM with ⟨hfp, hfd, hnone⟩ | ⟨fd, hfd, hvalid, hbound⟩
    · refine Or.inl ⟨hfp, hfd, ?_⟩
      intro x
      by_cases hxu : x = u
      · subst hxu
        rcases not_and_or.mp hboth with h | h
        · exact Or.inl (Option.not_isSome_iff_eq_none.mp h)
        · exact Or.inr (Option.not_isSome_iff_eq_none.mp h)
      · exact hnone x hxu
    · refine Or.inr ⟨fd, hfd, hvalid, ?_⟩
      intro x sf' sb' hsf' hsb'
      by_cases hxu : x = u
      · subst hxu
        exfalso
        exact hboth ⟨by rw [hsf']; rfl, by rw [hsb']; rfl⟩
      · exact hbound x sf' sb' hxu hsf' hsb'

/-- Evaluation of `bdRelaxEdge` once the edge weight is known. -/
theorem bdRelaxEdge_eval (w : Nat → Nat → Option Int) (dir : Bool) (v u : Nat)
    (st : BDState) (c : Int) (hw0 : (if dir then w u v else w v u) = some c) :
    bdRelaxEdge w dir v u st =
      match (st.side dir).dist u with
      | some du =>
        if ((st.side dir).dist v).getD 0 + c < du then .error .contradictory
        else .ok st
      | none =>
        if (st.side dir).seen u = none ∨
            ((st.side dir).dist v).getD 0 + c < ((st.side dir).seen u).getD 0 then
          bdMeetUpd u { st.setSide dir
            (bdPush (st.side dir) st.ctr v u (((st.side dir).dist v).getD 0 + c))
            with ctr := st.ctr + 1 }
        else .ok st := by
  unfold bdRelaxEdge
  rw [hw0]
  rfl

/-- One bidirectional relaxation step preserves both frontiers'
invariants and the meeting invariant, never raises, and accounts for the
relaxed edge in the frontier condition. -/
theorem bdRelaxEdge_step {g : Graph} {w : Nat → Nat → Option Int} {source target : Nat}
    (hrev : RevOK g) (hnt : NonnegTotalW g w)
    {dir : Bool} {st : BDState} {v u : Nat} {dv : Int}
    (hadj : u ∈ (bdGD g dir).adj v)
    (hv : (st.side dir).dist v = some dv)
    (hmax : ∀ v' c', (st.side dir).dist v' = some c' → c' ≤ dv)
    (hCore : DCore (bdGD g dir) (bdWD w dir) [bdSD source target dir]
      (bdToD (st.side dir) st.ctr))
    (hfrO : ∀ v' c', (st.side dir).dist v' = some c' → v' ≠ v →
      ∀ u' ∈ (bdGD g dir).adj v',
        FrontierAt (bdGD g dir) (bdWD w dir) (bdToD (st.side dir) st.ctr) v' c' u')
    (hPF : PInv g w [source] (bdToD st.fwd st.ctr))
    (hPB : PInv (gRev g) (wRev w) [target] (bdToD st.bwd st.ctr))
    (hMeet : MInv g w source target st) :
    ∃ st', bdRelaxEdge w dir v u st = .ok st' ∧
      st'.side (!dir) = st.side (!dir) ∧
      (st'.side dir).dist = (st.side dir).dist ∧
      (st'.side dir).fringe.length ≤ (st.side dir).fringe.length + 1 ∧
      DCore (bdGD g dir) (bdWD w dir) [bdSD source target dir]
        (bdToD (st'.side dir) st'.ctr) ∧
      (∀ v' c', (st'.side dir).dist v' = some c' → v' ≠ v →
        ∀ u' ∈ (bdGD g dir).adj v',
          FrontierAt (bdGD g dir) (bdWD w dir) (bdToD (st'.side dir) st'.ctr) v' c' u') ∧
      FrontierAt (bdGD g dir) (bdWD w dir) (bdToD (st'.side dir) st'.ctr) v dv u ∧
      (∀ u', FrontierAt (bdGD g dir) (bdWD w dir) (bdToD (st.side dir) st.ctr) v dv u' →
        FrontierAt (bdGD g dir) (bdWD w dir) (bdToD (st'.side dir) st'.ctr) v dv u') ∧
      PInv g w [source] (bdToD st'.fwd st'.ctr) ∧
      PInv (gRev g) (wRev w) [target] (bdToD st'.bwd st'.ctr) ∧
      MInv g w source target st' := by
  cases dir with
  | false =>
    obtain ⟨c, hwc, hc0, hcase⟩ :=
      bdSide_cases (hnt.onAdjT hadj) hnt.nonneg hadj hv hmax hCore hfrO hPF
    have hw0 : (if (false : Bool) then w u v else w v u) = some c := hwc
    have hgd : ((st.side false).dist v).getD 0 = dv := by rw [hv]; rfl
    rcases hcase with ⟨du, hdu, hnlt⟩ | ⟨hdu, himp, su, hsu, hsule⟩ |
      ⟨hdu, himp, hC', hfrO', hfrU', hper', hPI'⟩
    · refine ⟨st, ?_, rfl, rfl, Nat.le_succ _, hCore, hfrO, ?_, fun _ h => h,
        hPF, hPB, hMeet⟩
      · rw [bdRelaxEdge_eval w false v u st c hw0]
        simp only [hdu]
        rw [hgd, if_neg hnlt]
      · intro cu' hcu'
        refine Or.inl ?_
        intro hcon
        dsimp only [bdToD] at hcon
        rw [hdu] at hcon
        cases hcon
    · refine ⟨st, ?_, rfl, rfl, Nat.le_succ _, hCore, hfrO, ?_, fun _ h => h,
        hPF, hPB, hMeet⟩
      · rw [bdRelaxEdge_eval w false v u st c hw0]
        simp only [hdu]
        rw [hgd, if_neg himp]
      · intro cu' hcu'
        have hcu2 : w v u = some cu' := hcu'
        rw [hwc] at hcu2
        cases hcu2
        exact Or.inr ⟨su, hsu, hsule⟩
    · obtain ⟨st2, hmeq, hf2, hb2, hc2, hM2⟩ :=
        bdMeet_step hrev ({ st.setSide false
            (bdPush (st.side false) st.ctr v u (dv + c)) with ctr := st.ctr + 1 })
          (u := u) hPI' hPB (by
            rcases hMeet with ⟨h1, h2, h3⟩ | ⟨fd, h1, h2, h3⟩
            · refine Or.inl ⟨h1, h2, ?_⟩
              intro x hxu
              rcases h3 x with h | h
              · refine Or.inl ?_
                show updF (st.side false).seen u (dv + c) x = none
                rw [updF_ne hxu]
                exact h
              · exact Or.inr h
            · refine Or.inr ⟨fd, h1, h2, ?_⟩
              intro x sf sb hxu hsf hsb
              have hsf' : st.fwd.seen x = some sf := by
                have hx : updF (st.side false).seen u (dv + c) x = some sf := hsf
                rw [updF_ne hxu] at hx
                exact hx
              exact h3 x sf sb hsf' hsb)
      have hdeq : (st2.side false).dist = (st.side false).dist := by
        show st2.fwd.dist = (st.side false).dist
        rw [hf2]
        rfl
      refine ⟨st2, ?_, ?_, hdeq, ?_, ?_, ?_, ?_, ?_, ?_, ?_, hM2⟩
      · rw [bdRelaxEdge_eval w false v u st c hw0]
        simp only [hdu]
        rw [hgd, if_pos himp]
        exact hmeq
      · exact hb2
      · show (st2.side false).fringe.length ≤ (st.side false).fringe.length + 1
        have : st2.fwd.fringe = (st.side false).fringe ++ [(dv + c, st.ctr, u)] := by
          rw [hf2]
          rfl
        show st2.fwd.fringe.length ≤ _
        rw [this, List.length_append]
        exact le_refl _
      · show DCore _ _ _ (bdToD st2.fwd st2.ctr)
        refine DCore.of_eq hC' ?_ ?_ ?_
        · show (bdToD st2.fwd st2.ctr).dist = _
          rw [hf2, hc2]
          rfl
        · show (bdToD st2.fwd st2.ctr).seen = _
          rw [hf2, hc2]
          rfl
        · show (bdToD st2.fwd st2.ctr).fringe = _
          rw [hf2, hc2]
          rfl
      · intro v' c' hv' hne u' hu'
        have hv'' : (st.side false).dist v' = some c' := by
          rw [← hdeq]
          exact hv'
        show FrontierAt _ _ (bdToD st2.fwd st2.ctr) v' c' u'
        rw [hf2, hc2]
        exact hfrO' v' c' hv'' hne u' hu'
      · show FrontierAt _ _ (bdToD st2.fwd st2.ctr) v dv u
        rw [hf2, hc2]
        exact hfrU'
      · intro u' hu'
        show FrontierAt _ _ (bdToD st2.fwd st2.ctr) v dv u'
        rw [hf2, hc2]
        exact hper' u' hu'
      · show PInv g w [source] (bdToD st2.fwd st2.ctr)
        rw [hf2, hc2]
        exact hPI'
      · show PInv (gRev g) (wRev w) [target] (bdToD st2.bwd st2.ctr)
        rw [hb2, hc2]
        exact hPB
  | true =>
    obtain ⟨c, hwc, hc0, hcase⟩ :=
      bdSide_cases (hnt.rev hrev hadj) (NonnegW.revOfTotal hrev hnt) hadj hv hmax hCore hfrO hPB
    have hw0 : (if (true : Bool) then w u v else w v u) = some c := hwc
    have hgd : ((st.side true).dist v).getD 0 = dv := by rw [hv]; rfl
    rcases hcase with ⟨du, hdu, hnlt⟩ | ⟨hdu, himp, su, hsu, hsule⟩ |
      ⟨hdu, himp, hC', hfrO', hfrU', hper', hPI'⟩
    · refine ⟨st, ?_, rfl, rfl, Nat.le_succ _, hCore, hfrO, ?_, fun _ h => h,
        hPF, hPB, hMeet⟩
      · rw [bdRelaxEdge_eval w true v u st c hw0]
        simp only [hdu]
        rw [hgd, if_neg hnlt]
      · intro cu' hcu'
        refine Or.inl ?_
        intro hcon
        dsimp only [bdToD] at hcon
        rw [hdu] at hcon
        cases hcon
    · refine ⟨st, ?_, rfl, rfl, Nat.le_succ _, hCore, hfrO, ?_, fun _ h => h,
        hPF, hPB, hMeet⟩
      · rw [bdRelaxEdge_eval w true v u st c hw0]
        simp only [hdu]
        rw [hgd, if_neg himp]
      · intro cu' hcu'
        have hcu2 : wRev w v u = some cu' := hcu'
        rw [hwc] at hcu2
        cases hcu2
        exact Or.inr ⟨su, hsu, hsule⟩
    · obtain ⟨st2, hmeq, hf2, hb2, hc2, hM2⟩ :=
        bdMeet_step hrev ({ st.setSide true
            (bdPush (st.side true) st.ctr v u (dv + c)) with ctr := st.ctr + 1 })
          (u := u) hPF hPI' (by
            rcases hMeet with ⟨h1, h2, h3⟩ | ⟨fd, h1, h2, h3⟩
            · refine Or.inl ⟨h1, h2, ?_⟩
              intro x hxu
              rcases h3 x with h | h
              · exact Or.inl h
              · refine Or.inr ?_
                show updF (st.side true).seen u (dv + c) x = none
                rw [updF_ne hxu]
                exact h
            · refine Or.inr ⟨fd, h1, h2, ?_⟩
              intro x sf sb hxu hsf hsb
              have hsb' : st.bwd.seen x = some sb := by
                have hx : updF (st.side true).seen u (dv + c) x = some sb := hsb
                rw [updF_ne hxu] at hx
                exact hx
              exact h3 x sf sb hsf hsb')
      have hdeq : (st2.side true).dist = (st.side true).dist := by
        show st2.bwd.dist = (st.side true).dist
        rw [hb2]
        rfl
      refine ⟨st2, ?_, ?_, hdeq, ?_, ?_, ?_, ?_, ?_, ?_, ?_, hM2⟩
      · rw [bdRelaxEdge_eval w true v u st c hw0]
        simp only [hdu]
        rw [hgd, if_pos himp]
        exact hmeq
      · exact hf2
      · show (st2.side true).fringe.length ≤ (st.side true).fringe.length + 1
        have : st2.bwd.fringe = (st.side true).fringe ++ [(dv + c, st.ctr, u)] := by
          rw [hb2]
          rfl
        show st2.bwd.fringe.length ≤ _
        rw [this, List.length_append]
        exact le_refl _
      · show DCore _ _ _ (bdToD st2.bwd st2.ctr)
        refine DCore.of_eq hC' ?_ ?_ ?_
        · show (bdToD st2.bwd st2.ctr).dist = _
          rw [hb2, hc2]
          rfl
        · show (bdToD st2.bwd st2.ctr).seen = _
          rw [hb2, hc2]
          rfl
        · show (bdToD st2.bwd st2.ctr).fringe = _
          rw [hb2, hc2]
          rfl
      · intro v' c' hv' hne u' hu'
        have hv'' : (st.side true).dist v' = some c' := by
          rw [← hdeq]
          exact hv'
        show FrontierAt _ _ (bdToD st2.bwd st2.ctr) v' c' u'
        rw [hb2, hc2]
        exact hfrO' v' c' hv'' hne u' hu'
      · show FrontierAt _ _ (bdToD st2.bwd st2.ctr) v dv u
        rw [hb2, hc2]
        exact hfrU'
      · intro u' hu'
        show FrontierAt _ _ (bdToD st2.bwd st2.ctr) v dv u'
        rw [hb2, hc2]
        exact hper' u' hu'
      · show PInv g w [source] (bdToD st2.fwd st2.ctr)
        rw [hf2, hc2]
        exact hPF
      · show PInv (gRev g) (wRev w) [target] (bdToD st2.bwd st2.ctr)
        rw [hb2, hc2]
        exact hPI'

theorem bdRelaxList_steps {g : Graph} {w : Nat → Nat → Option Int} {source target : Nat}
    (hrev : RevOK g) (hnt : NonnegTotalW g w) (dir : Bool) {v : Nat} (dv : Int) :
    ∀ (l done : List Nat) (st : BDState),
    (bdGD g dir).adj v = done ++ l →
    (st.side dir).dist v = some dv →
    (∀ v' c', (st.side dir).dist v' = some c' → c' ≤ dv) →
    DCore (bdGD g dir) (bdWD w dir) [bdSD source target dir]
      (bdToD (st.side dir) st.ctr) →
    (∀ v' c', (st.side dir).dist v' = some c' → v' ≠ v →
      ∀ u' ∈ (bdGD g dir).adj v',
        FrontierAt (bdGD g dir) (bdWD w dir) (bdToD (st.side dir) st.ctr) v' c' u') →
    (∀ u ∈ done, FrontierAt (bdGD g dir) (bdWD w dir) (bdToD (st.side dir) st.ctr) v dv u) →
    PInv g w [source] (bdToD st.fwd st.ctr) →
    PInv (gRev g) (wRev w) [target] (bdToD st.bwd st.ctr) →
    MInv g w source target st →
    ∃ st', bdRelaxList w dir v l st = .ok st' ∧
      st'.side (!dir) = st.side (!dir) ∧
      (st'.side dir).dist = (st.side dir).dist ∧
      (st'.side dir).fringe.length ≤ (st.side dir).fringe.length + l.length ∧
      DCore (bdGD g dir) (bdWD w dir) [bdSD source target dir]
        (bdToD (st'.side dir) st'.ctr) ∧
      (∀ v' c', (st'.side dir).dist v' = some c' → v' ≠ v →
        ∀ u' ∈ (bdGD g dir).adj v',
          FrontierAt (bdGD g dir) (bdWD w dir) (bdToD (st'.side dir) st'.ctr) v' c' u') ∧
      (∀ u ∈ (bdGD g dir).adj v,
        FrontierAt (bdGD g dir) (bdWD w dir) (bdToD (st'.side dir) st'.ctr) v dv u) ∧
      PInv g w [source] (bdToD st'.fwd st'.ctr) ∧
      PInv (gRev g) (wRev w) [target] (bdToD st'.bwd st'.ctr) ∧
      MInv g w source target st' := by
  intro l
  induction l with
  | nil =>
    intro done st hsplit hv hmax hCore hfrO hdone hPF hPB hMeet
    refine ⟨st, rfl, rfl, rfl, Nat.le_add_right _ _, hCore, hfrO, ?_, hPF, hPB, hMeet⟩
    intro u hu
    rw [hsplit, List.append_nil] at hu
    exact hdone u hu
  | cons u rest ih =>
    intro done st hsplit hv hmax hCore hfrO hdone hPF hPB hMeet
    have hadj : u ∈ (bdGD g dir).adj v := by
      rw [hsplit]
      exact List.mem_append_right _ (List.mem_cons_self _ _)
    obtain ⟨st1, hok, hoth1, hdist1, hlen1, hCore1, hfrO1, hfrU1, hper1, hPF1, hPB1, hM1⟩ :=
      bdRelaxEdge_step hrev hnt hadj hv hmax hCore hfrO hPF hPB hMeet
    have hsplit1 : (bdGD g dir).adj v = (done ++ [u]) ++ rest := by
      rw [hsplit]
      exact (List.append_assoc done [u] rest).symm
    have hv1 : (st1.side dir).dist v = some dv := by
      rw [hdist1]
      exact hv
    have hmax1 : ∀ v' c', (st1.side dir).dist v' = some c' → c' ≤ dv := by
      intro v' c' h
      rw [hdist1] at h
      exact hmax v' c' h
    have hdone1 : ∀ u' ∈ done ++ [u],
        FrontierAt (bdGD g dir) (bdWD w dir) (bdToD (st1.side dir) st1.ctr) v dv u' := by
      intro u' hu'
      rcases List.mem_append.mp hu' with h | h
      · exact hper1 u' (hdone u' h)
      · rcases List.mem_singleton.mp h with rfl
        exact hfrU1
    obtain ⟨st', hok', hoth', hdist', hlen', hCore', hfrO', hfrAll', hPF', hPB', hM'⟩ :=
      ih (done ++ [u]) st1 hsplit1 hv1 hmax1 hCore1 hfrO1 hdone1 hPF1 hPB1 hM1
    refine ⟨st', ?_, hoth'.trans hoth1, hdist'.trans hdist1, ?_, hCore', hfrO',
      hfrAll', hPF', hPB', hM'⟩
    · show (match bdRelaxEdge w dir v u st with
        | Except.error e => (Except.error e : Except Err BDState)
        | Except.ok st2 => bdRelaxList w dir v rest st2) = Except.ok st'
      rw [hok]
      exact hok'
    · have h1 := hlen1
      have h2 := hlen'
      simp only [List.length_cons]
      omega

/-- Settling a fresh popped node preserves the core invariant; the popped
key equals the node's `seen` value and is optimal. -/
theorem settle_step {g : Graph} {w : Nat → Nat → Option Int} {S : List Nat}
    (st : DState) {d : Int} {i v : Nat} {rest : List (Int × Nat × Nat)}
    (hnn : NonnegW g w)
    (hCore : DCore g w S st) (hFront : DFront g w st)
    (hmem : (d, i, v) ∈ st.fringe) (hrest : rest = st.fringe.erase (d, i, v))
    (hmin : ∀ y ∈ st.fringe, d ≤ y.1) (hdvn : st.dist v = none) :
    st.seen v = some d ∧
    (∀ s ∈ S, ∀ c', PathW g w s v c' → d ≤ c') ∧
    DCore g w S { st with dist := updF st.dist v d, fringe := rest } ∧
    (∀ x c, updF st.dist v d x = some c → c ≤ d) ∧
    (∀ v' c', updF st.dist v d v' = some c' → v' ≠ v → ∀ u' ∈ g.adj v',
      FrontierAt g w { st with dist := updF st.dist v d, fringe := rest } v' c' u') := by
  obtain ⟨sv, hsv, hsvle⟩ := hCore.fringeSeen _ hmem
  have hsv' : st.seen v = some sv := hsv
  have hsvle' : sv ≤ d := hsvle
  obtain ⟨i2, hi2⟩ := hCore.seenFringe v sv hdvn hsv'
  have hdle : d ≤ sv := hmin _ hi2
  have hsvd : sv = d := le_antisymm hsvle' hdle
  rw [hsvd] at hsv'
  have hreal : ∃ s ∈ S, PathW g w s v d := hCore.fringeSound _ hmem
  have hopt : ∀ s ∈ S, ∀ c', PathW g w s v c' → d ≤ c' := by
    intro s hs c' hp
    rcases dijkstra_cover hnn hCore hFront hmin hs hp with ⟨cx, hcx, h2⟩ | hd2
    · rw [hdvn] at hcx
      cases hcx
    · exact hd2
  refine ⟨hsv', hopt, ?_, ?_, ?_⟩
  · constructor
    · intro x c hx
      dsimp only at hx
      by_cases hxv : x = v
      · subst hxv
        rw [updF_same] at hx
        cases hx
        exact ⟨hreal, hopt⟩
      · rw [updF_ne hxv] at hx
        exact hCore.distSound x c hx
    · exact hCore.seenSound
    · intro e he
      dsimp only at he
      exact hCore.fringeSound e (List.mem_of_mem_erase (hrest ▸ he))
    · intro u su hdu hsu
      dsimp only at hdu hsu ⊢
      by_cases huv : u = v
      · subst huv
        rw [updF_same] at hdu
        cases hdu
      · rw [updF_ne huv] at hdu
        obtain ⟨j, hj⟩ := hCore.seenFringe u su hdu hsu
        refine ⟨j, ?_⟩
        rw [hrest]
        refine (List.mem_erase_of_ne ?_).mpr hj
        intro hc
        exact huv (congrArg (fun e => e.2.2) hc)
    · intro x c hx e he
      dsimp only at hx he
      have he' : e ∈ st.fringe := List.mem_of_mem_erase (hrest ▸ he)
      by_cases hxv : x = v
      · subst hxv
        rw [updF_same] at hx
        cases hx
        exact hmin e he'
      · rw [updF_ne hxv] at hx
        exact hCore.distFringe x c hx e he'
    · exact hCore.sourceSeen
    · intro x c hx
      dsimp only at hx ⊢
      by_cases hxv : x = v
      · subst hxv
        rw [updF_same] at hx
        cases hx
        exact hsv'
      · rw [updF_ne hxv] at hx
        exact hCore.distSeen x c hx
    · intro e he
      dsimp only at he
      exact hCore.fringeSeen e (List.mem_of_mem_erase (hrest ▸ he))
  · intro x c hx
    by_cases hxv : x = v
    · subst hxv
      rw [updF_same] at hx
      cases hx
      exact le_refl _
    · rw [updF_ne hxv] at hx
      exact hCore.distFringe x c hx (d, i, v) hmem
  · intro v' c' hv' hne u' hu'
    rw [updF_ne hne] at hv'
    refine FrontierAt.mono ?_ ?_ (hFront v' c' hv' u' hu')
    · intro x hx
      dsimp only
      by_cases hxv : x = v
      · subst hxv
        rw [updF_same]
        exact Option.some_ne_none _
      · rw [updF_ne hxv]
        exact hx
    · intro x sx hsx
      exact ⟨sx, hsx, le_refl _⟩

theorem phi_drop {g : Graph} (st st' : DState) {e : Int × Nat × Nat}
    (hd : st'.dist = st.dist) (hf : st'.fringe = st.fringe.erase e)
    (hmem : e ∈ st.fringe) :
    phi g st' + 1 ≤ phi g st := by
  unfold phi
  rw [hd, hf]
  have h1 : (st.fringe.erase e).length = st.fringe.length - 1 :=
    List.length_erase_of_mem hmem
  have h2 : 0 < st.fringe.length := List.length_pos_of_mem hmem
  omega

theorem phi_settle {g : Graph} (st st' : DState) {v : Nat} {d : Int}
    (hd : st'.dist = updF st.dist v d)
    (hlen : st'.fringe.length + 1 ≤ st.fringe.length + (g.adj v).length)
    (hdvn : st.dist v = none) :
    phi g st' + 1 ≤ phi g st := by
  have himpPQ : ∀ p : Nat × List Nat, ((updF st.dist v d p.1).isNone) = true →
      ((st.dist p.1).isNone) = true := by
    intro p hp
    by_cases hpv : p.1 = v
    · rw [hpv, updF_same] at hp
      cases hp
    · rw [updF_ne hpv] at hp
      exact hp
  have hseq : (fun p : Nat × List Nat => (st'.dist p.1).isNone) =
      (fun p => (updF st.dist v d p.1).isNone) := by
    funext p
    rw [hd]
  unfold phi
  rw [hseq]
  cases hlk : g.succL.lookup v with
  | some l0 =>
    have hp0 : (v, l0) ∈ g.succL := lookup_mem hlk
    have hadjv : g.adj v = l0 := by
      unfold Graph.adj
      rw [hlk]
      rfl
    have hdrop := sum_filter_drop (fun p => 1 + p.2.length)
      (fun p => (st.dist p.1).isNone) (fun p => (updF st.dist v d p.1).isNone)
      himpPQ g.succL hp0
      (show (st.dist v).isNone = true by rw [hdvn]; rfl)
      (show (updF st.dist v d v).isNone = false by rw [updF_same]; rfl)
    have hf0 : (fun p : Nat × List Nat => 1 + p.2.length) (v, l0) = 1 + l0.length := rfl
    rw [hf0] at hdrop
    rw [hadjv] at hlen
    omega
  | none =>
    have hadjv : g.adj v = [] := by
      unfold Graph.adj
      rw [hlk]
      rfl
    have hmono := sum_filter_mono (fun p => 1 + p.2.length)
      (fun p => (st.dist p.1).isNone) (fun p => (updF st.dist v d p.1).isNone)
      himpPQ g.succL
    rw [hadjv] at hlen
    simp only [List.length_nil] at hlen
    omega

/-- The meeting bound: when a node `v` is seen from both sides at values
below the minimum keys of the respective fringes, the incumbent is at
most the cost of any source-to-target path. -/
theorem bdMeet_bound {g : Graph} {w : Nat → Nat → Option Int} {source target : Nat}
    (hrev : RevOK g) (hnt : NonnegTotalW g w) {st : BDState}
    (hCF : DCore g w [source] (bdToD st.fwd st.ctr))
    (hFF : DFront g w (bdToD st.fwd st.ctr))
    (hCB : DCore (gRev g) (wRev w) [target] (bdToD st.bwd st.ctr))
    (hFB : DFront (gRev g) (wRev w) (bdToD st.bwd st.ctr))
    {v : Nat} {dF dB : Int}
    (hminF : ∀ e ∈ st.fwd.fringe, dF ≤ e.1)
    (hminB : ∀ e ∈ st.bwd.fringe, dB ≤ e.1)
    (hsvF : st.fwd.seen v = some dF)
    (hsvB : st.bwd.seen v = some dB)
    {fd : Int}
    (hbound : ∀ x sf sb, st.fwd.seen x = some sf → st.bwd.seen x = some sb →
      fd ≤ sf + sb) :
    ∀ C, PathW g w source target C → fd ≤ C := by
  intro C hp
  have hsrc : source ∈ [source] := List.mem_singleton.mpr rfl
  have htgt : target ∈ [target] := List.mem_singleton.mpr rfl
  rcases dijkstra_coverB hnt.nonneg hCF hFF hsrc hp with
    ⟨ct, hct, hle⟩ | ⟨z, sz, c1, c2, hC, hc2, hzn, hsz, hlez, hpz⟩
  · have hseenT : st.fwd.seen target = some ct := hCF.distSeen target ct hct
    obtain ⟨c0, hc0, hc00⟩ := hCB.sourceSeen target htgt
    have hc0' : st.bwd.seen target = some c0 := hc0
    have hb := hbound target ct c0 hseenT hc0'
    omega
  · have hpz' : PathW (gRev g) (wRev w) target z c2 := pathW_rev hrev hpz
    rcases dijkstra_cover3 (NonnegW.revOfTotal hrev hnt) hCB hFB hminB htgt hpz' with
      ⟨bz, hbz, hlebz⟩ | ⟨hbn, tz, htz, hletz⟩ | hd3
    · have hseenBz : st.bwd.seen z = some bz := hCB.distSeen z bz hbz
      have hsz' : st.fwd.seen z = some sz := hsz
      have hb := hbound z sz bz hsz' hseenBz
      omega
    · have hsz' : st.fwd.seen z = some sz := hsz
      have htz' : st.bwd.seen z = some tz := htz
      have hb := hbound z sz tz hsz' htz'
      omega
    · obtain ⟨i, hi⟩ := hCF.seenFringe z sz hzn hsz
      have h1 : dF ≤ sz := hminF _ hi
      have hb := hbound v dF dB hsvF hsvB
      omega

/-- Dropping a stale heap entry (its node already finalized) preserves
the core invariant. -/
theorem DCore_drop {g : Graph} {w : Nat → Nat → Option Int} {S : List Nat}
    {st st' : DState} {d : Int} {i v : Nat}
    (hCore : DCore g w S st)
    (hd : st'.dist = st.dist) (hs : st'.seen = st.seen)
    (hf : st'.fringe = st.fringe.erase (d, i, v))
    {dvv : Int} (hdvv : st.dist v = some dvv) :
    DCore g w S st' := by
  constructor
  · rw [hd]
    exact hCore.distSound
  · rw [hs]
    exact hCore.seenSound
  · rw [hf]
    intro e he
    exact hCore.fringeSound e (List.mem_of_mem_erase he)
  · rw [hd, hs, hf]
    intro u su hdu hsu
    obtain ⟨j, hj⟩ := hCore.seenFringe u su hdu hsu
    refine ⟨j, ?_⟩
    refine (List.mem_erase_of_ne ?_).mpr hj
    intro hc
    have huv : u = v := congrArg (fun e => e.2.2) hc
    rw [huv, hdvv] at hdu
    cases hdu
  · rw [hd, hf]
    intro x c hx e he
    exact hCore.distFringe x c hx e (List.mem_of_mem_erase he)
  · rw [hs]
    exact hCore.sourceSeen
  · rw [hd, hs]
    exact hCore.distSeen
  · rw [hf, hs]
    intro e he
    exact hCore.fringeSeen e (List.mem_of_mem_erase he)

/-- The bidirectional main loop: under the invariants it either exits
with `NoPath` — and then no source-to-target path exists — or returns an
optimal meeting length together with a valid path realizing it. -/
theorem bdLoop_steps {g : Graph} {w : Nat → Nat → Option Int} {source target : Nat}
    (hrev : RevOK g) (hnt : NonnegTotalW g w) (hst : source ≠ target) :
    ∀ (fuel : Nat) (dir0 : Bool) (st : BDState), phiBD g st < fuel →
    BDInv g w source target st →
    (dir0 = false → st.fwd.dist source ≠ none) →
    (dir0 = false → st.bwd = bdInitB target →
      ∀ x c, st.fwd.dist x = some c → x = source) →
    (dir0 = true → st.bwd.dist target ≠ none ∨
      (st.fwd = bdInitF source ∧ st.bwd = bdInitB target)) →
    (bdLoop g w fuel dir0 st = .error .noPath ∧ ∀ C, ¬ PathW g w source target C) ∨
    (∃ L P, bdLoop g w fuel dir0 st = .ok (L, P) ∧
      ValidPath g w [source] P target L ∧
      ∀ C, PathW g w source target C → L ≤ C) := by
  intro fuel
  induction fuel with
  | zero =>
    intro dir0 st hphi
    exact absurd hphi (Nat.not_lt_zero _)
  | succ n ih =>
    intro dir0 st hphi hInv hA1 hA2 hA3
    by_cases hemp : st.fwd.fringe = [] ∨ st.bwd.fringe = []
    · refine Or.inl ⟨?_, ?_⟩
      · show bdLoop g w (n + 1) dir0 st = .error .noPath
        simp only [bdLoop]
        rw [if_pos hemp]
      · intro C hp
        rcases hemp with hF | hB
        · have hFact : st.fwd.dist source ≠ none := by
            rcases hInv.seedF with hini | hact
            · rw [hini] at hF
              simp [bdInitF] at hF
            · exact hact
          have hsT : st.fwd.dist target ≠ none :=
            dijkstra_complete hInv.coreF hInv.frontF hF (List.mem_singleton.mpr rfl) hp
          rcases hInv.seedB with hiniB | hactB
          · cases hd0 : dir0 with
            | false =>
              have h1 := hA2 hd0 hiniB
              cases hdt : st.fwd.dist target with
              | none => exact hsT hdt
              | some ct =>
                have h2 := h1 target ct hdt
                exact hst h2.symm
            | true =>
              rcases hA3 hd0 with hact | ⟨hiniF, hiniB2⟩
              · rw [hiniB] at hact
                exact hact rfl
              · rw [hiniF] at hF
                simp [bdInitF] at hF
          · rcases hInv.noBoth target with h | h
            · exact hsT h
            · exact hactB h
        · have hBact : st.bwd.dist target ≠ none := by
            rcases hInv.seedB with hini | hact
            · rw [hini] at hB
              simp [bdInitB] at hB
            · exact hact
          have hpRev : PathW (gRev g) (wRev w) target source C := pathW_rev hrev hp
          have hsS : st.bwd.dist source ≠ none :=
            dijkstra_complete hInv.coreB hInv.frontB hB (List.mem_singleton.mpr rfl) hpRev
          have hFact : st.fwd.dist source ≠ none := hInv.ord hBact
          rcases hInv.noBoth source with h | h
          · exact hFact h
          · exact hsS h
    · obtain ⟨hFne, hBne⟩ := not_or.mp hemp
      have hne : (st.side (!dir0)).fringe ≠ [] := by
        cases dir0 with
        | false => exact hBne
        | true => exact hFne
      obtain ⟨e, rest, hpop⟩ := popMin_ne_nil hne
      obtain ⟨d, i, v⟩ := e
      obtain ⟨hmem, hrest, hminA⟩ := popMin_spec hpop
      by_cases hstale : ((st.side (!dir0)).dist v).isSome = true
      · -- stale entry
        obtain ⟨dvv, hdvv⟩ := Option.isSome_iff_exists.mp hstale
        have hstep : bdLoop g w (n + 1) dir0 st =
            bdLoop g w n (!dir0)
              (st.setSide (!dir0) { st.side (!dir0) with fringe := rest }) := by
          simp only [bdLoop, hpop]
          rw [if_neg hemp, if_pos hstale]
        have hphi1 : phiBD g
            (st.setSide (!dir0) { st.side (!dir0) with fringe := rest }) < n := by
          cases dir0 with
          | false =>
            have h1 : phi g (bdToD (st.setSide (!false)
                { st.side (!false) with fringe := rest }).fwd
                (st.setSide (!false)
                  { st.side (!false) with fringe := rest }).ctr) =
                phi g (bdToD st.fwd st.ctr) := rfl
            have h2 := phi_drop (g := gRev g)
              (bdToD st.bwd st.ctr)
              (bdToD (st.setSide (!false)
                { st.side (!false) with fringe := rest }).bwd
                (st.setSide (!false)
                  { st.side (!false) with fringe := rest }).ctr)
              rfl hrest hmem
            unfold phiBD at hphi ⊢
            omega
          | true =>
            have h1 : phi (gRev g) (bdToD (st.setSide (!true)
                { st.side (!true) with fringe := rest }).bwd
                (st.setSide (!true)
                  { st.side (!true) with fringe := rest }).ctr) =
                phi (gRev g) (bdToD st.bwd st.ctr) := rfl
            have h2 := phi_drop (g := g)
              (bdToD st.fwd st.ctr)
              (bdToD (st.setSide (!true)
                { st.side (!true) with fringe := rest }).fwd
                (st.setSide (!true)
                  { st.side (!true) with fringe := rest }).ctr)
              rfl hrest hmem
            unfold phiBD at hphi ⊢
            omega
        have hInv1 : BDInv g w source target
            (st.setSide (!dir0) { st.side (!dir0) with fringe := rest }) := by
          cases dir0 with
          | false =>
            have hdvv' : st.bwd.dist v = some dvv := hdvv
            refine ⟨hInv.coreF, ?_, hInv.frontF, hInv.frontB, hInv.pathsF, hInv.pathsB,
              hInv.meet, hInv.noBoth, ?_, ?_, hInv.ord⟩
            · exact DCore_drop hInv.coreB rfl rfl hrest hdvv
            · exact hInv.seedF
            · refine Or.inr ?_
              rcases hInv.seedB with hini | hact
              · rw [hini] at hdvv'
                simp [bdInitB] at hdvv'
              · exact hact
          | true =>
            have hdvv' : st.fwd.dist v = some dvv := hdvv
            refine ⟨?_, hInv.coreB, hInv.frontF, hInv.frontB, hInv.pathsF, hInv.pathsB,
              hInv.meet, hInv.noBoth, ?_, hInv.seedB, hInv.ord⟩
            · exact DCore_drop hInv.coreF rfl rfl hrest hdvv
            · refine Or.inr ?_
              rcases hInv.seedF with hini | hact
              · rw [hini] at hdvv'
                simp [bdInitF] at hdvv'
              · exact hact
        rw [hstep]
        cases dir0 with
        | false =>
          have hdvv' : st.bwd.dist v = some dvv := hdvv
          refine ih (!false) _ hphi1 hInv1 (fun h => Bool.noConfusion h)
            (fun h => Bool.noConfusion h) ?_
          intro h3
          refine Or.inl ?_
          rcases hInv.seedB with hini | hact
          · rw [hini] at hdvv'
            simp [bdInitB] at hdvv'
          · exact hact
        | true =>
          have hdvv' : st.fwd.dist v = some dvv := hdvv
          refine ih (!true) _ hphi1 hInv1 ?_ ?_ (fun h => Bool.noConfusion h)
          · intro h3
            rcases hInv.seedF with hini | hact
            · rw [hini] at hdvv'
              simp [bdInitF] at hdvv'
            · exact hact
          · intro h3 hBini
            exfalso
            rcases hA3 rfl with hact | ⟨hiniF, hiniB2⟩
            · rw [(show st.bwd = bdInitB target from hBini)] at hact
              exact hact rfl
            · rw [hiniF] at hdvv'
              simp [bdInitF] at hdvv'
      · -- fresh node settled in direction `!dir0`
        have hdvn : (st.side (!dir0)).dist v = none :=
          Option.not_isSome_iff_eq_none.mp hstale
        by_cases hmet : ((( st.setSide (!dir0) { st.side (!dir0) with
            dist := updF (st.side (!dir0)).dist v d, fringe := rest }).side
              (!(!dir0))).dist v).isSome = true
        · -- the other frontier already finalized `v`: return the incumbent
          have hovd : ((st.side dir0).dist v).isSome = true := by
            cases dir0 with
            | false => exact hmet
            | true => exact hmet
          obtain ⟨dOv, hOv⟩ := Option.isSome_iff_exists.mp hovd
          -- the popped key is the `seen` value of `v` on the popped side
          obtain ⟨svv, hsvv, hsvle⟩ :=
            (by cases dir0 with
              | false => exact hInv.coreB.fringeSeen _ hmem
              | true => exact hInv.coreF.fringeSeen _ hmem :
              ∃ su, (st.side (!dir0)).seen v = some su ∧ su ≤ d)
          obtain ⟨i2, hi2⟩ :=
            (by cases dir0 with
              | false => exact hInv.coreB.seenFringe v svv hdvn hsvv
              | true => exact hInv.coreF.seenFringe v svv hdvn hsvv :
              ∃ j, (svv, j, v) ∈ (st.side (!dir0)).fringe)
          have hdle : d ≤ svv := hminA _ hi2
          have hsvd : svv = d := le_antisymm hsvle hdle
          rw [hsvd] at hsvv
          -- `v` is commonly seen, so the incumbent is bound and valid
          have hseenOv : (st.side dir0).seen v = some dOv := by
            cases dir0 with
            | false => exact hInv.coreF.distSeen v dOv hOv
            | true => exact hInv.coreB.distSeen v dOv hOv
          obtain ⟨fd, hfd, hvalid, hbound⟩ :
              ∃ fd, st.finaldist = some fd ∧
                ValidPath g w [source] st.finalpath target fd ∧
                ∀ x sf sb, st.fwd.seen x = some sf → st.bwd.seen x = some sb →
                  fd ≤ sf + sb := by
            rcases hInv.meet with ⟨h1, h2, h3⟩ | h
            · exfalso
              cases dir0 with
              | false =>
                have hOF : st.fwd.seen v = some dOv := hseenOv
                have hsvB' : st.bwd.seen v = some d := hsvv
                rcases h3 v with h | h
                · rw [h] at hOF
                  cases hOF
                · rw [h] at hsvB'
                  cases hsvB'
              | true =>
                have hOB : st.bwd.seen v = some dOv := hseenOv
                have hsvF' : st.fwd.seen v = some d := hsvv
                rcases h3 v with h | h
                · rw [h] at hsvF'
                  cases hsvF'
                · rw [h] at hOB
                  cases hOB
            · exact h
          have hboundAll : ∀ C, PathW g w source target C → fd ≤ C := by
            cases dir0 with
            | false =>
              exact bdMeet_bound hrev hnt hInv.coreF hInv.frontF hInv.coreB hInv.frontB
                (hInv.coreF.distFringe v dOv hOv) hminA hseenOv hsvv hbound
            | true =>
              exact bdMeet_bound hrev hnt hInv.coreF hInv.frontF hInv.coreB hInv.frontB
                hminA (hInv.coreB.distFringe v dOv hOv) hsvv hseenOv hbound
          have hstep : bdLoop g w (n + 1) dir0 st = .ok (fd, st.finalpath) := by
            simp only [bdLoop, hpop]
            rw [if_neg hemp, if_neg hstale, if_pos hmet]
            have hfd1 : (st.setSide (!dir0) { st.side (!dir0) with
                dist := updF (st.side (!dir0)).dist v d, fringe := rest }).finaldist
                = some fd := by
              cases dir0 with
              | false => exact hfd
              | true => exact hfd
            simp only [hfd1]
            cases dir0 with
            | false => rfl
            | true => rfl
          exact Or.inr ⟨fd, st.finalpath, hstep, hvalid, hboundAll⟩
        · -- relax the neighbours and continue
          cases dir0 with
          | false =>
            obtain ⟨hseenv, hoptv, hCore1, hmax1, hfrO1⟩ :=
              settle_step (g := gRev g) (w := wRev w) (S := [target])
                (bdToD (st.side (!false)) st.ctr)
                (NonnegW.revOfTotal hrev hnt) hInv.coreB hInv.frontB hmem hrest hminA hdvn
            obtain ⟨st2, hok2, hoth2, hdist2, hlen2, hCore2, hfrO2, hfrAll2, hPF2, hPB2, hM2⟩ :=
              bdRelaxList_steps hrev hnt (!false) d
                (if (!false : Bool) then g.radj v else g.adj v) []
                (st.setSide (!false) { st.side (!false) with
                  dist := updF (st.side (!false)).dist v d, fringe := rest })
                rfl (updF_same (st.side (!false)).dist v d) hmax1 hCore1 hfrO1
                (fun u hu => absurd hu (List.not_mem_nil u))
                hInv.pathsF hInv.pathsB hInv.meet
            have hfwd2 : st2.fwd = st.fwd := hoth2
            have hbd : st2.bwd.dist = updF st.bwd.dist v d := hdist2
            have hmet' : st.fwd.dist v = none := Option.not_isSome_iff_eq_none.mp hmet
            have hsB2 : st2.bwd.dist target ≠ none := by
              rw [hbd]
              rcases hInv.seedB with hini | hact
              · have hm2 : (d, i, v) ∈ st.bwd.fringe := hmem
                rw [hini] at hm2
                simp only [bdInitB, List.mem_singleton, Prod.mk.injEq] at hm2
                intro hcon
                rw [hm2.2.2, updF_same] at hcon
                cases hcon
              · intro hcon
                by_cases htv : target = v
                · rw [htv, updF_same] at hcon
                  cases hcon
                · rw [updF_ne htv] at hcon
                  exact hact hcon
            have hstep : bdLoop g w (n + 1) false st = bdLoop g w n (!false) st2 := by
              simp only [bdLoop, hpop]
              rw [if_neg hemp, if_neg hstale, if_neg hmet]
              rw [(hok2 : bdRelaxList w (!false) v
                  (if (!false : Bool) then g.radj v else g.adj v)
                  (st.setSide (!false) { st.side (!false) with
                    dist := updF (st.side (!false)).dist v d, fringe := rest }) =
                  Except.ok st2)]
            have hphi2 : phiBD g st2 < n := by
              have h1 : phi g (bdToD st2.fwd st2.ctr) = phi g (bdToD st.fwd st.ctr) := by
                unfold phi
                simp only [bdToD]
                rw [hfwd2]
              have hlen2' : (bdToD st2.bwd st2.ctr).fringe.length + 1 ≤
                  (bdToD st.bwd st.ctr).fringe.length + ((gRev g).adj v).length := by
                have ha : st2.bwd.fringe.length ≤ rest.length + ((gRev g).adj v).length :=
                  hlen2
                have hb : rest.length = st.bwd.fringe.length - 1 := by
                  rw [hrest]
                  exact List.length_erase_of_mem hmem
                have hc : 0 < st.bwd.fringe.length := List.length_pos_of_mem hmem
                show st2.bwd.fringe.length + 1 ≤ st.bwd.fringe.length + _
                omega
              have h2 := phi_settle (g := gRev g) (bdToD st.bwd st.ctr)
                (bdToD st2.bwd st2.ctr) hbd hlen2' hdvn
              unfold phiBD at hphi ⊢
              omega
            have hInv2 : BDInv g w source target st2 := by
              refine ⟨?_, hCore2, ?_, ?_, hPF2, hPB2, hM2, ?_, ?_, Or.inr hsB2, ?_⟩
              · refine DCore.of_eq hInv.coreF ?_ ?_ ?_
                · show (bdToD st2.fwd st2.ctr).dist = _
                  dsimp only [bdToD]
                  rw [hfwd2]
                · show (bdToD st2.fwd st2.ctr).seen = _
                  dsimp only [bdToD]
                  rw [hfwd2]
                · show (bdToD st2.fwd st2.ctr).fringe = _
                  dsimp only [bdToD]
                  rw [hfwd2]
              · intro v' c' hv' u' hu'
                have h0 : st2.fwd.dist v' = some c' := hv'
                rw [hfwd2] at h0
                have h1 := hInv.frontF v' c' h0 u' hu'
                show FrontierAt g w (bdToD st2.fwd st2.ctr) v' c' u'
                rw [hfwd2]
                exact h1
              · intro v' c' hv' u' hu'
                have hv'' : (st2.side (!false)).dist v' = some c' := hv'
                by_cases hv'v : v' = v
                · subst hv'v
                  have h0 : updF st.bwd.dist v' d v' = some c' := by
                    have h1 : st2.bwd.dist v' = some c' := hv''
                    rw [hbd] at h1
                    exact h1
                  rw [updF_same] at h0
                  cases h0
                  exact hfrAll2 u' hu'
                · exact hfrO2 v' c' hv'' hv'v u' hu'
              · intro x
                by_cases hxv : x = v
                · subst hxv
                  refine Or.inl ?_
                  rw [hfwd2]
                  exact hmet'
                · rcases hInv.noBoth x with h | h
                  · refine Or.inl ?_
                    rw [hfwd2]
                    exact h
                  · refine Or.inr ?_
                    rw [hbd, updF_ne hxv]
                    exact h
              · rcases hInv.seedF with hini | hact
                · refine Or.inl ?_
                  rw [hfwd2]
                  exact hini
                · refine Or.inr ?_
                  rw [hfwd2]
                  exact hact
              · intro h2
                rw [hfwd2]
                exact hA1 rfl
            rw [hstep]
            exact ih (!false) st2 hphi2 hInv2 (fun h => Bool.noConfusion h)
              (fun h => Bool.noConfusion h) (fun _ => Or.inl hsB2)
          | true =>
            obtain ⟨hseenv, hoptv, hCore1, hmax1, hfrO1⟩ :=
              settle_step (g := g) (w := w) (S := [source])
                (bdToD (st.side (!true)) st.ctr)
                hnt.nonneg hInv.coreF hInv.frontF hmem hrest hminA hdvn
            obtain ⟨st2, hok2, hoth2, hdist2, hlen2, hCore2, hfrO2, hfrAll2, hPF2, hPB2, hM2⟩ :=
              bdRelaxList_steps hrev hnt (!true) d
                (if (!true : Bool) then g.radj v else g.adj v) []
                (st.setSide (!true) { st.side (!true) with
                  dist := updF (st.side (!true)).dist v d, fringe := rest })
                rfl (updF_same (st.side (!true)).dist v d) hmax1 hCore1 hfrO1
                (fun u hu => absurd hu (List.not_mem_nil u))
                hInv.pathsF hInv.pathsB hInv.meet
            have hbwd2 : st2.bwd = st.bwd := hoth2
            have hfd : st2.fwd.dist = updF st.fwd.dist v d := hdist2
            have hmet' : st.bwd.dist v = none := Option.not_isSome_iff_eq_none.mp hmet
            have hsF2 : st2.fwd.dist source ≠ none := by
              rw [hfd]
              rcases hInv.seedF with hini | hact
              · have hm2 : (d, i, v) ∈ st.fwd.fringe := hmem
                rw [hini] at hm2
                simp only [bdInitF, List.mem_singleton, Prod.mk.injEq] at hm2
                intro hcon
                rw [hm2.2.2, updF_same] at hcon
                cases hcon
              · intro hcon
                by_cases hsv : source = v
                · rw [hsv, updF_same] at hcon
                  cases hcon
                · rw [updF_ne hsv] at hcon
                  exact hact hcon
            have hstep : bdLoop g w (n + 1) true st = bdLoop g w n (!true) st2 := by
              simp only [bdLoop, hpop]
              rw [if_neg hemp, if_neg hstale, if_neg hmet]
              rw [(hok2 : bdRelaxList w (!true) v
                  (if (!true : Bool) then g.radj v else g.adj v)
                  (st.setSide (!true) { st.side (!true) with
                    dist := updF (st.side (!true)).dist v d, fringe := rest }) =
                  Except.ok st2)]
            have hphi2 : phiBD g st2 < n := by
              have h1 : phi (gRev g) (bdToD st2.bwd st2.ctr) =
                  phi (gRev g) (bdToD st.bwd st.ctr) := by
                unfold phi
                simp only [bdToD]
                rw [hbwd2]
              have hlen2' : (bdToD st2.fwd st2.ctr).fringe.length + 1 ≤
                  (bdToD st.fwd st.ctr).fringe.length + (g.adj v).length := by
                have ha : st2.fwd.fringe.length ≤ rest.length + (g.adj v).length := hlen2
                have hb : rest.length = st.fwd.fringe.length - 1 := by
                  rw [hrest]
                  exact List.length_erase_of_mem hmem
                have hc : 0 < st.fwd.fringe.length := List.length_pos_of_mem hmem
                show st2.fwd.fringe.length + 1 ≤ st.fwd.fringe.length + _
                omega
              have h2 := phi_settle (g := g) (bdToD st.fwd st.ctr)
                (bdToD st2.fwd st2.ctr) hfd hlen2' hdvn
              unfold phiBD at hphi ⊢
              omega
            have hInv2 : BDInv g w source target st2 := by
              refine ⟨hCore2, ?_, ?_, ?_, hPF2, hPB2, hM2, ?_, Or.inr hsF2, ?_, ?_⟩
              · refine DCore.of_eq hInv.coreB ?_ ?_ ?_
                · show (bdToD st2.bwd st2.ctr).dist = _
                  dsimp only [bdToD]
                  rw [hbwd2]
                · show (bdToD st2.bwd st2.ctr).seen = _
                  dsimp only [bdToD]
                  rw [hbwd2]
                · show (bdToD st2.bwd st2.ctr).fringe = _
                  dsimp only [bdToD]
                  rw [hbwd2]
              · intro v' c' hv' u' hu'
                have hv'' : (st2.side (!true)).dist v' = some c' := hv'
                by_cases hv'v : v' = v
                · subst hv'v
                  have h0 : updF st.fwd.dist v' d v' = some c' := by
                    have h1 : st2.fwd.dist v' = some c' := hv''
                    rw [hfd] at h1
                    exact h1
                  rw [updF_same] at h0
                  cases h0
                  exact hfrAll2 u' hu'
                · exact hfrO2 v' c' hv'' hv'v u' hu'
              · intro v' c' hv' u' hu'
                have h0 : st2.bwd.dist v' = some c' := hv'
                rw [hbwd2] at h0
                have h1 := hInv.frontB v' c' h0 u' hu'
                show FrontierAt (gRev g) (wRev w) (bdToD st2.bwd st2.ctr) v' c' u'
                rw [hbwd2]
                exact h1
              · intro x
                by_cases hxv : x = v
                · subst hxv
                  refine Or.inr ?_
                  rw [hbwd2]
                  exact hmet'
                · rcases hInv.noBoth x with h | h
                  · refine Or.inl ?_
                    rw [hfd, updF_ne hxv]
                    exact h
                  · refine Or.inr ?_
                    rw [hbwd2]
                    exact h
              · rcases hInv.seedB with hini | hact
                · refine Or.inl ?_
                  rw [hbwd2]
                  exact hini
                · refine Or.inr ?_
                  rw [hbwd2]
                  exact hact
              · intro hbt
                rw [hbwd2] at hbt
                have h1 := hInv.ord hbt
                rw [hfd]
                intro hcon
                by_cases hsv : source = v
                · rw [hsv, updF_same] at hcon
                  cases hcon
                · rw [updF_ne hsv] at hcon
                  exact h1 hcon
            rw [hstep]
            refine ih (!true) st2 hphi2 hInv2 (fun _ => hsF2) ?_
              (fun h => Bool.noConfusion h)
            intro h2 hBini x c hx
            have hBini' : st.bwd = bdInitB target := by
              rw [← hbwd2]
              exact hBini
            rcases hA3 rfl with hact | ⟨hiniF, hiniB2⟩
            · exfalso
              rw [hBini'] at hact
              exact hact rfl
            · rw [hfd] at hx
              by_cases hxv : x = v
              · have hm2 : (d, i, v) ∈ st.fwd.fringe := hmem
                rw [hiniF] at hm2
                simp only [bdInitF, List.mem_singleton, Prod.mk.injEq] at hm2
                rw [hxv, hm2.2.2]
              · rw [updF_ne hxv] at hx
                rw [hiniF] at hx
                simp [bdInitF] at hx

/-- Run of the Dijkstra core as `multi_source_dijkstra` invokes it for a
single source with a target: the loop terminates successfully and its
final state carries the core invariants, the paths invariant, and a
distance entry for the target whenever the target is reachable. -/
theorem sssp_target_run {g : Graph} {w : Nat → Nat → Option Int} {source : Nat}
    (target : Nat) (hnn : NonnegW g w) (hsm : ∀ s ∈ ([source] : List Nat), s ∈ g.nodes) :
    ∃ st', dijkstra_multisource g ⟨w, none, none, some target, true, false⟩ [source]
        (sourcesPaths [source]) (fun _ => none) = .ok st' ∧
      DCore g w [source] st' ∧ PInv g w [source] st' ∧
      ((∃ C, PathW g w source target C) → st'.dist target ≠ none) := by
  obtain ⟨st', hrun, hC', hP', hQ', hend⟩ :=
    dijkstraLoop_steps (g := g) (A := ⟨w, none, none, some target, true, false⟩)
      (S := [source]) rfl rfl hnn (dijkstraFuel g [source])
      (dijkstraSeeded [source] (sourcesPaths [source]) (fun _ => none))
      (phi_seeded_lt g [source] _ _) (seeded_DCore g w [source] _ _)
      (seeded_DFront g w [source] _ _)
      (fun _ => seeded_PInv g w [source] _) (fun h => Bool.noConfusion h)
  refine ⟨st', ?_, hC', hP' rfl, ?_⟩
  · unfold dijkstra_multisource
    dsimp only
    rw [dijkstra_init_seeding g none [source] _ _ hsm]
    exact hrun
  · rcases hend with ⟨hnil', hFront'⟩ | ⟨t, htg, hx⟩
    · rintro ⟨C, hp⟩
      exact dijkstra_complete hC' hFront' hnil' (List.mem_singleton_self source) hp
    · have ht : target = t := Option.some.inj htg
      intro _
      rw [ht]
      exact hx

/-- Behaviour of `single_source_dijkstra` with a target distinct from the
source: the no-path error exactly when the target is unreachable, and
otherwise an optimal length together with a valid path of that length. -/
theorem sssp_target_spec {g : Graph} {w : Nat → Nat → Option Int} {source : Nat}
    (target : Nat) (hnn : NonnegW g w) (hsm : source ∈ g.nodes) (hne : source ≠ target) :
    ((∀ C, ¬ PathW g w source target C) →
      single_source_dijkstra g w source (some target) none none = .error .noPath) ∧
    (∀ C0, PathW g w source target C0 →
      ∃ L P, single_source_dijkstra g w source (some target) none none =
          .ok (.one L P) ∧
        ValidPath g w [source] P target L ∧
        ∀ C, PathW g w source target C → L ≤ C) := by
  obtain ⟨st', hms, hC', hP', hcomp⟩ :=
    sssp_target_run target hnn
      (by
        intro s hs
        rw [List.mem_singleton.mp hs]
        exact hsm)
  have hsplit : single_source_dijkstra g w source (some target) none none =
      (match st'.dist target, st'.paths target with
        | some dt, some pt => Except.ok (.one dt pt)
        | _, _ => Except.error .noPath) := by
    unfold single_source_dijkstra multi_source_dijkstra
    rw [if_neg (show ¬ ([source] : List Nat) = [] from fun h => List.noConfusion h)]
    dsimp only
    rw [if_neg (show ¬ target ∈ ([source] : List Nat) from
      fun h => hne (List.mem_singleton.mp h).symm)]
    rw [hms]
  constructor
  · intro hnp
    have hdn : st'.dist target = none := by
      cases hd : st'.dist target with
      | none => rfl
      | some c =>
        obtain ⟨s, hs, hp⟩ := (hC'.distSound target c hd).1
        rw [List.mem_singleton.mp hs] at hp
        exact absurd hp (hnp c)
    rw [hsplit, hdn]
  · intro C0 hp0
    have hdx := hcomp ⟨C0, hp0⟩
    cases hd : st'.dist target with
    | none => exact absurd hd hdx
    | some L =>
      have hseen := hC'.distSeen target L hd
      obtain ⟨P, hPt, hVP⟩ := hP' target L hseen
      refine ⟨L, P, ?_, hVP, ?_⟩
      · rw [hsplit, hd, hPt]
      · intro C hC
        exact (hC'.distSound target L hd).2 source (List.mem_singleton_self source) C hC

/-- The core invariant holds of either initial frontier of the
bidirectional search (stated for an arbitrary path dictionary and
insertion counter). -/
theorem bdInit_DCore (g : Graph) (w : Nat → Nat → Option Int) (s : Nat) (i c : Nat)
    (p : NMap (List Nat)) :
    DCore g w [s] (bdToD
      { dist := fun _ => none
        seen := fun v => if v = s then some 0 else none
        paths := p
        fringe := [(0, i, s)] } c) := by
  constructor
  · intro v cv hv
    cases hv
  · intro v cv hv
    dsimp only [bdToD] at hv
    by_cases h : v = s
    · subst h
      rw [if_pos rfl] at hv
      cases hv
      exact ⟨v, List.mem_singleton_self v, PathW.refl⟩
    · rw [if_neg h] at hv
      cases hv
  · intro e he
    dsimp only [bdToD] at he
    rw [List.mem_singleton] at he
    subst he
    exact ⟨s, List.mem_singleton_self s, PathW.refl⟩
  · intro u su hdu hsu
    dsimp only [bdToD] at hsu ⊢
    by_cases h : u = s
    · subst h
      rw [if_pos rfl] at hsu
      cases hsu
      exact ⟨i, List.mem_singleton_self _⟩
    · rw [if_neg h] at hsu
      cases hsu
  · intro v cv hv
    cases hv
  · intro s' hs'
    rw [List.mem_singleton] at hs'
    subst hs'
    dsimp only [bdToD]
    exact ⟨0, by rw [if_pos rfl], le_refl 0⟩
  · intro v cv hv
    cases hv
  · intro e he
    dsimp only [bdToD] at he ⊢
    rw [List.mem_singleton] at he
    subst he
    exact ⟨0, by rw [if_pos rfl], le_refl 0⟩

/-- The paths invariant holds of either initial frontier of the
bidirectional search. -/
theorem bdInit_PInv (g : Graph) (w : Nat → Nat → Option Int) (s : Nat) (i c : Nat) :
    PInv g w [s] (bdToD
      { dist := fun _ => none
        seen := fun v => if v = s then some 0 else none
        paths := fun v => if v = s then some [s] else none
        fringe := [(0, i, s)] } c) := by
  intro u su hsu
  dsimp only [bdToD] at hsu ⊢
  by_cases h : u = s
  · subst h
    rw [if_pos rfl] at hsu
    cases hsu
    exact ⟨[u], by rw [if_pos rfl], u, List.mem_singleton_self u, [], rfl, rfl, rfl⟩
  · rw [if_neg h] at hsu
    cases hsu

/-- The loop invariant of `bidirectional_dijkstra` holds of its initial
state. -/
theorem bd_initial (g : Graph) (w : Nat → Nat → Option Int) (source target : Nat)
    (hne : source ≠ target) :
    BDInv g w source target
      { fwd := bdInitF source, bwd := bdInitB target, ctr := 2,
        finaldist := none, finalpath := [] } := by
  refine ⟨?_, ?_, ?_, ?_, ?_, ?_, ?_, ?_, Or.inl rfl, Or.inl rfl, ?_⟩
  · exact bdInit_DCore g w source 0 2 _
  · exact bdInit_DCore (gRev g) (wRev w) target 1 2 _
  · intro v cv hv
    exact Option.noConfusion (show (none : Option Int) = some cv from hv)
  · intro v cv hv
    exact Option.noConfusion (show (none : Option Int) = some cv from hv)
  · exact bdInit_PInv g w source 0 2
  · exact bdInit_PInv (gRev g) (wRev w) target 1 2
  · refine Or.inl ⟨rfl, rfl, ?_⟩
    intro x
    dsimp only [bdInitF, bdInitB]
    by_cases hx : x = source
    · refine Or.inr ?_
      rw [if_neg (show ¬ x = target by rw [hx]; exact hne)]
    · exact Or.inl (by rw [if_neg hx])
  · intro x
    exact Or.inl rfl
  · intro h
    exact absurd rfl h

/-- The termination potential of the initial bidirectional state is below
the fuel the wrapper supplies. -/
theorem bd_init_phi (g : Graph) (source target : Nat) :
    phiBD g { fwd := bdInitF source, bwd := bdInitB target, ctr := 2,
              finaldist := none, finalpath := [] } < bdFuel g := by
  unfold phiBD phi bdFuel
  dsimp only [bdToD, bdInitF, bdInitB, gRev]
  simp only [List.length_cons, List.length_nil]
  have h1 := sum_filter_le_sum (fun q : Nat × List Nat => 1 + q.2.length)
    (fun q => (none : Option Int).isNone) g.succL
  have h2 := sum_filter_le_sum (fun q : Nat × List Nat => 1 + q.2.length)
    (fun q => (none : Option Int).isNone) g.bwdL
  omega

/-- Behaviour of `bidirectional_dijkstra` on member nodes with
`source ≠ target`: either the no-path error with the target unreachable,
or an optimal length together with a valid path of that length. -/
theorem bd_run {g : Graph} {w : Nat → Nat → Option Int} {source target : Nat}
    (hrev : RevOK g) (hnt : NonnegTotalW g w) (hsm : source ∈ g.nodes)
    (htm : target ∈ g.nodes) (hne : source ≠ target) :
    (bidirectional_dijkstra g w source target = .error .noPath ∧
      ∀ C, ¬ PathW g w source target C) ∨
    (∃ L P, bidirectional_dijkstra g w source target = .ok (L, P) ∧
      ValidPath g w [source] P target L ∧
      ∀ C, PathW g w source target C → L ≤ C) := by
  have heq : bidirectional_dijkstra g w source target =
      bdLoop g w (bdFuel g) true
        { fwd := bdInitF source, bwd := bdInitB target, ctr := 2,
          finaldist := none, finalpath := [] } := by
    unfold bidirectional_dijkstra
    rw [if_neg (not_or.mpr ⟨fun h => h hsm, fun h => h htm⟩), if_neg hne]
    rfl
  rw [heq]
  exact bdLoop_steps hrev hnt hne (bdFuel g) true _ (bd_init_phi g source target)
    (bd_initial g w source target hne) (fun h => Bool.noConfusion h)
    (fun h => Bool.noConfusion h) (fun _ => Or.inr ⟨rfl, rfl⟩)

/-- C3 — for nodes `source`, `target` of the graph and a weight callable
defined and non-negative on every edge (with the backward adjacency
describing the same edge set as the forward one), if any path from
`source` to `target` exists then `bidirectional_dijkstra` returns a pair
`(L, P)` in which `L` equals the length returned by
`single_source_dijkstra` run towards the same target and `P` is a
source-to-target path of total edge weight `L`; if no path exists, both
calls raise the no-path error. -/
theorem bidirectional_agreement (g : Graph) (w : Nat → Nat → Option Int)
    (source target : Nat) (hrev : RevOK g) (hnt : NonnegTotalW g w)
    (hsm : source ∈ g.nodes) (htm : target ∈ g.nodes) :
    ((∃ C, PathW g w source target C) →
      ∃ L P P2, bidirectional_dijkstra g w source target = .ok (L, P) ∧
        single_source_dijkstra g w source (some target) none none = .ok (.one L P2) ∧
        ValidPath g w [source] P target L) ∧
    ((∀ C, ¬ PathW g w source target C) →
      bidirectional_dijkstra g w source target = .error .noPath ∧
      single_source_dijkstra g w source (some target) none none = .error .noPath) := by
  by_cases hst : source = target
  · subst hst
    constructor
    · intro _
      refine ⟨0, [source], [source], ?_, ?_, ?_⟩
      · unfold bidirectional_dijkstra
        rw [if_neg (not_or.mpr ⟨fun h => h hsm, fun h => h htm⟩), if_pos rfl]
      · unfold single_source_dijkstra multi_source_dijkstra
        rw [if_neg (show ¬ ([source] : List Nat) = [] from fun h => List.noConfusion h)]
        dsimp only
        rw [if_pos (List.mem_singleton_self source)]
      · exact ⟨source, List.mem_singleton_self source, [], rfl, rfl, rfl⟩
    · intro hnp
      exact absurd PathW.refl (hnp 0)
  · have hnn : NonnegW g w := hnt.nonneg
    obtain ⟨hserr, hsok⟩ := sssp_target_spec target hnn hsm hst
    rcases bd_run hrev hnt hsm htm hst with ⟨hberr, hbnp⟩ | ⟨L, P, hbok, hbVP, hbopt⟩
    · constructor
      · rintro ⟨C, hp⟩
        exact absurd hp (hbnp C)
      · intro hnp
        exact ⟨hberr, hserr hnp⟩
    · constructor
      · rintro ⟨C, hp⟩
        obtain ⟨L2, P2, hss, hVP2, hopt2⟩ := hsok C hp
        obtain ⟨s, hs, hp2⟩ := validPath_pathW hVP2
        rw [List.mem_singleton.mp hs] at hp2
        obtain ⟨s', hs', hpb⟩ := validPath_pathW hbVP
        rw [List.mem_singleton.mp hs'] at hpb
        have hLe : L = L2 := le_antisymm (hbopt L2 hp2) (hopt2 L hpb)
        refine ⟨L, P, P2, hbok, ?_, hbVP⟩
        rw [← hLe] at hss
        exact hss
      · intro hnp
        obtain ⟨s', hs', hpb⟩ := validPath_pathW hbVP
        rw [List.mem_singleton.mp hs'] at hpb
        exact absurd hpb (hnp L)

theorem bidirectional_agreement_witness :
    RevOK gC3 ∧ NonnegTotalW gC3 wC1 ∧ 0 ∈ gC3.nodes ∧ 2 ∈ gC3.nodes ∧
    (((∃ C, PathW gC3 wC1 0 2 C) →
      ∃ L P P2, bidirectional_dijkstra gC3 wC1 0 2 = .ok (L, P) ∧
        single_source_dijkstra gC3 wC1 0 (some 2) none none = .ok (.one L P2) ∧
        ValidPath gC3 wC1 [0] P 2 L) ∧
    ((∀ C, ¬ PathW gC3 wC1 0 2 C) →
      bidirectional_dijkstra gC3 wC1 0 2 = .error .noPath ∧
      single_source_dijkstra gC3 wC1 0 (some 2) none none = .error .noPath)) :=
  ⟨by unfold RevOK; decide, by unfold NonnegTotalW; decide, by decide, by decide,
    bidirectional_agreement gC3 wC1 0 2 (by unfold RevOK; decide)
      (by unfold NonnegTotalW; decide) (by decide) (by decide)⟩

/-- Exact characterization of the contradictory-paths error at the level
of a single relaxation of the unidirectional core. -/
theorem relax_contradictory_iff (A : DijkArgs) (v u : Nat) (st : DState) :
    dijkstraRelaxEdge A v u st = .error .contradictory ↔
      ∃ cost du, dijkstraCost A v u = some cost ∧
        cutoffOK A ((st.dist v).getD 0 + cost) = true ∧
        st.dist u = some du ∧ (st.dist v).getD 0 + cost < du := by
  cases hc : dijkstraCost A v u with
  | none =>
    simp only [dijkstraRelaxEdge, hc]
    constructor
    · intro h
      exact Except.noConfusion h
    · rintro ⟨cost, du, hco, -⟩
      exact Option.noConfusion hco
  | some cost =>
    cases hdu : st.dist u with
    | none =>
      simp only [dijkstraRelaxEdge, hc, hdu]
      constructor
      · intro h
        split at h
        · exact Except.noConfusion h
        · split at h
          · exact Except.noConfusion h
          · split at h
            · split at h
              · exact Except.noConfusion h
              · exact Except.noConfusion h
            · exact Except.noConfusion h
      · rintro ⟨cost', du, hco, -, hdu', -⟩
        exact Option.noConfusion hdu'
    | some du =>
      simp only [dijkstraRelaxEdge, hc, hdu]
      cases hcut : cutoffOK A ((st.dist v).getD 0 + cost) with
      | false =>
        rw [if_pos rfl]
        constructor
        · intro h
          exact Except.noConfusion h
        · rintro ⟨cost', du', hco, hok, -⟩
          cases Option.some.inj hco
          rw [hcut] at hok
          exact Bool.noConfusion hok
      | true =>
        rw [if_neg (fun h => Bool.noConfusion h)]
        constructor
        · intro h
          by_cases hlt : (st.dist v).getD 0 + cost < du
          · exact ⟨cost, du, rfl, hcut, rfl, hlt⟩
          · rw [if_neg hlt] at h
            by_cases hpe : A.usePred = true ∧ (st.dist v).getD 0 + cost = du
            · rw [if_pos hpe] at h
              exact Except.noConfusion h
            · rw [if_neg hpe] at h
              exact Except.noConfusion h
        · rintro ⟨cost', du', hco, -, hdu', hlt⟩
          cases Option.some.inj hco
          cases Option.some.inj hdu'
          rw [if_pos hlt]

/-- Exact characterization of the contradictory-paths error at the level
of a single relaxation of the bidirectional search. -/
theorem bd_relax_contradictory_iff (w : Nat → Nat → Option Int) (dir : Bool)
    (v u : Nat) (bst : BDState) :
    bdRelaxEdge w dir v u bst = .error .contradictory ↔
      ∃ c du, (if dir then w u v else w v u) = some c ∧
        (bst.side dir).dist u = some du ∧
        ((bst.side dir).dist v).getD 0 + c < du := by
  cases hc : (if dir then w u v else w v u) with
  | none =>
    simp only [bdRelaxEdge, hc]
    constructor
    · intro h
      cases (Except.error.inj h)
    · rintro ⟨c, du, hco, -⟩
      exact Option.noConfusion hco
  | some c =>
    cases hdu : (bst.side dir).dist u with
    | none =>
      simp only [bdRelaxEdge, hc, hdu]
      constructor
      · intro h
        split at h
        · split at h
          · split at h
            · exact Except.noConfusion h
            · split at h
              · cases (Except.error.inj h)
              · split at h
                · exact Except.noConfusion h
                · exact Except.noConfusion h
          · exact Except.noConfusion h
        · exact Except.noConfusion h
      · rintro ⟨c', du, hco, hdu', -⟩
        exact Option.noConfusion hdu'
    | some du =>
      simp only [bdRelaxEdge, hc, hdu]
      constructor
      · intro h
        by_cases hlt : ((bst.side dir).dist v).getD 0 + c < du
        · exact ⟨c, du, rfl, rfl, hlt⟩
        · rw [if_neg hlt] at h
          exact Except.noConfusion h
      · rintro ⟨c', du', hco, hdu', hlt⟩
        cases Option.some.inj hco
        cases Option.some.inj hdu'
        rw [if_pos hlt]

/-- The seeding loop either raises the node-not-found error or certifies
that all sources are nodes of the graph. -/
theorem dijkstraInitLoop_cases (g : Graph) (nw : Option (Nat → Int)) :
    ∀ (sources : List Nat) (st : DState),
      dijkstraInitLoop g nw sources st = .error .nodeNotFound ∨
      ∀ s ∈ sources, s ∈ g.nodes := by
  intro sources
  induction sources with
  | nil =>
    intro st
    exact Or.inr (fun s hs => absurd hs (List.not_mem_nil s))
  | cons a rest ih =>
    intro st
    by_cases ha : a ∈ g.nodes
    · rcases ih { st with
          seen := updF st.seen a 0
          fringe := st.fringe ++ [(initKey nw a, st.ctr, a)]
          ctr := st.ctr + 1 } with h | h
      · refine Or.inl ?_
        unfold dijkstraInitLoop
        rw [if_pos ha]
        exact h
      · refine Or.inr ?_
        intro s hs
        rcases List.mem_cons.mp hs with rfl | hs'
        · exact ha
        · exact h s hs'
    · refine Or.inl ?_
      unfold dijkstraInitLoop
      rw [if_neg ha]

/-- With no node-weight map, one relaxation out of a just-settled node
whose key dominates every finalized distance never errors (for any cutoff,
target and `pred`/`paths` flags), keeps `dist`, and preserves the
monotonicity invariant. -/
theorem noContra_edge {g : Graph} {A : DijkArgs} {v u : Nat} {d : Int} {st : DState}
    (hnw : A.nodeWeight = none) (hnn : NonnegW g A.w) (hadj : u ∈ g.adj v)
    (hv : st.dist v = some d)
    (hmax : ∀ x dx, st.dist x = some dx → dx ≤ d)
    (hI : DMono st) :
    ∃ st', dijkstraRelaxEdge A v u st = .ok st' ∧
      st'.dist = st.dist ∧
      st'.fringe.length ≤ st.fringe.length + 1 ∧
      DMono st' := by
  have hcost : dijkstraCost A v u = A.w v u := by
    unfold dijkstraCost
    rw [hnw]
  cases hwv : A.w v u with
  | none =>
    refine ⟨st, ?_, rfl, Nat.le_succ _, hI⟩
    unfold dijkstraRelaxEdge
    rw [hcost, hwv]
  | some c =>
    have hc0 : 0 ≤ c := hnn.on_adj hadj hwv
    have hgd : (st.dist v).getD 0 = d := by rw [hv]; rfl
    cases hcut : cutoffOK A ((st.dist v).getD 0 + c) with
    | false =>
      refine ⟨st, ?_, rfl, Nat.le_succ _, hI⟩
      unfold dijkstraRelaxEdge
      rw [hcost, hwv]
      show (if cutoffOK A ((st.dist v).getD 0 + c) = false then Except.ok st else _) = _
      rw [if_pos hcut]
    | true =>
      cases hdu : st.dist u with
      | some du =>
        have hdule : du ≤ d := hmax u du hdu
        have hnlt : ¬ (d + c < du) := by omega
        by_cases hpe : A.usePred = true ∧ d + c = du
        · refine ⟨{ st with pred := updF st.pred u ((st.pred u).getD [] ++ [v]) },
            ?_, rfl, Nat.le_succ _, hI⟩
          unfold dijkstraRelaxEdge
          rw [hcost, hwv]
          show (if cutoffOK A ((st.dist v).getD 0 + c) = false then Except.ok st else _) = _
          rw [hcut, hgd, hdu, if_neg (by simp)]
          simp only [if_neg hnlt, if_pos hpe]
        · refine ⟨st, ?_, rfl, Nat.le_succ _, hI⟩
          unfold dijkstraRelaxEdge
          rw [hcost, hwv]
          show (if cutoffOK A ((st.dist v).getD 0 + c) = false then Except.ok st else _) = _
          rw [hcut, hgd, hdu, if_neg (by simp)]
          simp only [if_neg hnlt, if_neg hpe]
      | none =>
        by_cases hs : st.seen u = none ∨ (st.dist v).getD 0 + c < (st.seen u).getD 0
        · refine ⟨{ st with
              seen := updF st.seen u ((st.dist v).getD 0 + c)
              fringe := st.fringe ++ [((st.dist v).getD 0 + c, st.ctr, u)]
              ctr := st.ctr + 1
              paths := if A.usePaths then updF st.paths u ((st.paths v).getD [] ++ [u])
                else st.paths
              pred := if A.usePred then updF st.pred u [v] else st.pred },
            ?_, rfl, ?_, ?_⟩
          · unfold dijkstraRelaxEdge
            rw [hcost, hwv]
            show (if cutoffOK A ((st.dist v).getD 0 + c) = false then Except.ok st else _) = _
            rw [hcut, hdu, if_neg (by simp)]
            simp only [if_pos hs]
          · show (st.fringe ++ [((st.dist v).getD 0 + c, st.ctr, u)]).length ≤
              st.fringe.length + 1
            rw [List.length_append, List.length_singleton]
          · intro x dx hx e he
            dsimp only at hx he
            rcases List.mem_append.mp he with h1 | h2
            · exact hI x dx hx e h1
            · rw [List.mem_singleton] at h2
              subst h2
              show dx ≤ (st.dist v).getD 0 + c
              rw [hgd]
              have := hmax x dx hx
              omega
        · by_cases he2 : (st.dist v).getD 0 + c = (st.seen u).getD 0
          · by_cases hup : A.usePred = true
            · refine ⟨{ st with pred := updF st.pred u ((st.pred u).getD [] ++ [v]) },
                ?_, rfl, Nat.le_succ _, hI⟩
              unfold dijkstraRelaxEdge
              rw [hcost, hwv]
              show (if cutoffOK A ((st.dist v).getD 0 + c) = false then Except.ok st
                else _) = _
              rw [hcut, hdu, if_neg (by simp)]
              simp only [if_neg hs, if_pos he2, if_pos hup]
            · refine ⟨st, ?_, rfl, Nat.le_succ _, hI⟩
              unfold dijkstraRelaxEdge
              rw [hcost, hwv]
              show (if cutoffOK A ((st.dist v).getD 0 + c) = false then Except.ok st
                else _) = _
              rw [hcut, hdu, if_neg (by simp)]
              simp only [if_neg hs, if_pos he2, if_neg hup]
          · refine ⟨st, ?_, rfl, Nat.le_succ _, hI⟩
            unfold dijkstraRelaxEdge
            rw [hcost, hwv]
            show (if cutoffOK A ((st.dist v).getD 0 + c) = false then Except.ok st
              else _) = _
            rw [hcut, hdu, if_neg (by simp)]
            simp only [if_neg hs, if_neg he2]

/-- Relaxing all out-edges of a just-settled dominating node never errors,
keeps `dist`, grows the heap by at most the edge count, and preserves the
monotonicity invariant. -/
theorem noContra_list {g : Graph} {A : DijkArgs} {v : Nat} {d : Int}
    (hnw : A.nodeWeight = none) (hnn : NonnegW g A.w) :
    ∀ (l : List Nat) (st : DState), (∀ u ∈ l, u ∈ g.adj v) →
    st.dist v = some d →
    (∀ x dx, st.dist x = some dx → dx ≤ d) →
    DMono st →
    ∃ st', dijkstraRelaxList A v l st = .ok st' ∧
      st'.dist = st.dist ∧
      st'.fringe.length ≤ st.fringe.length + l.length ∧
      DMono st' := by
  intro l
  induction l with
  | nil =>
    intro st hl hv hmax hI
    exact ⟨st, rfl, rfl, Nat.le_add_right _ _, hI⟩
  | cons u rest ih =>
    intro st hl hv hmax hI
    obtain ⟨st1, hok1, hd1, hlen1, hI1⟩ :=
      noContra_edge hnw hnn (hl u (List.mem_cons_self u rest)) hv hmax hI
    obtain ⟨st2, hok2, hd2, hlen2, hI2⟩ :=
      ih st1 (fun x hx => hl x (List.mem_cons_of_mem u hx))
        (by rw [hd1]; exact hv)
        (fun x dx hx => hmax x dx (by rw [← hd1]; exact hx)) hI1
    refine ⟨st2, ?_, ?_, ?_, hI2⟩
    · unfold dijkstraRelaxList
      rw [hok1]
      exact hok2
    · rw [hd2, hd1]
    · simp only [List.length_cons]
      omega

/-- With no node-weight map the main loop never errors, for any cutoff,
target and flags: settled keys dominate all finalized distances, so the
contradictory-paths branch is never taken. -/
theorem noContra_loop {g : Graph} {A : DijkArgs}
    (hnw : A.nodeWeight = none) (hnn : NonnegW g A.w) :
    ∀ (fuel : Nat) (st : DState), phi g st < fuel → DMono st →
    ∃ st', dijkstraLoop g A fuel st = .ok st' := by
  intro fuel
  induction fuel with
  | zero =>
    intro st hphi
    exact absurd hphi (Nat.not_lt_zero _)
  | succ n ih =>
    intro st hphi hI
    cases hpop : popMin st.fringe with
    | none =>
      refine ⟨st, ?_⟩
      simp only [dijkstraLoop, hpop]
    | some pr =>
      obtain ⟨⟨d, i, v⟩, rest⟩ := pr
      obtain ⟨hmem, hrest, hminA⟩ := popMin_spec hpop
      by_cases hdv : (st.dist v).isSome = true
      · have hI1 : DMono { st with fringe := rest } := by
          intro x dx hx e he
          dsimp only at hx he
          exact hI x dx hx e (List.mem_of_mem_erase (hrest ▸ he))
        have hphi1 : phi g { st with fringe := rest } < n := by
          have h2 := phi_drop (g := g) st { st with fringe := rest } rfl hrest hmem
          omega
        obtain ⟨st', hrun⟩ := ih { st with fringe := rest } hphi1 hI1
        refine ⟨st', ?_⟩
        simp only [dijkstraLoop, hpop]
        rw [if_pos hdv]
        exact hrun
      · have hdvn : st.dist v = none := Option.not_isSome_iff_eq_none.mp hdv
        have hv1 : ({ st with dist := updF st.dist v d, fringe := rest } : DState).dist v =
            some d := updF_same st.dist v d
        have hmax1 : ∀ x dx,
            ({ st with dist := updF st.dist v d, fringe := rest } : DState).dist x =
              some dx → dx ≤ d := by
          intro x dx hx
          dsimp only at hx
          by_cases hxv : x = v
          · rw [hxv, updF_same] at hx
            cases hx
            exact le_refl _
          · rw [updF_ne hxv] at hx
            exact hI x dx hx (d, i, v) hmem
        have hI1 : DMono { st with dist := updF st.dist v d, fringe := rest } := by
          intro x dx hx e he
          dsimp only at hx he
          have he' : e ∈ st.fringe := List.mem_of_mem_erase (hrest ▸ he)
          by_cases hxv : x = v
          · rw [hxv, updF_same] at hx
            cases hx
            exact hminA e he'
          · rw [updF_ne hxv] at hx
            exact hI x dx hx e he'
        by_cases htv : A.target = some v
        · refine ⟨{ st with dist := updF st.dist v d, fringe := rest }, ?_⟩
          simp only [dijkstraLoop, hpop]
          rw [if_neg hdv, if_pos htv]
        · obtain ⟨st2, hok2, hd2, hlen2, hI2⟩ :=
            noContra_list hnw hnn (g.adj v)
              { st with dist := updF st.dist v d, fringe := rest }
              (fun x hx => hx) hv1 hmax1 hI1
          have hphi2 : phi g st2 < n := by
            have hd2' : st2.dist = updF st.dist v d := hd2
            have hlen' : st2.fringe.length + 1 ≤ st.fringe.length + (g.adj v).length := by
              have ha : st2.fringe.length ≤ rest.length + (g.adj v).length := hlen2
              have hb : rest.length = st.fringe.length - 1 := by
                rw [hrest]
                exact List.length_erase_of_mem hmem
              have hc : 0 < st.fringe.length := List.length_pos_of_mem hmem
              omega
            have h2 := phi_settle (g := g) st st2 hd2' hlen' hdvn
            omega
          obtain ⟨st', hrun⟩ := ih st2 hphi2 hI2
          refine ⟨st', ?_⟩
          simp only [dijkstraLoop, hpop]
          rw [if_neg hdv, if_neg htv]
          rw [hok2]
          exact hrun

/-- Under a non-negative weight function and no node-weight map the core
never raises the contradictory-paths error — for any sources, target,
cutoff, `pred`/`paths` flags and caller-seeded dictionaries. -/
theorem uni_no_contradictory {g : Graph} {w : Nat → Nat → Option Int} {S : List Nat}
    (hnn : NonnegW g w) (co : Option Int) (tgt : Option Nat) (up upr : Bool)
    (p0 q0 : NMap (List Nat)) :
    dijkstra_multisource g ⟨w, none, co, tgt, up, upr⟩ S p0 q0 ≠
      .error .contradictory := by
  rcases dijkstraInitLoop_cases g none S (dijkstraStart p0 q0) with hinit | hmem
  · unfold dijkstra_multisource
    dsimp only
    rw [hinit]
    intro h
    cases (Except.error.inj h)
  · obtain ⟨st', hrun⟩ :=
      noContra_loop (g := g) (A := ⟨w, none, co, tgt, up, upr⟩) rfl hnn
        (dijkstraFuel g S) (dijkstraSeeded S p0 q0) (phi_seeded_lt g S _ _)
        (fun x dx hx => Option.noConfusion (show (none : Option Int) = some dx from hx))
    have hms : dijkstra_multisource g ⟨w, none, co, tgt, up, upr⟩ S p0 q0 =
        .ok st' := by
      unfold dijkstra_multisource
      dsimp only
      rw [dijkstra_init_seeding g none S p0 q0 hmem]
      exact hrun
    rw [hms]
    exact fun h => Except.noConfusion h

/-- Under non-negative total weights the bidirectional search never raises
the contradictory-paths error. -/
theorem bd_no_contradictory {g : Graph} {w : Nat → Nat → Option Int}
    {source target : Nat} (hrev : RevOK g) (hnt : NonnegTotalW g w) :
    bidirectional_dijkstra g w source target ≠ .error .contradictory := by
  by_cases hm : source ∉ g.nodes ∨ target ∉ g.nodes
  · unfold bidirectional_dijkstra
    rw [if_pos hm]
    intro h
    cases (Except.error.inj h)
  · push_neg at hm
    by_cases hst : source = target
    · unfold bidirectional_dijkstra
      rw [if_neg (not_or.mpr ⟨fun h => h hm.1, fun h => h hm.2⟩), if_pos hst]
      exact fun h => Except.noConfusion h
    · rcases bd_run hrev hnt hm.1 hm.2 hst with ⟨herr, -⟩ | ⟨L, P, hok, -⟩
      · rw [herr]
        intro h
        cases (Except.error.inj h)
      · rw [hok]
        exact fun h => Except.noConfusion h

/-- C8 counterexample — a call of the Dijkstra core with a non-negative
weight function but a node-weight map holding a negative entry raises the
contradictory-paths error: on `gC8` (edges `0 → 1` weight 3, `0 → 2`
weight 1, `2 → 1` weight 0) with `node_weight[1] = -3`, relaxing `2 → 1`
computes `1 + (0 - 3) = -2 < dist[1] = 0` (source lines 824-834), so the
original claim's unreachability under a non-negative weight function alone
is false. -/
theorem dijkstra_node_weight_contradictory :
    NonnegW gC8 wC8 ∧
    dijkstra_multisource gC8 ⟨wC8, some nwC8, none, none, false, false⟩ [0]
      (fun _ => none) (fun _ => none) = .error .contradictory :=
  ⟨by unfold NonnegW; decide, by rfl⟩

/-- C8 (amended) — the contradictory-paths error is raised by a relaxation
of the unidirectional or bidirectional Dijkstra core exactly when the
tentative cost it computes towards an already-finalized node (edge weight
plus `node_weight[u]` when a node-weight map is supplied, surviving the
cutoff test) is strictly below that node's finalized distance; and when no
node-weight map is supplied and the weight function is non-negative on
every edge, the branch is unreachable: no call of
`_dijkstra_multisource` (any sources, target, cutoff, flags and
caller-seeded dictionaries) and no call of `bidirectional_dijkstra`
returns this error. -/
theorem contradictory_exactly_and_unreachable (g : Graph)
    (w : Nat → Nat → Option Int) (S : List Nat) (source target : Nat)
    (A : DijkArgs) (dir : Bool) (v u : Nat) (st : DState) (bst : BDState)
    (hnn : NonnegW g w) (hrev : RevOK g) (hnt : NonnegTotalW g w) :
    (dijkstraRelaxEdge A v u st = .error .contradictory ↔
      ∃ cost du, dijkstraCost A v u = some cost ∧
        cutoffOK A ((st.dist v).getD 0 + cost) = true ∧
        st.dist u = some du ∧ (st.dist v).getD 0 + cost < du) ∧
    (bdRelaxEdge w dir v u bst = .error .contradictory ↔
      ∃ c du, (if dir then w u v else w v u) = some c ∧
        (bst.side dir).dist u = some du ∧
        ((bst.side dir).dist v).getD 0 + c < du) ∧
    (∀ (co : Option Int) (tgt : Option Nat) (up upr : Bool)
      (p0 q0 : NMap (List Nat)),
      dijkstra_multisource g ⟨w, none, co, tgt, up, upr⟩ S p0 q0 ≠
        .error .contradictory) ∧
    bidirectional_dijkstra g w source target ≠ .error .contradictory :=
  ⟨relax_contradictory_iff A v u st,
   bd_relax_contradictory_iff w dir v u bst,
   fun co tgt up upr p0 q0 => uni_no_contradictory hnn co tgt up upr p0 q0,
   bd_no_contradictory hrev hnt⟩

theorem contradictory_exactly_and_unreachable_witness :
    NonnegW gC3 wC1 ∧ RevOK gC3 ∧ NonnegTotalW gC3 wC1 ∧
    ((dijkstraRelaxEdge ⟨wC1, none, none, none, true, true⟩ 0 1
        (dijkstraSeeded [0] (sourcesPaths [0]) (fun _ => none)) =
          .error .contradictory ↔
      ∃ cost du, dijkstraCost ⟨wC1, none, none, none, true, true⟩ 0 1 = some cost ∧
        cutoffOK ⟨wC1, none, none, none, true, true⟩
          (((dijkstraSeeded [0] (sourcesPaths [0]) (fun _ => none)).dist 0).getD 0 +
            cost) = true ∧
        (dijkstraSeeded [0] (sourcesPaths [0]) (fun _ => none)).dist 1 = some du ∧
        ((dijkstraSeeded [0] (sourcesPaths [0]) (fun _ => none)).dist 0).getD 0 +
          cost < du) ∧
    (bdRelaxEdge wC1 false 0 1
        { fwd := bdInitF 0, bwd := bdInitB 2, ctr := 2,
          finaldist := none, finalpath := [] } = .error .contradictory ↔
      ∃ c du, (if false then wC1 1 0 else wC1 0 1) = some c ∧
        (({ fwd := bdInitF 0, bwd := bdInitB 2, ctr := 2,
            finaldist := none, finalpath := [] } : BDState).side false).dist 1 =
          some du ∧
        ((({ fwd := bdInitF 0, bwd := bdInitB 2, ctr := 2,
              finaldist := none, finalpath := [] } : BDState).side false).dist 0).getD 0 +
          c < du) ∧
    (∀ (co : Option Int) (tgt : Option Nat) (up upr : Bool)
      (p0 q0 : NMap (List Nat)),
      dijkstra_multisource gC3 ⟨wC1, none, co, tgt, up, upr⟩ [0] p0 q0 ≠
        .error .contradictory) ∧
    bidirectional_dijkstra gC3 wC1 0 2 ≠ .error .contradictory) :=
  ⟨by unfold NonnegW; decide, by unfold RevOK; decide, by unfold NonnegTotalW; decide,
    contradictory_exactly_and_unreachable gC3 wC1 [0] 0 2
      ⟨wC1, none, none, none, true, true⟩ false 0 1
      (dijkstraSeeded [0] (sourcesPaths [0]) (fun _ => none))
      { fwd := bdInitF 0, bwd := bdInitB 2, ctr := 2,
        finaldist := none, finalpath := [] }
      (by unfold NonnegW; decide) (by unfold RevOK; decide)
      (by unfold NonnegTotalW; decide)⟩

end NX